import Mathlib

/-!
Verification development for the federated GraphQL query planner.

The development shallowly embeds:
* the query AST and the display/formatting code of
  `graphql-parser/src/query/format.rs` (the `Displayable` impls are
  translated one by one; the `Formatter` core and the reference AST
  (`refs`) live outside the provided sources and are modelled from the
  spec where noted);
* the public planner surface of `query-planner/src/lib.rs`
  (`QueryPlanError`, `QueryPlanner::new`, `QueryPlanner::plan`,
  `QueryPlanningOptions`);
* the host shim of `query-planner-wasm/src/lib.rs`
  (`get_query_planner`, `get_query_plan`) as explicit state passing;
* a parser for the formatter's output grammar, modelled from the spec's
  grammar of the operation AST, to settle the formatting round-trip.

Rust panics (`expect`, `unwrap`, out-of-bounds indexing) are modelled by
an explicit `PanicOr` outcome type.
-/

namespace Fed

/-! ## Query AST (from `graphql-parser`, shapes as used by `format.rs`) -/

/-- Values of GraphQL arguments (`Value` in the query AST).  `Txt` is
modelled as `String`.  The `int` payload models the `i64` inside the
source's `Number`; `float` stores the decimal text that Rust's `f64`
`Display` would produce, since floating point is not modelled. -/
inductive Value where
  | variable (name : String)
  | int (n : Int)
  | float (text : String)
  | string (s : String)
  | boolean (b : Bool)
  | null
  | enum (name : String)
  | list (items : List Value)
  | object (fields : List (String × Value))

/-- A directive: `@name(args)`. -/
structure Directive where
  name : String
  arguments : List (String × Value)

/-- A fragment spread selection: `...name @dirs`. -/
structure FragmentSpread where
  fragment_name : String
  directives : List Directive

mutual

/-- One selection inside a selection set. -/
inductive Selection where
  | field : Field → Selection
  | inlineFragment : InlineFragment → Selection
  | fragmentSpread : FragmentSpread → Selection

/-- A field selection: `alias: name(args) @dirs { sub }`. -/
inductive Field where
  | mk (alias_ : Option String) (name : String)
      (arguments : List (String × Value)) (directives : List Directive)
      (selection_set : SelectionSet)

/-- An inline fragment: `... on Cond @dirs { sub }`. -/
inductive InlineFragment where
  | mk (type_condition : Option String) (directives : List Directive)
      (selection_set : SelectionSet)

/-- A selection set: a list of selections. -/
inductive SelectionSet where
  | mk (items : List Selection)

end

/-- The `items` projection of `SelectionSet`. -/
def SelectionSet.items : SelectionSet → List Selection
  | .mk l => l

/-- GraphQL type references (`Type` in the source; renamed because `Type`
is reserved in Lean). -/
inductive GqlType where
  | namedType (name : String)
  | listType (inner : GqlType)
  | nonNullType (inner : GqlType)

/-- A variable definition `$name: Type = default`. -/
structure VariableDefinition where
  name : String
  var_type : GqlType
  default_value : Option Value

/-- Operation kinds; `as_str` below mirrors the source's
`Operation::as_str`. -/
inductive OperationKind where
  | query
  | mutation
  | subscription

/-- The keyword the source prints for an operation kind. -/
def OperationKind.as_str : OperationKind → String
  | .query => "query"
  | .mutation => "mutation"
  | .subscription => "subscription"

/-- An operation definition. -/
structure OperationDefinition where
  kind : OperationKind
  name : Option String
  variable_definitions : List VariableDefinition
  directives : List Directive
  selection_set : SelectionSet

/-- A fragment definition `fragment Name on Cond @dirs { sub }`. -/
structure FragmentDefinition where
  name : String
  type_condition : String
  directives : List Directive
  selection_set : SelectionSet

/-- A top-level definition of a query document. -/
inductive Definition where
  | selectionSet : SelectionSet → Definition
  | operation : OperationDefinition → Definition
  | fragment : FragmentDefinition → Definition

/-- A parsed query document. -/
structure Document where
  definitions : List Definition

/-! ## Reference AST (`query::refs`).

Modelled from the spec: the `refs` module itself is not among the
provided sources; §4.7 describes it as a tagged union of borrowed or
synthesized selections sharing the display contract, and `format.rs`
fixes exactly which components each variant carries. -/

/-- A fragment spread reference; per `format.rs` it carries only a name
(no directives are printed for it). -/
structure FragmentSpreadRef where
  name : String

mutual

/-- A selection in the reference AST: either a borrowed original
selection, an owned `Field`, or one of the synthesized reference
variants. -/
inductive SelectionRef where
  | ref : Selection → SelectionRef
  | field : Field → SelectionRef
  | fieldRef : FieldRef → SelectionRef
  | inlineFragmentRef : InlineFragmentRef → SelectionRef
  | fragmentSpreadRef : FragmentSpreadRef → SelectionRef

/-- A synthesized field whose sub-selections are reference selections. -/
inductive FieldRef where
  | mk (alias_ : Option String) (name : String)
      (arguments : List (String × Value)) (directives : List Directive)
      (selection_set : SelectionSetRef)

/-- A synthesized inline fragment over reference selections. -/
inductive InlineFragmentRef where
  | mk (type_condition : Option String) (directives : List Directive)
      (selection_set : SelectionSetRef)

/-- A selection set of reference selections. -/
inductive SelectionSetRef where
  | mk (items : List SelectionRef)

end

/-- The `items` projection of `SelectionSetRef`. -/
def SelectionSetRef.items : SelectionSetRef → List SelectionRef
  | .mk l => l

/-! ## The formatter core.

Modelled from the spec: `crate::format` (the `Formatter`, `Style`,
`format_directives` and `write_quoted` helpers) is not among the provided
sources.  §4.8 specifies a deterministic pretty-printer with consistent
indentation, space-before-block, `", "`-separated one-line argument
lists, and no trailing whitespace; the methods used by `format.rs` are
`write`, `indent`, `endline`, `margin`, `start_block`, `end_block` and
`write_quoted`, modelled here with their evident buffer semantics. -/

/-- Formatting style; `indent` is the number of spaces a block adds. -/
structure Style where
  indent : Nat

/-- The default style: two-space indentation. -/
def Style.default : Style := ⟨2⟩

/-- The formatter state: an output buffer and the current indentation
width in spaces. -/
structure Formatter where
  buf : String
  indentLvl : Nat
  style : Style

/-- A fresh formatter for a style. -/
def Formatter.new (style : Style) : Formatter := ⟨"", 0, style⟩

/-- Append raw text to the buffer. -/
def Formatter.write (f : Formatter) (s : String) : Formatter :=
  { f with buf := f.buf ++ s }

/-- A run of `n` spaces. -/
def spacesStr (n : Nat) : String := String.mk (List.replicate n ' ')

/-- Write the current indentation. -/
def Formatter.indent (f : Formatter) : Formatter := f.write (spacesStr f.indentLvl)

/-- End the current line. -/
def Formatter.endline (f : Formatter) : Formatter := f.write ("\n")

/-- Open a block: write the opening brace, end the line, and deepen the
indentation by the style's step. -/
def Formatter.start_block (f : Formatter) : Formatter :=
  let g := (f.write ("\x7b")).endline
  { g with indentLvl := g.indentLvl + g.style.indent }

/-- Close a block: shrink the indentation, indent, write the closing
brace and end the line. -/
def Formatter.end_block (f : Formatter) : Formatter :=
  let g := { f with indentLvl := f.indentLvl - f.style.indent }
  (g.indent.write ("\x7d")).endline

/-- A blank separating line, except at the very start of the output. -/
def Formatter.margin (f : Formatter) : Formatter :=
  if f.buf = "" then f else f.write ("\n")

/-- The escape sequence for one character inside a quoted string. -/
def escapeChar (c : Char) : List Char :=
  if c = '"' then ['\\', '"']
  else if c = '\\' then ['\\', '\\']
  else if c = '\n' then ['\\', 'n']
  else if c = '\r' then ['\\', 'r']
  else if c = '\t' then ['\\', 't']
  else [c]

/-- Write a string literal with quotes and escapes. -/
def Formatter.write_quoted (f : Formatter) (s : String) : Formatter :=
  f.write ("\"" ++ String.mk (s.data.map escapeChar).flatten ++ "\"")

/-- Extract the finished output. -/
def Formatter.into_string (f : Formatter) : String := f.buf

/-! ## Display implementations, translated from `format.rs`. -/

/-- The digit character for `n < 10`. -/
def digitChar (n : Nat) : Char := Char.ofNat (48 + n)

/-- Decimal digits of a natural number, most significant first. -/
def natDecimalChars (n : Nat) : List Char :=
  if _h : n < 10 then [digitChar n]
  else natDecimalChars (n / 10) ++ [digitChar (n % 10)]
decreasing_by
  exact Nat.div_lt_self (by omega) (by omega)

/-- The text Rust's `i64` `Display` produces, modelling
`format!("\x7b\x7d", num)` on the `Int` payload. -/
def i64Display (n : Int) : String :=
  if n < 0 then String.mk ('-' :: natDecimalChars n.natAbs)
  else String.mk (natDecimalChars n.natAbs)

mutual

/-- `Displayable for Value` from `format.rs`. -/
def Value.display : Value → Formatter → Formatter
  | .variable name, f => (f.write ("$")).write name
  | .int n, f => f.write (i64Display n)
  | .float text, f => f.write text
  | .string s, f => f.write_quoted s
  | .boolean true, f => f.write ("true")
  | .boolean false, f => f.write ("false")
  | .null, f => f.write ("null")
  | .enum name, f => f.write name
  | .list [], f => (f.write ("[")).write ("]")
  | .list (x :: rest), f =>
      (Value.displayListTail rest (Value.display x (f.write ("[")))).write ("]")
  | .object [], f => (f.write ("\x7b")).write ("\x7d")
  | .object ((n, v) :: rest), f =>
      (Value.displayObjectTail rest
        (Value.display v (((f.write ("\x7b")).write n).write (": ")))).write ("\x7d")

/-- The loop over `&items[1..]` in the `Value::List` arm. -/
def Value.displayListTail : List Value → Formatter → Formatter
  | [], f => f
  | x :: rest, f => Value.displayListTail rest (Value.display x (f.write (", ")))

/-- The non-first iterations of the `Value::Object` loop. -/
def Value.displayObjectTail : List (String × Value) → Formatter → Formatter
  | [], f => f
  | (n, v) :: rest, f =>
      Value.displayObjectTail rest (Value.display v (((f.write (", ")).write n).write (": ")))

end

/-- `format_arguments` from `format.rs`: nothing for an empty list,
otherwise a parenthesized one-line `name: value` list separated by
`", "`. -/
def format_arguments : List (String × Value) → Formatter → Formatter
  | [], f => f
  | (n, v) :: rest, f =>
    let f := f.write ("(")
    let f := Value.display v ((f.write n).write (": "))
    let f := rest.foldl (fun f a => Value.display a.2 (((f.write (", ")).write a.1).write (": "))) f
    f.write (")")

/-- `Displayable for Directive` from `format.rs`. -/
def Directive.display (d : Directive) (f : Formatter) : Formatter :=
  format_arguments d.arguments ((f.write ("@")).write d.name)

/-- `format_directives`.  Modelled from the spec: the helper lives in the
absent `crate::format`; it writes a space before each directive. -/
def format_directives (directives : List Directive) (f : Formatter) : Formatter :=
  directives.foldl (fun f d => Directive.display d (f.write (" "))) f

/-- `Displayable for FragmentSpread` from `format.rs`. -/
def FragmentSpread.display (x : FragmentSpread) (f : Formatter) : Formatter :=
  (format_directives x.directives ((f.indent.write ("...")).write x.fragment_name)).endline

mutual

/-- `Displayable for Selection` from `format.rs`. -/
def Selection.display : Selection → Formatter → Formatter
  | .field fld, f => Field.display fld f
  | .inlineFragment frag, f => InlineFragment.display frag f
  | .fragmentSpread frag, f => FragmentSpread.display frag f

/-- The `field_impl!` body for owned `Field`s: indent, optional alias,
name, arguments, directives, then either a block of sub-selections or
the end of the line. -/
def Field.display : Field → Formatter → Formatter
  | .mk alias_ name arguments directives (.mk items), f =>
    let f := f.indent
    let f := match alias_ with
      | some a => (f.write a).write (": ")
      | none => f
    let f := f.write name
    let f := format_arguments arguments f
    let f := format_directives directives f
    match items with
    | [] => f.endline
    | x :: rest =>
      (Selection.displayList (x :: rest) ((f.write (" ")).start_block)).end_block

/-- The `inline_fragment_impl!` body for owned `InlineFragment`s. -/
def InlineFragment.display : InlineFragment → Formatter → Formatter
  | .mk type_condition directives (.mk items), f =>
    let f := f.indent.write ("...")
    let f := match type_condition with
      | some cond => (f.write (" on ")).write cond
      | none => f
    let f := format_directives directives f
    (Selection.displayList items ((f.write (" ")).start_block)).end_block

/-- Displaying each item of a selection set in order. -/
def Selection.displayList : List Selection → Formatter → Formatter
  | [], f => f
  | s :: rest, f => Selection.displayList rest (Selection.display s f)

end

/-- `Displayable for SelectionSet` from `format.rs`. -/
def SelectionSet.display (s : SelectionSet) (f : Formatter) : Formatter :=
  (Selection.displayList s.items (f.margin.indent.start_block)).end_block

/-- `Displayable for Type` from `format.rs`. -/
def GqlType.display : GqlType → Formatter → Formatter
  | .namedType name, f => f.write name
  | .listType t, f => (GqlType.display t (f.write ("["))).write ("]")
  | .nonNullType t, f => (GqlType.display t f).write ("!")

/-- `Displayable for VariableDefinition` from `format.rs`. -/
def VariableDefinition.display (v : VariableDefinition) (f : Formatter) : Formatter :=
  let f := GqlType.display v.var_type (((f.write ("$")).write v.name).write (": "))
  match v.default_value with
  | some d => Value.display d (f.write (" = "))
  | none => f

/-- `Displayable for OperationDefinition` from `format.rs`.  Note that
the source prints variable definitions only when the operation has a
name. -/
def OperationDefinition.display (op : OperationDefinition) (f : Formatter) : Formatter :=
  let f := f.margin.indent
  let f := f.write op.kind.as_str
  let f := match op.name with
    | some name =>
      let f := (f.write (" ")).write name
      match op.variable_definitions with
      | [] => f
      | v :: rest =>
        let f := VariableDefinition.display v (f.write ("("))
        let f := rest.foldl (fun f w => VariableDefinition.display w (f.write (", "))) f
        f.write (")")
    | none => f
  let f := format_directives op.directives f
  (Selection.displayList op.selection_set.items ((f.write (" ")).start_block)).end_block

/-- `Displayable for FragmentDefinition` from `format.rs`. -/
def FragmentDefinition.display (x : FragmentDefinition) (f : Formatter) : Formatter :=
  let f := f.margin.indent
  let f := (((f.write ("fragment ")).write x.name).write (" on ")).write x.type_condition
  let f := format_directives x.directives f
  (Selection.displayList x.selection_set.items ((f.write (" ")).start_block)).end_block

/-- `Displayable for Definition` from `format.rs`. -/
def Definition.display : Definition → Formatter → Formatter
  | .selectionSet s, f => SelectionSet.display s f
  | .operation op, f => OperationDefinition.display op f
  | .fragment frag, f => FragmentDefinition.display frag f

/-- `Displayable for Document` from `format.rs`. -/
def Document.display (doc : Document) (f : Formatter) : Formatter :=
  doc.definitions.foldl (fun f d => Definition.display d f) f

/-- `Document::format`: run the display against a fresh formatter for
the style and extract the output. -/
def Document.format (doc : Document) (style : Style) : String :=
  (doc.display (Formatter.new style)).into_string

/-- `Displayable for FragmentSpreadRef` from `format.rs`: note there are
no directives, unlike the owned variant. -/
def FragmentSpreadRef.display (x : FragmentSpreadRef) (f : Formatter) : Formatter :=
  ((f.indent.write ("...")).write x.name).endline

mutual

/-- `Displayable for SelectionRef` from `format.rs`: a borrowed original
selection displays through the owned code. -/
def SelectionRef.display : SelectionRef → Formatter → Formatter
  | .ref r, f => Selection.display r f
  | .field fld, f => Field.display fld f
  | .fieldRef fr, f => FieldRef.display fr f
  | .inlineFragmentRef inl, f => InlineFragmentRef.display inl f
  | .fragmentSpreadRef fsr, f => FragmentSpreadRef.display fsr f

/-- The `field_impl!` body for `FieldRef`, identical to the owned one. -/
def FieldRef.display : FieldRef → Formatter → Formatter
  | .mk alias_ name arguments directives (.mk items), f =>
    let f := f.indent
    let f := match alias_ with
      | some a => (f.write a).write (": ")
      | none => f
    let f := f.write name
    let f := format_arguments arguments f
    let f := format_directives directives f
    match items with
    | [] => f.endline
    | x :: rest =>
      (SelectionRef.displayList (x :: rest) ((f.write (" ")).start_block)).end_block

/-- The `inline_fragment_impl!` body for `InlineFragmentRef`. -/
def InlineFragmentRef.display : InlineFragmentRef → Formatter → Formatter
  | .mk type_condition directives (.mk items), f =>
    let f := f.indent.write ("...")
    let f := match type_condition with
      | some cond => (f.write (" on ")).write cond
      | none => f
    let f := format_directives directives f
    (SelectionRef.displayList items ((f.write (" ")).start_block)).end_block

/-- Displaying each reference selection in order. -/
def SelectionRef.displayList : List SelectionRef → Formatter → Formatter
  | [], f => f
  | s :: rest, f => SelectionRef.displayList rest (SelectionRef.display s f)

end

/-- `Displayable for SelectionSetRef` from `format.rs`. -/
def SelectionSetRef.display (s : SelectionSetRef) (f : Formatter) : Formatter :=
  (SelectionRef.displayList s.items (f.margin.indent.start_block)).end_block

/-! ## Rust panic modelling. -/

/-- The outcome of a Rust computation that can panic: either a panic
with its message, or a normal return value.  `expect`, `unwrap` and
out-of-bounds indexing are modelled through this type. -/
inductive PanicOr (α : Type) where
  | panicked (msg : String)
  | ok (val : α)

/-! ## `query-planner/src/lib.rs`. -/

/-- A parse error from `graphql-parser`.  Modelled from the spec: the
parser is a library boundary; only the presence of an error payload
matters here. -/
structure ParseError where
  message : String

/-- `QueryPlanError` from `lib.rs`: exactly three variants.
`InvalidQuery` carries a `&'static str` reason. -/
inductive QueryPlanError where
  | failedParsingSchema (err : ParseError)
  | failedParsingQuery (err : ParseError)
  | invalidQuery (reason : String)

/-- A parsed schema document (`schema::Document`).  Modelled from the
spec: the schema AST lives in the absent schema module of
`graphql-parser`; its internal structure is irrelevant to the claims
settled here, so it is kept opaque as its source text. -/
structure SchemaDocument where
  raw : String

/-- `QueryPlanningOptions` from `lib.rs`. -/
structure QueryPlanningOptions where
  auto_fragmentization : Bool

/-- The value `#[derive(Default)]` produces for `QueryPlanningOptions`:
field-wise defaults, and Rust's `bool::default()` is `false`. -/
def QueryPlanningOptions.default : QueryPlanningOptions := ⟨false⟩

/-- `QueryPlanner` from `lib.rs`: it owns the parsed schema. -/
structure QueryPlanner where
  schema : SchemaDocument

/-- The JSON query-plan tree (`model::QueryPlan`).  Modelled from the
spec: the `model` module is absent; §6 fixes the node shapes.  This is a
selection in the `requires` JSON. -/
inductive QueryPlanSelection where
  | field (name : String) (selections : Option (List QueryPlanSelection))
  | inlineFragment (typeCondition : String) (selections : List QueryPlanSelection)

/-- A plan node (`Fetch`, `Sequence`, `Parallel` or `Flatten`), modelled
from the spec's JSON schema. -/
inductive PlanNode where
  | fetch (service_name : String) (variable_usages : List String)
      (operation : String) (requires : Option (List QueryPlanSelection))
  | sequence (nodes : List PlanNode)
  | parallel (nodes : List PlanNode)
  | flatten (path : List String) (node : PlanNode)

/-- The output query plan: an optional root node. -/
structure QueryPlan where
  node : Option PlanNode

/-- `QueryPlanner::new` from `lib.rs`: parse the schema text and keep
the document.  The source calls `.expect("failed parsing schema")`, so a
parse failure is a panic, not an error return.  The parser itself is a
parameter (`parse_schema` is not among the provided sources). -/
def QueryPlanner.new (parse_schema : String → Except ParseError SchemaDocument)
    (schema : String) : PanicOr QueryPlanner :=
  match parse_schema schema with
  | .error _ => .panicked ("failed parsing schema")
  | .ok d => .ok ⟨d⟩

/-- `QueryPlanner::plan` from `lib.rs`: parse the query text with
`.expect("failed parsing query")` — a panic on parse failure — then hand
the document to `build_query_plan`.  The query parser and the builder
are parameters: both live outside the provided sources. -/
def QueryPlanner.plan (pq : String → Except ParseError Document)
    (build_query_plan : SchemaDocument → Document → QueryPlanningOptions →
      Except QueryPlanError QueryPlan)
    (self : QueryPlanner) (query : String) (options : QueryPlanningOptions) :
    PanicOr (Except QueryPlanError QueryPlan) :=
  match pq query with
  | .error _ => .panicked ("failed parsing query")
  | .ok doc => .ok (build_query_plan self.schema doc options)

/-! ## `query-planner-wasm/src/lib.rs`. -/

/-- The process-wide mutable stores of the host shim:
`static mut SCHEMA: Vec<String>` and `static mut DATA: Vec<QueryPlanner>`. -/
structure WasmState where
  SCHEMA : List String
  DATA : List QueryPlanner

/-- The stores before any call: two empty vectors. -/
def initialWasmState : WasmState := ⟨[], []⟩

/-- The two stores of a reachable shim state: both empty initially, then
always parallel singletons. -/
def WasmInv (st : WasmState) : Prop :=
  st = initialWasmState ∨ ∃ s0 p0, st.SCHEMA = [s0] ∧ st.DATA = [p0]

/-- `get_query_planner` from the wasm shim, as a state transition.  On
the first call it pushes the schema and a fresh planner; afterwards it
overwrites index 0 of both stores.  It returns (a handle to) `DATA[0]`.
Indexing an empty `DATA` in the overwrite branch would be a Rust panic,
as would a schema parse failure inside `QueryPlanner::new`. -/
def get_query_planner (parse_schema : String → Except ParseError SchemaDocument)
    (st : WasmState) (schema : String) : PanicOr (WasmState × QueryPlanner) :=
  if st.SCHEMA.isEmpty then
    match QueryPlanner.new parse_schema schema with
    | .panicked m => .panicked m
    | .ok p =>
      let st2 : WasmState := ⟨st.SCHEMA ++ [schema], st.DATA ++ [p]⟩
      match st2.DATA.head? with
      | some q => .ok (st2, q)
      | none => .panicked ("index out of bounds")
  else
    match QueryPlanner.new parse_schema schema with
    | .panicked m => .panicked m
    | .ok p =>
      match st.DATA with
      | [] => .panicked ("index out of bounds")
      | _ :: rest => .ok (⟨st.SCHEMA.set 0 schema, p :: rest⟩, p)

/-- A finite sequence of `get_query_planner` calls, threading the
process-wide state; stops at the first panic. -/
def run_get_query_planner (parse_schema : String → Except ParseError SchemaDocument) :
    WasmState → List String → PanicOr WasmState
  | st, [] => .ok st
  | st, s :: rest =>
    match get_query_planner parse_schema st s with
    | .panicked m => .panicked m
    | .ok (st2, _) => run_get_query_planner parse_schema st2 rest

/-- `get_query_plan` from the wasm shim: plan the query against the
planner behind the handle with `auto_fragmentization` off, `.unwrap()`
the result — a panic on `Err` — serialize it, and `.unwrap()` again.
The serializer (`JsValue::from_serde`) is a parameter. -/
def get_query_plan {J : Type} (pq : String → Except ParseError Document)
    (build_query_plan : SchemaDocument → Document → QueryPlanningOptions →
      Except QueryPlanError QueryPlan)
    (serialize : QueryPlan → Except String J)
    (planner : QueryPlanner) (query : String) : PanicOr J :=
  match QueryPlanner.plan pq build_query_plan planner query ⟨false⟩ with
  | .panicked m => .panicked m
  | .ok (.error _) => .panicked ("called Result::unwrap on an Err value")
  | .ok (.ok plan) =>
    match serialize plan with
    | .error _ => .panicked ("called Result::unwrap on an Err value")
    | .ok v => .ok v

/-- Does a `plan` outcome return the `Err` value the original claim
describes — an `Err` of kind `FailedParsingQuery`? -/
def returnsFailedParsingQuery : PanicOr (Except QueryPlanError QueryPlan) → Bool
  | .ok (.error (.failedParsingQuery _)) => true
  | _ => false

/-- Does a `new` outcome return normally at all? -/
def PanicOr.isOk {α : Type} : PanicOr α → Bool
  | .ok _ => true
  | .panicked _ => false

/-- A query parser that fails on every input; used to exercise the
parse-failure paths at concrete inputs. -/
def failingQueryParse : String → Except ParseError Document :=
  fun _ => .error ⟨"syntax error"⟩

/-- A schema parser that fails on every input. -/
def failingSchemaParse : String → Except ParseError SchemaDocument :=
  fun _ => .error ⟨"syntax error"⟩

/-- A schema parser that accepts every input, wrapping the text. -/
def okSchemaParse : String → Except ParseError SchemaDocument :=
  fun s => .ok ⟨s⟩

/-- A query parser that accepts every input as the empty document. -/
def okQueryParse : String → Except ParseError Document :=
  fun _ => .ok ⟨[]⟩

/-- A builder that always yields the empty plan. -/
def okBuild : SchemaDocument → Document → QueryPlanningOptions →
    Except QueryPlanError QueryPlan :=
  fun _ _ _ => .ok ⟨none⟩

/-- A builder that always fails with an `InvalidQuery` reason. -/
def errBuild : SchemaDocument → Document → QueryPlanningOptions →
    Except QueryPlanError QueryPlan :=
  fun _ _ _ => .error (.invalidQuery "cannot query field")

/-- A serializer that always succeeds. -/
def okSerialize : QueryPlan → Except String String :=
  fun _ => .ok ("\x7b\x7d")

/-- A serializer that always fails. -/
def errSerialize : QueryPlan → Except String String :=
  fun _ => .error ("serialization failed")

/-! ## Pure output functions.

Each `…Out` function computes, as a plain string, exactly the text the
corresponding `display` implementation appends to the formatter buffer;
the equivalence is proved below.  `w` is the style's indentation step and
`ind` the current indentation width. -/

/-- The text `write_quoted` appends. -/
def quotedOut (s : String) : String :=
  "\"" ++ String.mk (s.data.map escapeChar).flatten ++ "\""

mutual

/-- The text `Value::display` appends. -/
def valueOut : Value → String
  | .variable name => "$" ++ name
  | .int n => i64Display n
  | .float text => text
  | .string s => quotedOut s
  | .boolean true => "true"
  | .boolean false => "false"
  | .null => "null"
  | .enum name => name
  | .list [] => "[" ++ "]"
  | .list (x :: rest) => "[" ++ valueOut x ++ valueListTailOut rest ++ "]"
  | .object [] => "\x7b" ++ "\x7d"
  | .object ((n, v) :: rest) =>
      "\x7b" ++ n ++ ": " ++ valueOut v ++ valueObjectTailOut rest ++ "\x7d"

/-- The text of the non-first list elements. -/
def valueListTailOut : List Value → String
  | [] => ""
  | x :: rest => ", " ++ valueOut x ++ valueListTailOut rest

/-- The text of the non-first object fields. -/
def valueObjectTailOut : List (String × Value) → String
  | [] => ""
  | (n, v) :: rest => ", " ++ n ++ ": " ++ valueOut v ++ valueObjectTailOut rest

end

/-- The characters inside a printed list literal. -/
def valueItemsInner : List Value → List Char
  | [] => []
  | x :: xs => (valueOut x).data ++ (valueListTailOut xs).data

/-- The characters inside a printed object literal. -/
def valueObjectInner : List (String × Value) → List Char
  | [] => []
  | (n, v) :: fs =>
      n.data ++ (':' :: ' ' :: ((valueOut v).data ++ (valueObjectTailOut fs).data))

/-- The text of the non-first arguments. -/
def argumentsTailOut : List (String × Value) → String
  | [] => ""
  | (n, v) :: rest => ", " ++ n ++ ": " ++ valueOut v ++ argumentsTailOut rest

/-- The characters inside a printed argument list. -/
def argumentsInner : List (String × Value) → List Char
  | [] => []
  | (n, v) :: fs =>
      n.data ++ (':' :: ' ' :: ((valueOut v).data ++ (argumentsTailOut fs).data))

/-- The text `format_arguments` appends. -/
def argumentsOut : List (String × Value) → String
  | [] => ""
  | (n, v) :: rest => "(" ++ n ++ ": " ++ valueOut v ++ argumentsTailOut rest ++ ")"

/-- The text `Directive::display` appends. -/
def directiveOut (d : Directive) : String :=
  "@" ++ d.name ++ argumentsOut d.arguments

/-- The text `format_directives` appends. -/
def directivesOut : List Directive → String
  | [] => ""
  | d :: rest => " " ++ directiveOut d ++ directivesOut rest

/-- The text an optional alias contributes. -/
def aliasOut : Option String → String
  | some a => a ++ ": "
  | none => ""

/-- The text an optional type condition contributes. -/
def typeCondOut : Option String → String
  | some cond => " on " ++ cond
  | none => ""

mutual

/-- The text `Selection::display` appends at indentation `ind`. -/
def selOut (w ind : Nat) : Selection → String
  | .field fld => fieldOut w ind fld
  | .inlineFragment frag => inlineFragOut w ind frag
  | .fragmentSpread sp =>
      spacesStr ind ++ "..." ++ sp.fragment_name ++ directivesOut sp.directives ++ "\n"

/-- The text `Field::display` appends at indentation `ind`. -/
def fieldOut (w ind : Nat) : Field → String
  | .mk alias_ name arguments directives (.mk items) =>
    spacesStr ind ++ aliasOut alias_ ++ name ++ argumentsOut arguments ++
      directivesOut directives ++
      (match items with
       | [] => "\n"
       | _ :: _ => " " ++ "\x7b" ++ "\n" ++ itemsOut w (ind + w) items ++
           spacesStr ind ++ "\x7d" ++ "\n")

/-- The text `InlineFragment::display` appends at indentation `ind`. -/
def inlineFragOut (w ind : Nat) : InlineFragment → String
  | .mk type_condition directives (.mk items) =>
    spacesStr ind ++ "..." ++ typeCondOut type_condition ++ directivesOut directives ++
      " " ++ "\x7b" ++ "\n" ++ itemsOut w (ind + w) items ++ spacesStr ind ++ "\x7d" ++ "\n"

/-- The text of a selection list, each item at indentation `ind`. -/
def itemsOut (w ind : Nat) : List Selection → String
  | [] => ""
  | s :: rest => selOut w ind s ++ itemsOut w ind rest

end

/-- The characters of a printed selection between its indentation and
its newline. -/
def selCore (w ind : Nat) : Selection → String
  | .field (.mk alias_ name arguments directives (.mk items)) =>
      aliasOut alias_ ++ name ++ argumentsOut arguments ++ directivesOut directives ++
        (match items with
         | [] => ""
         | _ :: _ => " " ++ "\x7b" ++ "\n" ++ itemsOut w (ind + w) items ++
             spacesStr ind ++ "\x7d")
  | .inlineFragment (.mk type_condition directives (.mk items)) =>
      "..." ++ typeCondOut type_condition ++ directivesOut directives ++
        " " ++ "\x7b" ++ "\n" ++ itemsOut w (ind + w) items ++ spacesStr ind ++ "\x7d"
  | .fragmentSpread sp => "..." ++ sp.fragment_name ++ directivesOut sp.directives

/-- The text `Type::display` appends. -/
def typeOut : GqlType → String
  | .namedType name => name
  | .listType t => "[" ++ typeOut t ++ "]"
  | .nonNullType t => typeOut t ++ "!"

/-- The text `VariableDefinition::display` appends. -/
def varDefOut (v : VariableDefinition) : String :=
  "$" ++ v.name ++ ": " ++ typeOut v.var_type ++
    (match v.default_value with
     | some d => " = " ++ valueOut d
     | none => "")

/-- The text of the non-first variable definitions. -/
def varDefsTailOut : List VariableDefinition → String
  | [] => ""
  | v :: rest => ", " ++ varDefOut v ++ varDefsTailOut rest

/-- The text the operation name and variable definitions contribute;
the source prints variable definitions only under a name. -/
def opNameOut (name : Option String) (vars : List VariableDefinition) : String :=
  match name with
  | some nm =>
    " " ++ nm ++
      (match vars with
       | [] => ""
       | v :: rest => "(" ++ varDefOut v ++ varDefsTailOut rest ++ ")")
  | none => ""

/-- The text `OperationDefinition::display` appends; `first` tells
whether the buffer was empty (`margin` writes nothing then). -/
def opOut (w ind : Nat) (first : Bool) (op : OperationDefinition) : String :=
  (if first then "" else "\n") ++ spacesStr ind ++ op.kind.as_str ++
    opNameOut op.name op.variable_definitions ++ directivesOut op.directives ++
    " " ++ "\x7b" ++ "\n" ++ itemsOut w (ind + w) op.selection_set.items ++
    spacesStr ind ++ "\x7d" ++ "\n"

/-- The text `FragmentDefinition::display` appends. -/
def fragDefOut (w ind : Nat) (first : Bool) (x : FragmentDefinition) : String :=
  (if first then "" else "\n") ++ spacesStr ind ++ "fragment " ++ x.name ++ " on " ++
    x.type_condition ++ directivesOut x.directives ++
    " " ++ "\x7b" ++ "\n" ++ itemsOut w (ind + w) x.selection_set.items ++
    spacesStr ind ++ "\x7d" ++ "\n"

/-- The text `SelectionSet::display` appends (a bare top-level
selection-set definition). -/
def bareSelOut (w ind : Nat) (first : Bool) (s : SelectionSet) : String :=
  (if first then "" else "\n") ++ spacesStr ind ++ "\x7b" ++ "\n" ++
    itemsOut w (ind + w) s.items ++ spacesStr ind ++ "\x7d" ++ "\n"

/-- The text `Definition::display` appends. -/
def defOut (w ind : Nat) (first : Bool) : Definition → String
  | .selectionSet s => bareSelOut w ind first s
  | .operation op => opOut w ind first op
  | .fragment x => fragDefOut w ind first x

/-- The text of a definition list at top level. -/
def defsOut (w : Nat) (first : Bool) : List Definition → String
  | [] => ""
  | d :: rest => defOut w 0 first d ++ defsOut w false rest

/-- The whole document text. -/
def docOut (w : Nat) (doc : Document) : String :=
  defsOut w true doc.definitions

/-- The characters inside a printed variable-definition list. -/
def varDefsInner : List VariableDefinition → List Char
  | [] => []
  | v :: tl => (varDefOut v).data ++ (varDefsTailOut tl).data

/-- The characters of a printed top-level definition between its leading
separator and its trailing newline. -/
def defCore (w : Nat) : Definition → String
  | .selectionSet s => "\x7b" ++ "\n" ++ itemsOut w w s.items ++ "\x7d"
  | .operation op => op.kind.as_str ++ opNameOut op.name op.variable_definitions ++
      directivesOut op.directives ++ " " ++ "\x7b" ++ "\n" ++
      itemsOut w w op.selection_set.items ++ "\x7d"
  | .fragment x => "fragment " ++ x.name ++ " on " ++ x.type_condition ++
      directivesOut x.directives ++ " " ++ "\x7b" ++ "\n" ++
      itemsOut w w x.selection_set.items ++ "\x7d"

/-- A sample document exercising operations, variable definitions with
defaults, directives, aliases, arguments, nested fields, fragment
spreads and fragment definitions. -/
def sampleDocument : Document :=
  Document.mk
    [Definition.operation (OperationDefinition.mk OperationKind.query (some "Q")
      [VariableDefinition.mk "x" (GqlType.nonNullType (GqlType.namedType "Int"))
        (some (Value.int 3))]
      [Directive.mk "traced" []]
      (SelectionSet.mk
        [Selection.field (Field.mk (some "a") "me"
          [("limit", Value.int 5), ("pi", Value.float "-3.25"),
           ("note", Value.string "a\"b\\c\nd")]
          [Directive.mk "skip" [("if", Value.boolean false)]]
          (SelectionSet.mk
            [Selection.field (Field.mk none "name" [] [] (SelectionSet.mk []))])),
         Selection.fragmentSpread (FragmentSpread.mk "F" []),
         Selection.inlineFragment (InlineFragment.mk (some "User") []
           (SelectionSet.mk
             [Selection.field (Field.mk none "id" [] [] (SelectionSet.mk []))]))])),
     Definition.fragment (FragmentDefinition.mk "F" "User" []
       (SelectionSet.mk
         [Selection.field (Field.mk none "email" [] [] (SelectionSet.mk []))]))]

/-! ## Well-formedness.

The round-trip theorem is proved for well-formed documents: GraphQL
names where the grammar expects names, no keyword collisions, and
float values whose stored display text has the printed shape of a
finite `f64` with a fractional part (an optional sign, digits, a dot,
digits); `f64` numerics themselves are not modelled, only the text the
formatter copies out.  String literals are unrestricted: the escapes
the formatter writes are exactly the ones the reader decodes. -/

/-- Characters allowed inside a GraphQL name. -/
def isNameChar (c : Char) : Bool := c.isAlphanum || c = '_'

/-- Characters allowed to start a GraphQL name. -/
def isNameStart (c : Char) : Bool := c.isAlpha || c = '_'

/-- A well-formed GraphQL name. -/
def goodNameB (s : String) : Bool :=
  match s.data with
  | [] => false
  | c :: rest => isNameStart c && rest.all isNameChar

/-- String-literal characters that need no escaping. -/
def stringSafe (c : Char) : Bool :=
  !(c = '"' || c = '\\' || c = '\n' || c = '\r' || c = '\t')

/-- Digits, a dot, digits: the unsigned printed form of a finite `f64`
with a fractional part. -/
def floatCoreB (l : List Char) : Bool :=
  !(l.takeWhile Char.isDigit).isEmpty &&
    (match l.dropWhile Char.isDigit with
     | [] => false
     | c :: r => c = '.' && !r.isEmpty && r.all Char.isDigit)

/-- A float's display text: an optional minus sign before the core. -/
def floatTextB (t : String) : Bool :=
  match t.data with
  | [] => false
  | c :: l => if c = '-' then floatCoreB l else floatCoreB (c :: l)

mutual

/-- Well-formed values. -/
def wfValue : Value → Bool
  | .variable n => goodNameB n
  | .int _ => true
  | .float t => floatTextB t
  | .string _ => true
  | .boolean _ => true
  | .null => true
  | .enum n => goodNameB n && !(n = "true" || n = "false" || n = "null")
  | .list items => wfValueList items
  | .object fields => wfValueFields fields

/-- Well-formed value lists. -/
def wfValueList : List Value → Bool
  | [] => true
  | v :: rest => wfValue v && wfValueList rest

/-- Well-formed object fields. -/
def wfValueFields : List (String × Value) → Bool
  | [] => true
  | (n, v) :: rest => goodNameB n && wfValue v && wfValueFields rest

end

/-- Well-formed argument lists. -/
def wfArguments : List (String × Value) → Bool
  | [] => true
  | (n, v) :: rest => goodNameB n && wfValue v && wfArguments rest

/-- Well-formed directives. -/
def wfDirective (d : Directive) : Bool :=
  goodNameB d.name && wfArguments d.arguments

/-- Well-formed directive lists. -/
def wfDirectives : List Directive → Bool
  | [] => true
  | d :: rest => wfDirective d && wfDirectives rest

mutual

/-- Well-formed selections.  A fragment spread must not be named `on`,
which would re-parse as an inline fragment's type condition. -/
def wfSelection : Selection → Bool
  | .field fld => wfField fld
  | .inlineFragment frag => wfInlineFragment frag
  | .fragmentSpread sp =>
      goodNameB sp.fragment_name && !(sp.fragment_name = "on") &&
        wfDirectives sp.directives

/-- Well-formed fields. -/
def wfField : Field → Bool
  | .mk alias_ name args dirs (.mk items) =>
    (match alias_ with | some a => goodNameB a | none => true) &&
      goodNameB name && wfArguments args && wfDirectives dirs && wfSelectionList items

/-- Well-formed inline fragments. -/
def wfInlineFragment : InlineFragment → Bool
  | .mk tc dirs (.mk items) =>
    (match tc with | some c => goodNameB c | none => true) &&
      wfDirectives dirs && wfSelectionList items

/-- Well-formed selection lists. -/
def wfSelectionList : List Selection → Bool
  | [] => true
  | s :: rest => wfSelection s && wfSelectionList rest

end

/-- Is a type reference an outermost non-null wrapper? -/
def GqlType.isNonNull : GqlType → Bool
  | .nonNullType _ => true
  | _ => false

/-- Well-formed type references (no doubled non-null wrappers, which the
grammar cannot express). -/
def wfType : GqlType → Bool
  | .namedType n => goodNameB n
  | .listType t => wfType t
  | .nonNullType t => wfType t && !t.isNonNull

/-- Well-formed variable definitions. -/
def wfVariableDefinition (v : VariableDefinition) : Bool :=
  goodNameB v.name && wfType v.var_type &&
    (match v.default_value with
     | some d => wfValue d
     | none => true)

/-- Well-formed variable definition lists. -/
def wfVariableDefinitions : List VariableDefinition → Bool
  | [] => true
  | v :: rest => wfVariableDefinition v && wfVariableDefinitions rest

/-- Well-formed operations.  An unnamed operation must have no variable
definitions: the source formatter prints them only under a name. -/
def wfOperation (op : OperationDefinition) : Bool :=
  (match op.name with
   | some n => goodNameB n
   | none => op.variable_definitions.isEmpty) &&
    wfVariableDefinitions op.variable_definitions &&
    wfDirectives op.directives && wfSelectionList op.selection_set.items

/-- Well-formed fragment definitions. -/
def wfFragmentDefinition (x : FragmentDefinition) : Bool :=
  goodNameB x.name && goodNameB x.type_condition &&
    wfDirectives x.directives && wfSelectionList x.selection_set.items

/-- Well-formed top-level definitions. -/
def wfDefinition : Definition → Bool
  | .selectionSet s => wfSelectionList s.items
  | .operation op => wfOperation op
  | .fragment x => wfFragmentDefinition x

/-- Well-formed definition lists. -/
def wfDefinitions : List Definition → Bool
  | [] => true
  | d :: rest => wfDefinition d && wfDefinitions rest

/-- Well-formed documents. -/
def wfDocument (d : Document) : Bool := wfDefinitions d.definitions

/-! ## The query parser.

Modelled from the spec: `parse_query` is a library boundary ("turns
source text into an AST", §1), and §3 fixes the grammar of the operation
AST.  A recursive-descent reader over the character list, with GraphQL's
ignored tokens (whitespace, line terminators and commas) skipped between
tokens.  Recursion is bounded by an explicit fuel. -/

/-- GraphQL ignored characters: whitespace, line terminators, commas. -/
def isWsChar (c : Char) : Bool :=
  c = ' ' || c = '\n' || c = '\r' || c = '\t' || c = ','

/-- Drop ignored characters. -/
def skipWs (l : List Char) : List Char := l.dropWhile isWsChar

/-- Read one name token. -/
def takeName (l : List Char) : Option (String × List Char) :=
  let tk := l.takeWhile isNameChar
  if tk.isEmpty then none else some (String.mk tk, l.dropWhile isNameChar)

/-- Require one exact character. -/
def expectChar (c : Char) : List Char → Option (List Char)
  | x :: rest => if x = c then some rest else none
  | [] => none

/-- The value of a digit character. -/
def digitVal (c : Char) : Nat := c.toNat - 48

/-- The value of a digit run, most significant first. -/
def digitsVal (l : List Char) : Nat :=
  l.foldl (fun acc c => 10 * acc + digitVal c) 0

/-- Read one unsigned integer token. -/
def parseNatTok (l : List Char) : Option (Nat × List Char) :=
  let ds := l.takeWhile Char.isDigit
  if ds.isEmpty then none else some (digitsVal ds, l.dropWhile Char.isDigit)

/-- Read one digit run, keeping the raw characters. -/
def takeDigits (l : List Char) : Option (List Char × List Char) :=
  let ds := l.takeWhile Char.isDigit
  if ds.isEmpty then none else some (ds, l.dropWhile Char.isDigit)

/-- Read an integer or float token after an optional consumed minus
sign.  A dot continues into a float, whose raw text is kept, as the AST
stores a float by its display text. -/
def parseNumTok (neg : Bool) (l : List Char) : Option (Value × List Char) :=
  (takeDigits l).bind fun p =>
    match p.2 with
    | [] =>
      some (Value.int (if neg then -(digitsVal p.1 : Int) else (digitsVal p.1 : Int)), [])
    | c :: r2 =>
      if c = '.' then
        (takeDigits r2).map fun q =>
          (Value.float (String.mk ((if neg then ['-'] else []) ++
            (p.1 ++ ('.' :: q.1)))), q.2)
      else
        some (Value.int (if neg then -(digitsVal p.1 : Int) else (digitsVal p.1 : Int)),
          c :: r2)

/-- Decode one escape character. -/
def unescapeChar (c : Char) : Option Char :=
  if c = '"' then some '"'
  else if c = '\\' then some '\\'
  else if c = 'n' then some '\n'
  else if c = 'r' then some '\r'
  else if c = 't' then some '\t'
  else if c = '/' then some '/'
  else none

/-- Read a string-literal body up to the closing quote. -/
def parseStringBody : List Char → Option (List Char × List Char)
  | [] => none
  | c :: rest =>
    if c = '"' then some ([], rest)
    else if c = '\\' then
      rest.head?.bind fun e =>
        (unescapeChar e).bind fun u =>
          (parseStringBody rest.tail).map fun p => (u :: p.1, p.2)
    else (parseStringBody rest).map fun p => (c :: p.1, p.2)
decreasing_by
  · cases rest
    · simp
    · simp
      omega
  · simp

mutual

/-- Parse one value. -/
def parseValue : Nat → List Char → Option (Value × List Char)
  | 0, _ => none
  | fuel + 1, l =>
    match skipWs l with
    | [] => none
    | c :: r =>
      if c = '$' then (takeName r).map fun p => (Value.variable p.1, p.2)
      else if c = '"' then
        (parseStringBody r).map fun p => (Value.string (String.mk p.1), p.2)
      else if c = '[' then (parseValueItems fuel r).map fun p => (Value.list p.1, p.2)
      else if c = '\x7b' then
        (parseObjectFields fuel r).map fun p => (Value.object p.1, p.2)
      else if c = '-' then parseNumTok true r
      else if c.isDigit then parseNumTok false (c :: r)
      else
        (takeName (c :: r)).bind fun p =>
          if p.1 = "true" then some (Value.boolean true, p.2)
          else if p.1 = "false" then some (Value.boolean false, p.2)
          else if p.1 = "null" then some (Value.null, p.2)
          else some (Value.enum p.1, p.2)

/-- Parse list elements up to the closing bracket. -/
def parseValueItems : Nat → List Char → Option (List Value × List Char)
  | 0, _ => none
  | fuel + 1, l =>
    match skipWs l with
    | [] => none
    | c :: r =>
      if c = ']' then some ([], r)
      else
        (parseValue fuel (c :: r)).bind fun p =>
          (parseValueItems fuel p.2).map fun q => (p.1 :: q.1, q.2)

/-- Parse object fields up to the closing brace. -/
def parseObjectFields : Nat → List Char → Option (List (String × Value) × List Char)
  | 0, _ => none
  | fuel + 1, l =>
    match skipWs l with
    | [] => none
    | c :: r =>
      if c = '\x7d' then some ([], r)
      else
        (takeName (c :: r)).bind fun pn =>
          (expectChar ':' (skipWs pn.2)).bind fun r2 =>
            (parseValue fuel r2).bind fun pv =>
              (parseObjectFields fuel pv.2).map fun q => ((pn.1, pv.1) :: q.1, q.2)

/-- Parse arguments after the opening parenthesis. -/
def parseArgumentsRest : Nat → List Char → Option (List (String × Value) × List Char)
  | 0, _ => none
  | fuel + 1, l =>
    match skipWs l with
    | [] => none
    | c :: r =>
      if c = ')' then some ([], r)
      else
        (takeName (c :: r)).bind fun pn =>
          (expectChar ':' (skipWs pn.2)).bind fun r2 =>
            (parseValue fuel r2).bind fun pv =>
              (parseArgumentsRest fuel pv.2).map fun q => ((pn.1, pv.1) :: q.1, q.2)

/-- Parse an argument list if one starts here; the opening parenthesis
attaches directly to the preceding name. -/
def parseOptArguments : Nat → List Char → Option (List (String × Value) × List Char)
  | 0, _ => none
  | fuel + 1, l =>
    match l with
    | [] => some ([], [])
    | c :: r => if c = '(' then parseArgumentsRest fuel r else some ([], c :: r)

/-- Parse zero or more directives. -/
def parseDirectives : Nat → List Char → Option (List Directive × List Char)
  | 0, _ => none
  | fuel + 1, l =>
    match skipWs l with
    | [] => some ([], l)
    | c :: r =>
      if c = '@' then
        (takeName r).bind fun pn =>
          (parseOptArguments fuel pn.2).bind fun pa =>
            (parseDirectives fuel pa.2).map fun q => (⟨pn.1, pa.1⟩ :: q.1, q.2)
      else some ([], l)

/-- Parse a braced selection set. -/
def parseBlock : Nat → List Char → Option (List Selection × List Char)
  | 0, _ => none
  | fuel + 1, l =>
    match skipWs l with
    | [] => none
    | c :: r => if c = '\x7b' then parseSelectionItems fuel r else none

/-- Parse one selection: a fragment spread or inline fragment after
`...`, otherwise a field with optional alias, arguments, directives and
sub-block. -/
def parseSelection : Nat → List Char → Option (Selection × List Char)
  | 0, _ => none
  | fuel + 1, l =>
    match skipWs l with
    | [] => none
    | c :: r =>
      if c = '.' then
        (expectChar '.' r).bind fun r2 =>
          (expectChar '.' r2).bind fun r3 =>
            match skipWs r3 with
            | [] => none
            | c2 :: r4 =>
              if c2 = '@' then
                (parseDirectives fuel (c2 :: r4)).bind fun pd =>
                  (parseBlock fuel pd.2).map fun pb =>
                    (Selection.inlineFragment (.mk none pd.1 (.mk pb.1)), pb.2)
              else if c2 = '\x7b' then
                (parseSelectionItems fuel r4).map fun pb =>
                  (Selection.inlineFragment (.mk none [] (.mk pb.1)), pb.2)
              else
                (takeName (c2 :: r4)).bind fun pn =>
                  if pn.1 = "on" then
                    (takeName (skipWs pn.2)).bind fun pt =>
                      (parseDirectives fuel pt.2).bind fun pd =>
                        (parseBlock fuel pd.2).map fun pb =>
                          (Selection.inlineFragment (.mk (some pt.1) pd.1 (.mk pb.1)), pb.2)
                  else
                    (parseDirectives fuel pn.2).map fun pd =>
                      (Selection.fragmentSpread ⟨pn.1, pd.1⟩, pd.2)
      else
        (takeName (c :: r)).bind fun p1 =>
          (match skipWs p1.2 with
           | [] => some ((none, p1.1), p1.2)
           | c2 :: r2 =>
             if c2 = ':' then
               (takeName (skipWs r2)).map fun p2 => ((some p1.1, p2.1), p2.2)
             else some ((none, p1.1), p1.2) :
            Option ((Option String × String) × List Char)).bind fun pan =>
            (parseOptArguments fuel pan.2).bind fun pa =>
              (parseDirectives fuel pa.2).bind fun pd =>
                (match skipWs pd.2 with
                 | [] => some ([], pd.2)
                 | c3 :: r3 =>
                   if c3 = '\x7b' then
                     (parseSelectionItems fuel r3).map fun pb => (pb.1, pb.2)
                   else some ([], pd.2) :
                  Option (List Selection × List Char)).map fun ps =>
                  (Selection.field (.mk pan.1.1 pan.1.2 pa.1 pd.1 (.mk ps.1)), ps.2)

/-- Parse selections up to the closing brace. -/
def parseSelectionItems : Nat → List Char → Option (List Selection × List Char)
  | 0, _ => none
  | fuel + 1, l =>
    match skipWs l with
    | [] => none
    | c :: r =>
      if c = '\x7d' then some ([], r)
      else
        (parseSelection fuel (c :: r)).bind fun p =>
          (parseSelectionItems fuel p.2).map fun q => (p.1 :: q.1, q.2)

/-- Parse one type reference with an optional non-null marker. -/
def parseType : Nat → List Char → Option (GqlType × List Char)
  | 0, _ => none
  | fuel + 1, l =>
    (match skipWs l with
     | [] => none
     | c :: r =>
       if c = '[' then
         (parseType fuel r).bind fun pt =>
           (expectChar ']' (skipWs pt.2)).map fun r2 => (GqlType.listType pt.1, r2)
       else (takeName (c :: r)).map fun pn => (GqlType.namedType pn.1, pn.2) :
      Option (GqlType × List Char)).bind fun pt =>
      match pt.2 with
      | [] => some pt
      | c2 :: r2 => if c2 = '!' then some (GqlType.nonNullType pt.1, r2) else some pt

/-- Parse variable definitions after the opening parenthesis. -/
def parseVarDefsRest : Nat → List Char → Option (List VariableDefinition × List Char)
  | 0, _ => none
  | fuel + 1, l =>
    match skipWs l with
    | [] => none
    | c :: r =>
      if c = ')' then some ([], r)
      else if c = '$' then
        (takeName r).bind fun pn =>
          (expectChar ':' (skipWs pn.2)).bind fun r2 =>
            (parseType fuel r2).bind fun pt =>
              (match skipWs pt.2 with
               | [] => some (none, pt.2)
               | c2 :: r3 =>
                 if c2 = '=' then (parseValue fuel r3).map fun pv => (some pv.1, pv.2)
                 else some (none, pt.2) :
                Option (Option Value × List Char)).bind fun pd =>
                (parseVarDefsRest fuel pd.2).map fun q =>
                  (⟨pn.1, pt.1, pd.1⟩ :: q.1, q.2)
      else none

/-- Parse the remainder of an operation after its kind keyword: optional
name, optional variable definitions, directives, block. -/
def parseOperationRest : OperationKind → Nat → List Char → Option (OperationDefinition × List Char)
  | _, 0, _ => none
  | kind, fuel + 1, l =>
    (match skipWs l with
     | [] => some (none, l)
     | c :: r =>
       if isNameStart c then (takeName (c :: r)).map fun pn => (some pn.1, pn.2)
       else some (none, l) :
      Option (Option String × List Char)).bind fun pn =>
      (match skipWs pn.2 with
       | [] => some ([], pn.2)
       | c :: r => if c = '(' then parseVarDefsRest fuel r else some ([], pn.2) :
        Option (List VariableDefinition × List Char)).bind fun pv =>
        (parseDirectives fuel pv.2).bind fun pd =>
          (parseBlock fuel pd.2).map fun pb =>
            (⟨kind, pn.1, pv.1, pd.1, .mk pb.1⟩, pb.2)

/-- Parse one top-level definition. -/
def parseDefinition : Nat → List Char → Option (Definition × List Char)
  | 0, _ => none
  | fuel + 1, l =>
    match skipWs l with
    | [] => none
    | c :: r =>
      if c = '\x7b' then
        (parseSelectionItems fuel r).map fun pb =>
          (Definition.selectionSet (.mk pb.1), pb.2)
      else
        (takeName (c :: r)).bind fun pk =>
          if pk.1 = "query" then
            (parseOperationRest .query fuel pk.2).map fun p => (Definition.operation p.1, p.2)
          else if pk.1 = "mutation" then
            (parseOperationRest .mutation fuel pk.2).map fun p => (Definition.operation p.1, p.2)
          else if pk.1 = "subscription" then
            (parseOperationRest .subscription fuel pk.2).map fun p =>
              (Definition.operation p.1, p.2)
          else if pk.1 = "fragment" then
            (takeName (skipWs pk.2)).bind fun pn =>
              (takeName (skipWs pn.2)).bind fun po =>
                if po.1 = "on" then
                  (takeName (skipWs po.2)).bind fun pt =>
                    (parseDirectives fuel pt.2).bind fun pd =>
                      (parseBlock fuel pd.2).map fun pb =>
                        (Definition.fragment ⟨pn.1, pt.1, pd.1, .mk pb.1⟩, pb.2)
                else none
          else none

/-- Parse definitions until the input is exhausted. -/
def parseDefinitions : Nat → List Char → Option (List Definition × List Char)
  | 0, _ => none
  | fuel + 1, l =>
    match skipWs l with
    | [] => some ([], [])
    | c :: r =>
      (parseDefinition fuel (c :: r)).bind fun p =>
        (parseDefinitions fuel p.2).map fun q => (p.1 :: q.1, q.2)

end

/-- `parse_query`, modelled from the spec: parse a whole document from
source text.  The fuel is one more than the text length, which the
round-trip development shows suffices for formatter output. -/
def parse_query (s : String) : Option Document :=
  (parseDefinitions (s.length + 1) s.data).map fun p => ⟨p.1⟩

/-! ## Fuel measures.

`xFuel x` bounds the recursion depth the parser needs to re-read the
printed form of `x`; each measure mirrors the call structure of the
corresponding parser. -/

mutual

/-- Fuel needed to parse a printed value. -/
def valueFuel : Value → Nat
  | .variable _ => 1
  | .int _ => 1
  | .float _ => 1
  | .string _ => 1
  | .boolean _ => 1
  | .null => 1
  | .enum _ => 1
  | .list items => 1 + valueItemsFuel items
  | .object fields => 1 + objectFieldsFuel fields

/-- Fuel needed by the list-element loop. -/
def valueItemsFuel : List Value → Nat
  | [] => 1
  | v :: rest => 1 + max (valueFuel v) (valueItemsFuel rest)

/-- Fuel needed by the object-field loop. -/
def objectFieldsFuel : List (String × Value) → Nat
  | [] => 1
  | (_, v) :: rest => 1 + max (valueFuel v) (objectFieldsFuel rest)

end

/-- Fuel needed by the argument loop. -/
def argumentsRestFuel : List (String × Value) → Nat
  | [] => 1
  | (_, v) :: rest => 1 + max (valueFuel v) (argumentsRestFuel rest)

/-- Fuel needed by the directive loop. -/
def directivesFuel : List Directive → Nat
  | [] => 1
  | d :: rest => 1 + max (1 + argumentsRestFuel d.arguments) (directivesFuel rest)

mutual

/-- Fuel needed to parse a printed selection. -/
def selFuel : Selection → Nat
  | .field (.mk _ _ args dirs (.mk items)) =>
      1 + max (1 + argumentsRestFuel args)
        (max (directivesFuel dirs) (1 + selItemsFuel items))
  | .inlineFragment (.mk _ dirs (.mk items)) =>
      1 + max (directivesFuel dirs) (1 + selItemsFuel items)
  | .fragmentSpread sp => 1 + directivesFuel sp.directives

/-- Fuel needed by the selection loop. -/
def selItemsFuel : List Selection → Nat
  | [] => 1
  | s :: rest => 1 + max (selFuel s) (selItemsFuel rest)

end

/-- Fuel needed to parse a printed type. -/
def typeFuel : GqlType → Nat
  | .namedType _ => 1
  | .listType t => 1 + typeFuel t
  | .nonNullType t => typeFuel t

/-- Fuel needed by the variable-definition loop. -/
def varDefsRestFuel : List VariableDefinition → Nat
  | [] => 1
  | v :: rest =>
      1 + max (typeFuel v.var_type)
        (max (match v.default_value with
              | some d => valueFuel d
              | none => 0) (varDefsRestFuel rest))

/-- Fuel needed by the operation-remainder reader. -/
def opRestFuel (op : OperationDefinition) : Nat :=
  1 + max (varDefsRestFuel op.variable_definitions)
    (max (directivesFuel op.directives) (1 + selItemsFuel op.selection_set.items))

/-- Fuel needed to parse a printed definition. -/
def defFuel : Definition → Nat
  | .selectionSet s => 1 + selItemsFuel s.items
  | .operation op => 1 + opRestFuel op
  | .fragment x =>
      1 + max (directivesFuel x.directives) (1 + selItemsFuel x.selection_set.items)

/-- Fuel needed by the definition loop. -/
def defsFuel : List Definition → Nat
  | [] => 1
  | d :: rest => 1 + max (defFuel d) (defsFuel rest)

/-! ## Theorems: the planner surface (claims C1, C2, C3, C9, C10). -/

/-- C1 (amended): on a query text the parser rejects, `QueryPlanner::plan`
panics with the `expect` message "failed parsing query" rather than
returning the `FailedParsingQuery` error; on a parsed query it returns
`build_query_plan`'s result unchanged — in particular never a partial
plan. -/
theorem plan_panics_on_unparsable_query
    (pq : String → Except ParseError Document)
    (build : SchemaDocument → Document → QueryPlanningOptions →
      Except QueryPlanError QueryPlan)
    (p : QueryPlanner) (query : String) (options : QueryPlanningOptions) :
    (∀ e, pq query = .error e →
      QueryPlanner.plan pq build p query options = .panicked ("failed parsing query")) ∧
    (∀ doc, pq query = .ok doc →
      QueryPlanner.plan pq build p query options = .ok (build p.schema doc options)) := by
  constructor
  · intro e he
    simp [QueryPlanner.plan, he]
  · intro doc hd
    simp [QueryPlanner.plan, hd]

/-- Witness for the amended C1 at a concrete failing parse. -/
theorem plan_panics_on_unparsable_query_witness :
    failingQueryParse "\x7b" = .error ⟨"syntax error"⟩ ∧
    QueryPlanner.plan failingQueryParse okBuild ⟨⟨"schema"⟩⟩ "\x7b" ⟨false⟩ =
      .panicked ("failed parsing query") :=
  ⟨rfl, (plan_panics_on_unparsable_query failingQueryParse okBuild ⟨⟨"schema"⟩⟩ "\x7b"
      ⟨false⟩).1 ⟨"syntax error"⟩ rfl⟩

/-- Counterexample to C1 as stated: at the unparsable query text `{`, the
call does not return an `Err` of kind `FailedParsingQuery`; it panics. -/
theorem plan_err_return_counterexample :
    returnsFailedParsingQuery
      (QueryPlanner.plan failingQueryParse okBuild ⟨⟨"schema"⟩⟩ "\x7b" ⟨false⟩) = false ∧
    QueryPlanner.plan failingQueryParse okBuild ⟨⟨"schema"⟩⟩ "\x7b" ⟨false⟩ =
      .panicked ("failed parsing query") :=
  ⟨rfl, rfl⟩

/-- C2 (amended): on a schema text the parser rejects, `QueryPlanner::new`
panics with the `expect` message "failed parsing schema" instead of
failing with an error value; on success it stores the parsed document;
and the wire-visible error type has exactly the three kinds
`FailedParsingSchema`, `FailedParsingQuery` and `InvalidQuery` — there is
no `InvalidSchema` variant. -/
theorem new_panics_and_three_error_kinds :
    (∀ (ps : String → Except ParseError SchemaDocument) (s : String) e,
      ps s = .error e → QueryPlanner.new ps s = .panicked ("failed parsing schema")) ∧
    (∀ (ps : String → Except ParseError SchemaDocument) (s : String) d,
      ps s = .ok d → QueryPlanner.new ps s = .ok ⟨d⟩) ∧
    (∀ err : QueryPlanError,
      (∃ e, err = .failedParsingSchema e) ∨ (∃ e, err = .failedParsingQuery e) ∨
      (∃ r, err = .invalidQuery r)) := by
  refine ⟨fun ps s e he => ?_, fun ps s d hd => ?_, fun err => ?_⟩
  · simp [QueryPlanner.new, he]
  · simp [QueryPlanner.new, hd]
  · cases err with
    | failedParsingSchema e => exact Or.inl ⟨e, rfl⟩
    | failedParsingQuery e => exact Or.inr (Or.inl ⟨e, rfl⟩)
    | invalidQuery r => exact Or.inr (Or.inr ⟨r, rfl⟩)

/-- Witness for the amended C2 at a concrete failing schema parse. -/
theorem new_panics_and_three_error_kinds_witness :
    failingSchemaParse "type Query" = .error ⟨"syntax error"⟩ ∧
    QueryPlanner.new failingSchemaParse "type Query" = .panicked ("failed parsing schema") :=
  ⟨rfl, new_panics_and_three_error_kinds.1 failingSchemaParse "type Query"
    ⟨"syntax error"⟩ rfl⟩

/-- Counterexample to C2 as stated: at an unparsable schema text, `new`
does not fail with any error value (there is no `InvalidSchema` to fail
with) — it panics. -/
theorem new_invalid_schema_counterexample :
    (QueryPlanner.new failingSchemaParse "type Query").isOk = false ∧
    QueryPlanner.new failingSchemaParse "type Query" = .panicked ("failed parsing schema") :=
  ⟨rfl, rfl⟩

/-- C3: planning is deterministic and pure.  The embedding of `plan` is a
state-free function — the source reads no mutable state — so two
invocations on the same triple agree, and the result depends only on the
planner's schema document (together with the query, options, and the
parser/builder functions the planner is instantiated with). -/
theorem plan_deterministic :
    (∀ (pq : String → Except ParseError Document)
       (build : SchemaDocument → Document → QueryPlanningOptions →
         Except QueryPlanError QueryPlan)
       (p : QueryPlanner) (q : String) (o : QueryPlanningOptions),
      QueryPlanner.plan pq build p q o = QueryPlanner.plan pq build p q o) ∧
    (∀ (pq : String → Except ParseError Document)
       (build : SchemaDocument → Document → QueryPlanningOptions →
         Except QueryPlanError QueryPlan)
       (p1 p2 : QueryPlanner) (q : String) (o : QueryPlanningOptions),
      p1.schema = p2.schema →
      QueryPlanner.plan pq build p1 q o = QueryPlanner.plan pq build p2 q o) := by
  refine ⟨fun _ _ _ _ _ => rfl, fun pq build p1 p2 q o h => ?_⟩
  cases p1
  cases p2
  cases h
  rfl

/-- Witness for C3 at concrete planners with equal schemas. -/
theorem plan_deterministic_witness :
    (⟨⟨"s"⟩⟩ : QueryPlanner).schema = (⟨⟨"s"⟩⟩ : QueryPlanner).schema ∧
    QueryPlanner.plan okQueryParse okBuild ⟨⟨"s"⟩⟩ "q" ⟨false⟩ =
      QueryPlanner.plan okQueryParse okBuild ⟨⟨"s"⟩⟩ "q" ⟨false⟩ :=
  ⟨rfl, plan_deterministic.2 okQueryParse okBuild ⟨⟨"s"⟩⟩ ⟨⟨"s"⟩⟩ "q" ⟨false⟩ rfl⟩

/-- C9: the derived `Default` of `QueryPlanningOptions` has
`auto_fragmentization = false`, so planning with default options is
planning with auto-fragmentization off. -/
theorem default_options_no_autofrag :
    QueryPlanningOptions.default.auto_fragmentization = false ∧
    (∀ (pq : String → Except ParseError Document)
       (build : SchemaDocument → Document → QueryPlanningOptions →
         Except QueryPlanError QueryPlan)
       (p : QueryPlanner) (q : String),
      QueryPlanner.plan pq build p q QueryPlanningOptions.default =
        QueryPlanner.plan pq build p q ⟨false⟩) :=
  ⟨rfl, fun _ _ _ _ => rfl⟩

/-- C10: `get_query_plan` never returns an error value: its outcome is a
panic or a success, every failure of planning or serialization panics
(through `expect`/`unwrap`), and on success it returns the serialized
plan. -/
theorem get_query_plan_never_errors {J : Type}
    (pq : String → Except ParseError Document)
    (build : SchemaDocument → Document → QueryPlanningOptions →
      Except QueryPlanError QueryPlan)
    (serialize : QueryPlan → Except String J)
    (planner : QueryPlanner) (query : String) :
    (∀ r, get_query_plan pq build serialize planner query = r →
      (∃ m, r = .panicked m) ∨ (∃ v, r = .ok v)) ∧
    (∀ e, pq query = .error e →
      get_query_plan pq build serialize planner query = .panicked ("failed parsing query")) ∧
    (∀ doc err, pq query = .ok doc → build planner.schema doc ⟨false⟩ = .error err →
      get_query_plan pq build serialize planner query =
        .panicked ("called Result::unwrap on an Err value")) ∧
    (∀ doc plan err, pq query = .ok doc → build planner.schema doc ⟨false⟩ = .ok plan →
      serialize plan = .error err →
      get_query_plan pq build serialize planner query =
        .panicked ("called Result::unwrap on an Err value")) ∧
    (∀ doc plan v, pq query = .ok doc → build planner.schema doc ⟨false⟩ = .ok plan →
      serialize plan = .ok v →
      get_query_plan pq build serialize planner query = .ok v) := by
  refine ⟨fun r hr => ?_, fun e he => ?_, fun doc err hd hb => ?_,
    fun doc plan err hd hb hs => ?_, fun doc plan v hd hb hs => ?_⟩
  · cases r with
    | panicked m => exact Or.inl ⟨m, rfl⟩
    | ok v => exact Or.inr ⟨v, rfl⟩
  · simp [get_query_plan, QueryPlanner.plan, he]
  · simp [get_query_plan, QueryPlanner.plan, hd, hb]
  · simp [get_query_plan, QueryPlanner.plan, hd, hb, hs]
  · simp [get_query_plan, QueryPlanner.plan, hd, hb, hs]

/-- Witness for C10: the builder error path panics at concrete inputs. -/
theorem get_query_plan_never_errors_witness :
    okQueryParse "q" = .ok ⟨[]⟩ ∧
    errBuild ⟨"s"⟩ ⟨[]⟩ ⟨false⟩ = .error (.invalidQuery "cannot query field") ∧
    get_query_plan okQueryParse errBuild okSerialize ⟨⟨"s"⟩⟩ "q" =
      .panicked ("called Result::unwrap on an Err value") :=
  ⟨rfl, rfl,
    (get_query_plan_never_errors okQueryParse errBuild okSerialize ⟨⟨"s"⟩⟩ "q").2.2.1
      ⟨[]⟩ (.invalidQuery "cannot query field") rfl rfl⟩

/-! ## Theorems: the host shim singleton (claim C4). -/

/-- One successful `get_query_planner` call from a state whose stores
have matching lengths at most one leaves exactly the new schema and the
planner built from it, and returns that planner. -/
theorem get_query_planner_step
    (ps : String → Except ParseError SchemaDocument)
    (st : WasmState) (s : String) (st2 : WasmState) (q : QueryPlanner)
    (hlen : st.SCHEMA.length ≤ 1) (hdata : st.DATA.length = st.SCHEMA.length)
    (hcall : get_query_planner ps st s = .ok (st2, q)) :
    st2.SCHEMA = [s] ∧ st2.DATA = [q] ∧ QueryPlanner.new ps s = .ok q := by
  obtain ⟨SCH, DAT⟩ := st
  unfold get_query_planner at hcall
  by_cases he : SCH.isEmpty
  · have hS : SCH = [] := by
      cases SCH with
      | nil => rfl
      | cons a l => simp at he
    subst hS
    have hD : DAT = [] := by
      cases DAT with
      | nil => rfl
      | cons a l => simp at hdata
    subst hD
    simp only [List.isEmpty_nil, if_true] at hcall
    cases hnew : QueryPlanner.new ps s with
    | panicked m => rw [hnew] at hcall; exact absurd hcall (by simp)
    | ok p =>
      rw [hnew] at hcall
      simp only [List.nil_append, List.head?_cons] at hcall
      injection hcall with hpair
      injection hpair with h1 h2
      subst h1
      subst h2
      exact ⟨rfl, rfl, rfl⟩
  · have hS : ∃ a, SCH = [a] := by
      cases SCH with
      | nil => simp at he
      | cons a l =>
        cases l with
        | nil => exact ⟨a, rfl⟩
        | cons b m => simp at hlen
    obtain ⟨a, rfl⟩ := hS
    have hD : ∃ d, DAT = [d] := by
      cases DAT with
      | nil => simp at hdata
      | cons d l =>
        cases l with
        | nil => exact ⟨d, rfl⟩
        | cons e m => simp at hdata
    obtain ⟨d, rfl⟩ := hD
    simp only [List.isEmpty_cons, if_false, Bool.false_eq_true] at hcall
    cases hnew : QueryPlanner.new ps s with
    | panicked m => rw [hnew] at hcall; exact absurd hcall (by simp)
    | ok p =>
      rw [hnew] at hcall
      simp only [List.set] at hcall
      injection hcall with hpair
      injection hpair with h1 h2
      subst h1
      subst h2
      exact ⟨rfl, rfl, rfl⟩

/-- Running calls from a reachable state ends (if it ends) either with no
calls made or with singleton stores for the last schema. -/
theorem run_get_query_planner_aux
    (ps : String → Except ParseError SchemaDocument) :
    ∀ (schemas : List String) (st st2 : WasmState), WasmInv st →
      run_get_query_planner ps st schemas = .ok st2 →
      (schemas = [] ∧ st2 = st) ∨
      (∃ slast p, schemas.getLast? = some slast ∧ st2.SCHEMA = [slast] ∧
        st2.DATA = [p] ∧ QueryPlanner.new ps slast = .ok p) := by
  intro schemas
  induction schemas with
  | nil =>
    intro st st2 _ hrun
    left
    refine ⟨rfl, ?_⟩
    simp only [run_get_query_planner] at hrun
    cases hrun
    rfl
  | cons s rest ih =>
    intro st st2 hinv hrun
    right
    simp only [run_get_query_planner] at hrun
    cases hcall : get_query_planner ps st s with
    | panicked m => rw [hcall] at hrun; exact absurd hrun (by simp)
    | ok pr =>
      rw [hcall] at hrun
      obtain ⟨st1, q⟩ := pr
      have hlen : st.SCHEMA.length ≤ 1 := by
        rcases hinv with h | ⟨s0, p0, h1, _⟩
        · rw [h]; simp [initialWasmState]
        · rw [h1]; simp
      have hdata : st.DATA.length = st.SCHEMA.length := by
        rcases hinv with h | ⟨s0, p0, h1, h2⟩
        · rw [h]; simp [initialWasmState]
        · rw [h1, h2]
          rfl
      obtain ⟨hS, hD, hnew⟩ := get_query_planner_step ps st s st1 q hlen hdata hcall
      rcases ih st1 st2 (Or.inr ⟨s, q, hS, hD⟩) hrun with ⟨hrest, hst⟩ | ⟨sl, p, hl, h1, h2, h3⟩
      · subst hrest
        subst hst
        exact ⟨s, q, rfl, hS, hD, hnew⟩
      · refine ⟨sl, p, ?_, h1, h2, h3⟩
        cases rest with
        | nil => simp at hl
        | cons b m => simpa using hl

/-- C4: after any nonempty finite sequence of successful
`get_query_planner` calls starting from the empty stores, `SCHEMA` holds
exactly the last supplied schema text and `DATA` exactly the planner
built from it; and each successful call, from any reachable state, makes
the stores exactly that singleton pair and returns the freshly built
planner. -/
theorem get_query_planner_singleton
    (ps : String → Except ParseError SchemaDocument) :
    (∀ (st : WasmState) (s : String) (st2 : WasmState) (q : QueryPlanner),
      st.SCHEMA.length ≤ 1 → st.DATA.length = st.SCHEMA.length →
      get_query_planner ps st s = .ok (st2, q) →
      st2.SCHEMA = [s] ∧ st2.DATA = [q] ∧ QueryPlanner.new ps s = .ok q) ∧
    (∀ (schemas : List String) (st2 : WasmState) (h : schemas ≠ []),
      run_get_query_planner ps initialWasmState schemas = .ok st2 →
      ∃ p, st2.SCHEMA = [schemas.getLast h] ∧ st2.DATA = [p] ∧
        QueryPlanner.new ps (schemas.getLast h) = .ok p) := by
  refine ⟨fun st s st2 q h1 h2 h3 => get_query_planner_step ps st s st2 q h1 h2 h3,
    fun schemas st2 h hrun => ?_⟩
  rcases run_get_query_planner_aux ps schemas initialWasmState st2 (Or.inl rfl) hrun with
    ⟨hnil, _⟩ | ⟨sl, p, hl, h1, h2, h3⟩
  · exact absurd hnil h
  · have : sl = schemas.getLast h := by
      have := List.getLast?_eq_getLast schemas h
      rw [this] at hl
      exact (Option.some_inj.mp hl).symm
    subst this
    exact ⟨p, h1, h2, h3⟩

/-- Witness for C4 over the call sequence `["s1", "s2"]` with an
always-successful schema parse. -/
theorem get_query_planner_singleton_witness :
    (["s1", "s2"] ≠ ([] : List String)) ∧
    (∃ p, (⟨["s2"], [⟨⟨"s2"⟩⟩]⟩ : WasmState).SCHEMA = [(["s1", "s2"]).getLast (by simp)] ∧
      (⟨["s2"], [⟨⟨"s2"⟩⟩]⟩ : WasmState).DATA = [p] ∧
      QueryPlanner.new okSchemaParse ((["s1", "s2"]).getLast (by simp)) = .ok p) :=
  ⟨by simp,
    (get_query_planner_singleton okSchemaParse).2 ["s1", "s2"] ⟨["s2"], [⟨⟨"s2"⟩⟩]⟩
      (by simp) rfl⟩

/-! ## Theorems: the reference AST displays like the owned AST (claim C6). -/

/-- A borrowed selection reference displays through the owned display
code. -/
theorem selref_display_ref (s : Selection) (f : Formatter) :
    SelectionRef.display (.ref s) f = Selection.display s f := by
  simp [SelectionRef.display]

/-- A list of borrowed references displays exactly like the underlying
owned selections. -/
theorem selref_displayList_map_ref (items : List Selection) (f : Formatter) :
    SelectionRef.displayList (items.map SelectionRef.ref) f =
      Selection.displayList items f := by
  induction items generalizing f with
  | nil => simp [SelectionRef.displayList, Selection.displayList]
  | cons s rest ih =>
    simp [SelectionRef.displayList, Selection.displayList, SelectionRef.display, ih]

/-- C6: a `FieldRef` with the same alias, name, arguments, directives and
(borrowed) selection items formats exactly like the corresponding owned
`Field`, and an `InlineFragmentRef` exactly like the corresponding
`InlineFragment` — against every formatter state. -/
theorem ref_variants_display_identically
    (alias_ : Option String) (name : String) (arguments : List (String × Value))
    (directives : List Directive) (tc : Option String) (items : List Selection)
    (f : Formatter) :
    FieldRef.display (.mk alias_ name arguments directives (.mk (items.map SelectionRef.ref))) f =
      Field.display (.mk alias_ name arguments directives (.mk items)) f ∧
    InlineFragmentRef.display (.mk tc directives (.mk (items.map SelectionRef.ref))) f =
      InlineFragment.display (.mk tc directives (.mk items)) f := by
  constructor
  · cases items with
    | nil => simp [FieldRef.display, Field.display]
    | cons s rest =>
      have h := fun g => selref_displayList_map_ref (s :: rest) g
      simp only [List.map_cons] at h
      simp [FieldRef.display, Field.display, h]
  · simp [InlineFragmentRef.display, InlineFragment.display, selref_displayList_map_ref]

/-! ## Display functions append exactly the pure output strings. -/

/-- Two writes are one write of the concatenation. -/
@[simp] theorem Formatter.write_write (f : Formatter) (a b : String) :
    (f.write a).write b = f.write (a ++ b) := by
  simp [Formatter.write, String.append_assoc]

/-- Writing leaves the indentation unchanged. -/
@[simp] theorem Formatter.write_indentLvl (f : Formatter) (a : String) :
    (f.write a).indentLvl = f.indentLvl := rfl

/-- Writing leaves the style unchanged. -/
@[simp] theorem Formatter.write_style (f : Formatter) (a : String) :
    (f.write a).style = f.style := rfl

/-- The buffer after a write. -/
@[simp] theorem Formatter.write_buf (f : Formatter) (a : String) :
    (f.write a).buf = f.buf ++ a := rfl

/-- `write_quoted` is a plain write of the quoted text. -/
theorem Formatter.write_quoted_eq (f : Formatter) (s : String) :
    f.write_quoted s = f.write (quotedOut s) := rfl

mutual

/-- `Value::display` writes `valueOut`. -/
theorem value_display_out : ∀ (v : Value) (f : Formatter),
    Value.display v f = f.write (valueOut v)
  | .variable n, f => by simp [Value.display, valueOut]
  | .int n, f => by simp [Value.display, valueOut]
  | .float t, f => by simp [Value.display, valueOut]
  | .string s, f => by simp [Value.display, valueOut, Formatter.write_quoted_eq]
  | .boolean true, f => by simp [Value.display, valueOut]
  | .boolean false, f => by simp [Value.display, valueOut]
  | .null, f => by simp [Value.display, valueOut]
  | .enum n, f => by simp [Value.display, valueOut]
  | .list [], f => by simp [Value.display, valueOut]
  | .list (x :: rest), f => by
      simp [Value.display, valueOut, value_display_out x,
        Value.displayListTail_out rest, String.append_assoc]
  | .object [], f => by simp [Value.display, valueOut]
  | .object ((n, v) :: rest), f => by
      simp [Value.display, valueOut, value_display_out v,
        Value.displayObjectTail_out rest, String.append_assoc]

/-- The list-tail loop writes `valueListTailOut`. -/
theorem Value.displayListTail_out : ∀ (items : List Value) (f : Formatter),
    Value.displayListTail items f = f.write (valueListTailOut items)
  | [], f => by simp [Value.displayListTail, valueListTailOut, Formatter.write]
  | x :: rest, f => by
      simp [Value.displayListTail, valueListTailOut, value_display_out x,
        Value.displayListTail_out rest, String.append_assoc]

/-- The object-tail loop writes `valueObjectTailOut`. -/
theorem Value.displayObjectTail_out : ∀ (items : List (String × Value)) (f : Formatter),
    Value.displayObjectTail items f = f.write (valueObjectTailOut items)
  | [], f => by simp [Value.displayObjectTail, valueObjectTailOut, Formatter.write]
  | (n, v) :: rest, f => by
      simp [Value.displayObjectTail, valueObjectTailOut, value_display_out v,
        Value.displayObjectTail_out rest, String.append_assoc]

end

/-- The fold over the non-first arguments writes `argumentsTailOut`. -/
theorem arguments_fold_out (rest : List (String × Value)) (f : Formatter) :
    rest.foldl (fun f a => Value.display a.2 (((f.write (", ")).write a.1).write (": "))) f =
      f.write (argumentsTailOut rest) := by
  induction rest generalizing f with
  | nil => simp [argumentsTailOut, Formatter.write]
  | cons a rest ih =>
    obtain ⟨n, v⟩ := a
    rw [List.foldl_cons, ih]
    simp [argumentsTailOut, value_display_out, String.append_assoc]

/-- `format_arguments` writes `argumentsOut`. -/
theorem format_arguments_out (args : List (String × Value)) (f : Formatter) :
    format_arguments args f = f.write (argumentsOut args) := by
  cases args with
  | nil => simp [format_arguments, argumentsOut, Formatter.write]
  | cons a rest =>
    obtain ⟨n, v⟩ := a
    simp only [format_arguments]
    rw [arguments_fold_out]
    simp [argumentsOut, value_display_out, String.append_assoc]

/-- `Directive::display` writes `directiveOut`. -/
theorem directive_display_out (d : Directive) (f : Formatter) :
    Directive.display d f = f.write (directiveOut d) := by
  simp [Directive.display, directiveOut, format_arguments_out, String.append_assoc]

/-- `format_directives` writes `directivesOut`. -/
theorem format_directives_out (dirs : List Directive) (f : Formatter) :
    format_directives dirs f = f.write (directivesOut dirs) := by
  induction dirs generalizing f with
  | nil => simp [format_directives, directivesOut, Formatter.write]
  | cons d rest ih =>
    have step : format_directives (d :: rest) f =
        format_directives rest (Directive.display d (f.write (" "))) := rfl
    rw [step, ih]
    simp [directivesOut, directive_display_out, String.append_assoc]

/-- `start_block` in record form. -/
theorem start_block_eq (f : Formatter) :
    f.start_block =
      { f with buf := f.buf ++ ("\x7b" ++ "\n"),
               indentLvl := f.indentLvl + f.style.indent } := by
  simp [Formatter.start_block, Formatter.endline, Formatter.write, String.append_assoc]

/-- `end_block` in record form. -/
theorem end_block_eq (f : Formatter) :
    f.end_block =
      { f with buf := f.buf ++ (spacesStr (f.indentLvl - f.style.indent) ++ ("\x7d" ++ "\n")),
               indentLvl := f.indentLvl - f.style.indent } := by
  simp [Formatter.end_block, Formatter.indent, Formatter.endline, Formatter.write,
    String.append_assoc]

/-- `FragmentSpread::display` writes its one line. -/
theorem fragment_spread_display_out (x : FragmentSpread) (f : Formatter) :
    FragmentSpread.display x f =
      f.write (spacesStr f.indentLvl ++ "..." ++ x.fragment_name ++
        directivesOut x.directives ++ "\n") := by
  simp [FragmentSpread.display, Formatter.indent, Formatter.endline,
    format_directives_out, String.append_assoc]

mutual

/-- `Selection::display` writes `selOut` at the current indentation. -/
theorem selection_display_out : ∀ (s : Selection) (f : Formatter),
    Selection.display s f = f.write (selOut f.style.indent f.indentLvl s)
  | .field fld, f => by
      rw [show Selection.display (.field fld) f = Field.display fld f from by
        simp [Selection.display]]
      rw [field_display_out fld f]
      simp [selOut]
  | .inlineFragment frag, f => by
      rw [show Selection.display (.inlineFragment frag) f = InlineFragment.display frag f
        from by simp [Selection.display]]
      rw [inline_fragment_display_out frag f]
      simp [selOut]
  | .fragmentSpread sp, f => by
      rw [show Selection.display (.fragmentSpread sp) f = FragmentSpread.display sp f
        from by simp [Selection.display]]
      rw [fragment_spread_display_out sp f]
      simp [selOut, String.append_assoc]

/-- `Field::display` writes `fieldOut` at the current indentation. -/
theorem field_display_out : ∀ (x : Field) (f : Formatter),
    Field.display x f = f.write (fieldOut f.style.indent f.indentLvl x)
  | .mk al nm args dirs (.mk items), f => by
      cases items with
      | nil =>
        cases al <;>
          simp [Field.display, fieldOut, aliasOut, Formatter.indent, Formatter.endline,
            format_arguments_out, format_directives_out, String.append_assoc]
      | cons x xs =>
        cases al <;>
          simp [Field.display, fieldOut, aliasOut, Formatter.indent, Formatter.write,
            format_arguments_out, format_directives_out,
            Selection.displayList_out (x :: xs), start_block_eq, end_block_eq,
            String.append_assoc, Nat.add_sub_cancel]

/-- `InlineFragment::display` writes `inlineFragOut`. -/
theorem inline_fragment_display_out : ∀ (x : InlineFragment) (f : Formatter),
    InlineFragment.display x f = f.write (inlineFragOut f.style.indent f.indentLvl x)
  | .mk tc dirs (.mk items), f => by
      cases tc with
      | none =>
        simp [InlineFragment.display, inlineFragOut, typeCondOut, Formatter.indent,
          Formatter.write, format_directives_out, Selection.displayList_out items,
          start_block_eq, end_block_eq, String.append_assoc, Nat.add_sub_cancel]
      | some c =>
        simp [InlineFragment.display, inlineFragOut, typeCondOut, Formatter.indent,
          Formatter.write, format_directives_out, Selection.displayList_out items,
          start_block_eq, end_block_eq, String.append_assoc, Nat.add_sub_cancel]
        simp [← String.append_assoc]

/-- Displaying a selection list writes `itemsOut`. -/
theorem Selection.displayList_out : ∀ (items : List Selection) (f : Formatter),
    Selection.displayList items f = f.write (itemsOut f.style.indent f.indentLvl items)
  | [], f => by simp [Selection.displayList, itemsOut, Formatter.write]
  | s :: rest, f => by
      rw [show Selection.displayList (s :: rest) f =
        Selection.displayList rest (Selection.display s f) from by
          simp [Selection.displayList]]
      rw [selection_display_out s f, Selection.displayList_out rest]
      simp [itemsOut, String.append_assoc]

end

/-- `Type::display` writes `typeOut`. -/
theorem gql_type_display_out (t : GqlType) (f : Formatter) :
    GqlType.display t f = f.write (typeOut t) := by
  induction t generalizing f with
  | namedType n => simp [GqlType.display, typeOut]
  | listType t ih => simp [GqlType.display, typeOut, ih, String.append_assoc]
  | nonNullType t ih => simp [GqlType.display, typeOut, ih, String.append_assoc]

/-- `VariableDefinition::display` writes `varDefOut`. -/
theorem variable_definition_display_out (v : VariableDefinition) (f : Formatter) :
    VariableDefinition.display v f = f.write (varDefOut v) := by
  obtain ⟨n, t, dv⟩ := v
  cases dv <;>
    simp [VariableDefinition.display, varDefOut, gql_type_display_out,
      value_display_out, String.append_assoc, Formatter.write]

/-- The fold over non-first variable definitions writes
`varDefsTailOut`. -/
theorem varDefs_fold_out (rest : List VariableDefinition) (f : Formatter) :
    rest.foldl (fun f w => VariableDefinition.display w (f.write (", "))) f =
      f.write (varDefsTailOut rest) := by
  induction rest generalizing f with
  | nil => simp [varDefsTailOut, Formatter.write]
  | cons v rest ih =>
    rw [List.foldl_cons, ih]
    simp [varDefsTailOut, variable_definition_display_out, String.append_assoc]

/-- `margin` in write form. -/
theorem Formatter.margin_eq (f : Formatter) :
    f.margin = f.write (if f.buf == "" then "" else "\n") := by
  by_cases h : f.buf = ""
  · simp only [Formatter.margin, if_pos h, h, beq_self_eq_true, if_true]
    cases f
    simp_all [Formatter.write, String.append_empty]
  · have hb : (f.buf == "") = false := by simp [h]
    simp only [Formatter.margin, if_neg h, hb, Bool.false_eq_true, if_false]

/-- The shared tail of every block-printing display: a space, the block
of items one level deeper, and the closing brace line. -/
theorem block_tail_out (items : List Selection) (g : Formatter) :
    (Selection.displayList items ((g.write (" ")).start_block)).end_block =
      g.write (" " ++ ("\x7b" ++ ("\n" ++
        (itemsOut g.style.indent (g.indentLvl + g.style.indent) items ++
          (spacesStr g.indentLvl ++ ("\x7d" ++ "\n")))))) := by
  rw [show (g.write (" ")).start_block =
    { g with buf := g.buf ++ (" " ++ ("\x7b" ++ "\n")),
             indentLvl := g.indentLvl + g.style.indent } from by
      simp [start_block_eq, String.append_assoc]]
  rw [Selection.displayList_out items]
  simp [end_block_eq, Formatter.write, String.append_assoc, Nat.add_sub_cancel]
  simp [← String.append_assoc]

/-- `OperationDefinition::display` writes `opOut`, with the margin
depending on whether the buffer was empty. -/
theorem operation_definition_display_out (op : OperationDefinition) (f : Formatter) :
    OperationDefinition.display op f =
      f.write (opOut f.style.indent f.indentLvl (f.buf == "") op) := by
  obtain ⟨kind, nm, vars, dirs, ⟨items⟩⟩ := op
  cases nm with
  | none =>
    simp only [OperationDefinition.display, SelectionSet.items]
    rw [block_tail_out]
    simp [opOut, opNameOut, SelectionSet.items, Formatter.margin_eq, Formatter.indent,
      Formatter.write, format_directives_out, String.append_assoc]
    simp [← String.append_assoc]
  | some name =>
    cases vars with
    | nil =>
      simp only [OperationDefinition.display, SelectionSet.items]
      rw [block_tail_out]
      simp [opOut, opNameOut, SelectionSet.items, Formatter.margin_eq, Formatter.indent,
        Formatter.write, format_directives_out, String.append_assoc]
      simp [← String.append_assoc]
    | cons v rest =>
      simp only [OperationDefinition.display, SelectionSet.items]
      rw [varDefs_fold_out, block_tail_out]
      simp [opOut, opNameOut, SelectionSet.items, varDefsTailOut, Formatter.margin_eq,
        Formatter.indent, Formatter.write, format_directives_out,
        variable_definition_display_out, String.append_assoc]
      simp [← String.append_assoc]

/-- `FragmentDefinition::display` writes `fragDefOut`. -/
theorem fragment_definition_display_out (x : FragmentDefinition) (f : Formatter) :
    FragmentDefinition.display x f =
      f.write (fragDefOut f.style.indent f.indentLvl (f.buf == "") x) := by
  obtain ⟨nm, tc, dirs, ⟨items⟩⟩ := x
  simp only [FragmentDefinition.display, SelectionSet.items]
  rw [block_tail_out]
  simp [fragDefOut, SelectionSet.items, Formatter.margin_eq, Formatter.indent,
    Formatter.write, format_directives_out, String.append_assoc]
  simp [← String.append_assoc]

/-- `SelectionSet::display` writes `bareSelOut`. -/
theorem selection_set_display_out (s : SelectionSet) (f : Formatter) :
    SelectionSet.display s f =
      f.write (bareSelOut f.style.indent f.indentLvl (f.buf == "") s) := by
  obtain ⟨items⟩ := s
  simp only [SelectionSet.display, SelectionSet.items]
  rw [show f.margin.indent.start_block =
    { f with buf := f.buf ++ ((if f.buf == "" then "" else "\n") ++
        (spacesStr f.indentLvl ++ ("\x7b" ++ "\n"))),
             indentLvl := f.indentLvl + f.style.indent } from by
      simp [start_block_eq, Formatter.margin_eq, Formatter.indent, Formatter.write,
        String.append_assoc]]
  rw [Selection.displayList_out items]
  simp [bareSelOut, SelectionSet.items, end_block_eq, Formatter.write,
    String.append_assoc, Nat.add_sub_cancel]

/-- `Definition::display` writes `defOut`. -/
theorem definition_display_out (d : Definition) (f : Formatter) :
    Definition.display d f =
      f.write (defOut f.style.indent f.indentLvl (f.buf == "") d) := by
  cases d with
  | selectionSet s => simp [Definition.display, defOut, selection_set_display_out]
  | operation op => simp [Definition.display, defOut, operation_definition_display_out]
  | fragment x => simp [Definition.display, defOut, fragment_definition_display_out]

/-- Every definition prints at least one character. -/
theorem defOut_length_pos (w ind : Nat) (b : Bool) (d : Definition) :
    0 < (defOut w ind b d).length := by
  have h1 : ("\x7b" : String).length = 1 := rfl
  cases d <;> cases b <;>
    simp [defOut, opOut, fragDefOut, bareSelOut, String.length_append, h1]

/-- The document fold writes `defsOut`, threading buffer emptiness. -/
theorem defs_fold_out (defs : List Definition) (f : Formatter) (h : f.indentLvl = 0) :
    defs.foldl (fun f d => Definition.display d f) f =
      f.write (defsOut f.style.indent (f.buf == "") defs) := by
  induction defs generalizing f with
  | nil =>
    cases f
    simp_all [defsOut, Formatter.write, String.append_empty]
  | cons d rest ih =>
    rw [List.foldl_cons, definition_display_out d f]
    rw [ih (f.write (defOut f.style.indent f.indentLvl (f.buf == "") d)) (by simp [h])]
    have hne : f.buf ++ defOut f.style.indent f.indentLvl (f.buf == "") d ≠ "" := by
      intro hcontra
      have hlen := congrArg String.length hcontra
      have hpos := defOut_length_pos f.style.indent f.indentLvl (f.buf == "") d
      simp [String.length_append] at hlen
      omega
    have hb : (f.buf ++ defOut f.style.indent f.indentLvl (f.buf == "") d == "") = false :=
      beq_eq_false_iff_ne.mpr hne
    simp only [h] at hb
    simp [defsOut, hb, h, String.append_assoc]

/-- `Document::format` produces exactly `docOut`. -/
theorem Document.format_out (doc : Document) (style : Style) :
    doc.format style = docOut style.indent doc := by
  have h := defs_fold_out doc.definitions (Formatter.new style) rfl
  simp only [Document.format, Document.display, Formatter.into_string]
  rw [h]
  simp [Formatter.new, Formatter.write, docOut, String.empty_append]

/-! ## Theorems: argument and object-literal formatting (claim C8). -/

/-- The accumulator loop of `String.intercalate` is a fold. -/
theorem intercalate_go_eq (sep : String) (as : List String) (acc : String) :
    String.intercalate.go acc sep as = as.foldl (fun b a => b ++ sep ++ a) acc := by
  induction as generalizing acc with
  | nil => simp [String.intercalate.go]
  | cons a as ih => simp [String.intercalate.go, ih]

/-- `String.intercalate` over a nonempty list as a fold. -/
theorem intercalate_cons (sep x : String) (xs : List String) :
    String.intercalate sep (x :: xs) = xs.foldl (fun b a => b ++ sep ++ a) x := by
  simp [String.intercalate, intercalate_go_eq]

/-- The non-first-argument text is the `", "`-interspersed fold. -/
theorem argumentsTailOut_intercalate (rest : List (String × Value)) (x : String) :
    (rest.map (fun a => a.1 ++ ": " ++ valueOut a.2)).foldl
        (fun b a => b ++ ", " ++ a) x =
      x ++ argumentsTailOut rest := by
  induction rest generalizing x with
  | nil => simp [argumentsTailOut, String.append_empty]
  | cons a rest ih =>
    obtain ⟨n, v⟩ := a
    rw [List.map_cons, List.foldl_cons, ih]
    simp [argumentsTailOut, String.append_assoc]

/-- The object-field tail prints exactly like the argument tail. -/
theorem valueObjectTailOut_eq_argumentsTailOut (l : List (String × Value)) :
    valueObjectTailOut l = argumentsTailOut l := by
  induction l with
  | nil => rfl
  | cons a rest ih =>
    obtain ⟨n, v⟩ := a
    simp [valueObjectTailOut, argumentsTailOut, ih]

/-- C8: a nonempty argument list is emitted on one line as
`(name: value, ...)` — `", "` between consecutive arguments, none after
the last — and every object literal is emitted braced with `", "`
separated `name: value` fields. -/
theorem arguments_and_objects_format
    (args : List (String × Value)) (f : Formatter) (h : args ≠ []) :
    format_arguments args f =
      f.write ("(" ++ String.intercalate (", ")
        (args.map (fun a => a.1 ++ ": " ++ valueOut a.2)) ++ ")") ∧
    (∀ fields : List (String × Value), valueOut (.object fields) =
      "\x7b" ++ String.intercalate (", ")
        (fields.map (fun p => p.1 ++ ": " ++ valueOut p.2)) ++ "\x7d") := by
  constructor
  · cases args with
    | nil => exact absurd rfl h
    | cons a rest =>
      obtain ⟨n, v⟩ := a
      rw [format_arguments_out]
      rw [List.map_cons, intercalate_cons, argumentsTailOut_intercalate]
      simp [argumentsOut, String.append_assoc]
  · intro fields
    cases fields with
    | nil => simp [valueOut, String.intercalate]
    | cons p rest =>
      obtain ⟨n, v⟩ := p
      rw [List.map_cons, intercalate_cons, argumentsTailOut_intercalate]
      simp [valueOut, valueObjectTailOut_eq_argumentsTailOut, String.append_assoc]

/-- Witness for C8 at a concrete two-argument list. -/
theorem arguments_and_objects_format_witness :
    ([("a", Value.int 1), ("b", Value.boolean true)] ≠ ([] : List (String × Value))) ∧
    (format_arguments [("a", Value.int 1), ("b", Value.boolean true)]
        (Formatter.new Style.default) =
      (Formatter.new Style.default).write ("(" ++ String.intercalate (", ")
        ([("a", Value.int 1), ("b", Value.boolean true)].map
          (fun a => a.1 ++ ": " ++ valueOut a.2)) ++ ")") ∧
    (∀ fields : List (String × Value), valueOut (.object fields) =
      "\x7b" ++ String.intercalate (", ")
        (fields.map (fun p => p.1 ++ ": " ++ valueOut p.2)) ++ "\x7d")) :=
  ⟨by simp,
    arguments_and_objects_format [("a", Value.int 1), ("b", Value.boolean true)]
      (Formatter.new Style.default) (by simp)⟩

/-! ## Character-level facts about the printed text. -/

/-- Name characters are not whitespace. -/
theorem isNameChar_not_ws (c : Char) (h : isNameChar c = true) : c.isWhitespace = false := by
  by_contra hw
  simp only [Bool.not_eq_false] at hw
  simp only [Char.isWhitespace, Bool.or_eq_true, decide_eq_true_eq] at hw
  rcases hw with ((rfl | rfl) | rfl) | rfl <;> exact absurd h (by decide)

/-- Name characters are not the newline. -/
theorem isNameChar_ne_nl (c : Char) (h : isNameChar c = true) : c ≠ '\n' := by
  rintro rfl
  exact absurd h (by decide)

/-- A name-start character is a name character. -/
theorem isNameStart_isNameChar (c : Char) (h : isNameStart c = true) : isNameChar c = true := by
  simp only [isNameStart, Bool.or_eq_true, decide_eq_true_eq] at h
  rcases h with h | h
  · simp [isNameChar, Char.isAlphanum, h]
  · simp [isNameChar, h]

/-- A well-formed name is nonempty and consists of name characters. -/
theorem goodName_data (s : String) (h : goodNameB s = true) :
    s.data ≠ [] ∧ ∀ c ∈ s.data, isNameChar c = true := by
  unfold goodNameB at h
  cases hd : s.data with
  | nil => rw [hd] at h; exact absurd h (by simp)
  | cons c rest =>
    rw [hd] at h
    simp only [Bool.and_eq_true] at h
    obtain ⟨h1, h2⟩ := h
    refine ⟨by simp, ?_⟩
    intro x hx
    rcases List.mem_cons.mp hx with rfl | hx
    · exact isNameStart_isNameChar x h1
    · exact (List.all_eq_true.mp h2) x hx

/-- The digit character of `d < 10` is a digit. -/
theorem digitChar_isDigit (d : Nat) (h : d < 10) : (digitChar d).isDigit = true := by
  interval_cases d <;> decide

/-- All characters of a decimal print are digits. -/
theorem natDecimalChars_digit (n : Nat) : ∀ c ∈ natDecimalChars n, c.isDigit = true := by
  induction n using Nat.strong_induction_on with
  | _ n ih =>
    rw [natDecimalChars]
    by_cases h : n < 10
    · simp only [h, dite_true, List.mem_singleton]
      rintro c rfl
      exact digitChar_isDigit n h
    · simp only [h, dite_false]
      intro c hc
      rcases List.mem_append.mp hc with hc | hc
      · exact ih (n / 10) (Nat.div_lt_self (by omega) (by omega)) c hc
      · rcases List.mem_singleton.mp hc with rfl
        exact digitChar_isDigit _ (Nat.mod_lt _ (by omega))

/-- Digits are not newlines. -/
theorem isDigit_ne_nl (c : Char) (h : c.isDigit = true) : c ≠ '\n' := by
  rintro rfl
  exact absurd h (by decide)

/-- Digits are not whitespace. -/
theorem isDigit_not_ws (c : Char) (h : c.isDigit = true) : c.isWhitespace = false := by
  by_contra hw
  simp only [Bool.not_eq_false] at hw
  simp only [Char.isWhitespace, Bool.or_eq_true, decide_eq_true_eq] at hw
  rcases hw with ((rfl | rfl) | rfl) | rfl <;> exact absurd h (by decide)

/-- Every character of an `i64` print is a digit or the minus sign. -/
theorem i64Display_chars (n : Int) :
    ∀ c ∈ (i64Display n).data, c.isDigit = true ∨ c = '-' := by
  unfold i64Display
  by_cases h : n < 0 <;> simp only [h, if_true, if_false] <;> intro c hc
  · rcases List.mem_cons.mp hc with rfl | hc
    · exact Or.inr rfl
    · exact Or.inl (natDecimalChars_digit _ c hc)
  · exact Or.inl (natDecimalChars_digit _ c hc)

/-- Safe characters need no escape. -/
theorem escapeChar_safe (c : Char) (h : stringSafe c = true) : escapeChar c = [c] := by
  simp only [stringSafe, Bool.not_eq_true', Bool.or_eq_false_iff, decide_eq_false_iff_not] at h
  obtain ⟨⟨⟨⟨h1, h2⟩, h3⟩, h4⟩, h5⟩ := h
  simp [escapeChar, h1, h2, h3, h4, h5]

/-- Escaping a safe string is the identity on its characters. -/
theorem escape_id (l : List Char) (h : ∀ c ∈ l, stringSafe c = true) :
    (l.map escapeChar).flatten = l := by
  induction l with
  | nil => simp
  | cons c rest ih =>
    rw [List.map_cons, List.flatten_cons, escapeChar_safe c (h c (by simp))]
    rw [ih (fun x hx => h x (List.mem_cons_of_mem c hx))]
    rfl

/-- Concatenation preserves newline-freedom. -/
theorem noNl_append (a b : String) (ha : ∀ c ∈ a.data, c ≠ '\n')
    (hb : ∀ c ∈ b.data, c ≠ '\n') : ∀ c ∈ (a ++ b).data, c ≠ '\n' := by
  intro c hc
  rw [String.data_append] at hc
  rcases List.mem_append.mp hc with hc | hc
  · exact ha c hc
  · exact hb c hc

/-- A well-formed name contains no newline. -/
theorem goodName_noNl (s : String) (h : goodNameB s = true) :
    ∀ c ∈ s.data, c ≠ '\n' :=
  fun c hc => isNameChar_ne_nl c ((goodName_data s h).2 c hc)

/-- A well-formed unsigned float core splits into its integer part, the
dot and the fractional part. -/
theorem floatCore_decomp (l : List Char) (h : floatCoreB l = true) :
    ∃ ip fp, l = ip ++ ('.' :: fp) ∧ ip ≠ [] ∧ fp ≠ [] ∧
      (∀ c ∈ ip, c.isDigit = true) ∧ (∀ c ∈ fp, c.isDigit = true) := by
  simp only [floatCoreB, Bool.and_eq_true] at h
  obtain ⟨h1, h2⟩ := h
  cases hd : l.dropWhile Char.isDigit with
  | nil =>
    rw [hd] at h2
    exact absurd h2 (by simp)
  | cons c r =>
    rw [hd] at h2
    simp only [Bool.and_eq_true, decide_eq_true_eq, Bool.not_eq_eq_eq_not, Bool.not_true,
      List.all_eq_true] at h2
    obtain ⟨⟨hceq, hrne⟩, hrall⟩ := h2
    refine ⟨l.takeWhile Char.isDigit, r, ?_, ?_, ?_, ?_, hrall⟩
    · conv_lhs => rw [← List.takeWhile_append_dropWhile (p := Char.isDigit) (l := l)]
      rw [hd, hceq]
    · intro he
      rw [he] at h1
      exact absurd h1 (by simp)
    · intro he
      rw [he] at hrne
      exact absurd hrne (by simp)
    · exact fun c hc => List.mem_takeWhile_imp hc

/-- A well-formed float display text splits into an optional sign, the
integer part, the dot and the fractional part. -/
theorem floatText_decomp (t : String) (h : floatTextB t = true) :
    ∃ (sign ip fp : List Char), t.data = sign ++ (ip ++ ('.' :: fp)) ∧
      (sign = [] ∨ sign = ['-']) ∧ ip ≠ [] ∧ fp ≠ [] ∧
      (∀ c ∈ ip, c.isDigit = true) ∧ (∀ c ∈ fp, c.isDigit = true) := by
  simp only [floatTextB] at h
  cases ht : t.data with
  | nil =>
    rw [ht] at h
    exact absurd h (by simp)
  | cons c l =>
    rw [ht] at h
    simp only at h
    by_cases hc : c = '-'
    · rw [if_pos hc] at h
      obtain ⟨ip, fp, hl, hip, hfp, hipd, hfpd⟩ := floatCore_decomp l h
      exact ⟨['-'], ip, fp, by rw [hl, hc]; rfl, Or.inr rfl, hip, hfp, hipd, hfpd⟩
    · rw [if_neg hc] at h
      obtain ⟨ip, fp, hl, hip, hfp, hipd, hfpd⟩ := floatCore_decomp (c :: l) h
      exact ⟨[], ip, fp, by rw [List.nil_append]; exact hl, Or.inl rfl, hip, hfp, hipd, hfpd⟩

/-- A well-formed float display text contains no newline. -/
theorem floatText_noNl (t : String) (h : floatTextB t = true) :
    ∀ c ∈ t.data, c ≠ '\n' := by
  obtain ⟨sign, ip, fp, hdec, hsign, -, -, hipd, hfpd⟩ := floatText_decomp t h
  intro c hc
  rw [hdec] at hc
  rcases List.mem_append.mp hc with hc | hc
  · rcases hsign with rfl | rfl
    · simp at hc
    · rw [List.mem_singleton.mp hc]
      decide
  · rcases List.mem_append.mp hc with hc | hc
    · exact isDigit_ne_nl c (hipd c hc)
    · rcases List.mem_cons.mp hc with rfl | hc
      · decide
      · exact isDigit_ne_nl c (hfpd c hc)

/-- The escape expansion of any character contains no newline. -/
theorem escapeChar_noNl (a c : Char) (h : c ∈ escapeChar a) : c ≠ '\n' := by
  by_cases h1 : a = '"'
  · subst h1
    rw [show escapeChar '"' = ['\\', '"'] from by decide] at h
    rcases List.mem_cons.mp h with rfl | h
    · decide
    · rw [List.mem_singleton.mp h]
      decide
  · by_cases h2 : a = '\\'
    · subst h2
      rw [show escapeChar '\\' = ['\\', '\\'] from by decide] at h
      rcases List.mem_cons.mp h with rfl | h
      · decide
      · rw [List.mem_singleton.mp h]
        decide
    · by_cases h3 : a = '\n'
      · subst h3
        rw [show escapeChar '\n' = ['\\', 'n'] from by decide] at h
        rcases List.mem_cons.mp h with rfl | h
        · decide
        · rw [List.mem_singleton.mp h]
          decide
      · by_cases h4 : a = '\r'
        · subst h4
          rw [show escapeChar '\r' = ['\\', 'r'] from by decide] at h
          rcases List.mem_cons.mp h with rfl | h
          · decide
          · rw [List.mem_singleton.mp h]
            decide
        · by_cases h5 : a = '\t'
          · subst h5
            rw [show escapeChar '\t' = ['\\', 't'] from by decide] at h
            rcases List.mem_cons.mp h with rfl | h
            · decide
            · rw [List.mem_singleton.mp h]
              decide
          · rw [show escapeChar a = [a] from by simp [escapeChar, h1, h2, h3, h4, h5]] at h
            rw [List.mem_singleton.mp h]
            exact h3

mutual

/-- A well-formed value prints without newlines. -/
theorem valueOut_noNl : ∀ (v : Value), wfValue v = true →
    ∀ c ∈ (valueOut v).data, c ≠ '\n'
  | .variable n, h => by
      simp only [wfValue] at h
      exact noNl_append "$" n (by decide) (goodName_noNl n h)
  | .int n, _ => by
      intro c hc
      rcases i64Display_chars n c hc with hd | rfl
      · exact isDigit_ne_nl c hd
      · decide
  | .float t, h => by
      simp only [wfValue] at h
      simp only [valueOut]
      exact floatText_noNl t h
  | .string s, h => by
      simp only [valueOut, quotedOut]
      refine noNl_append _ _ (noNl_append _ _ (by decide) ?_) (by decide)
      intro c hc
      obtain ⟨pc, hpc, hcin⟩ := List.mem_flatten.mp hc
      obtain ⟨a, -, rfl⟩ := List.mem_map.mp hpc
      exact escapeChar_noNl a c hcin
  | .boolean true, _ => by decide
  | .boolean false, _ => by decide
  | .null, _ => by decide
  | .enum n, h => by
      simp only [wfValue, Bool.and_eq_true] at h
      exact goodName_noNl n h.1
  | .list [], _ => by decide
  | .list (x :: rest), h => by
      simp only [wfValue, wfValueList, Bool.and_eq_true] at h
      simp only [valueOut]
      exact noNl_append _ _ (noNl_append _ _ (noNl_append _ _ (by decide)
        (valueOut_noNl x h.1)) (valueListTailOut_noNl rest h.2)) (by decide)
  | .object [], _ => by decide
  | .object ((n, v) :: rest), h => by
      simp only [wfValue, wfValueFields, Bool.and_eq_true] at h
      obtain ⟨⟨h1, h2⟩, h3⟩ := h
      simp only [valueOut]
      exact noNl_append _ _ (noNl_append _ _ (noNl_append _ _ (noNl_append _ _
        (noNl_append _ _ (by decide) (goodName_noNl n h1)) (by decide))
        (valueOut_noNl v h2)) (valueObjectTailOut_noNl rest h3)) (by decide)

/-- Well-formed list tails print without newlines. -/
theorem valueListTailOut_noNl : ∀ (items : List Value), wfValueList items = true →
    ∀ c ∈ (valueListTailOut items).data, c ≠ '\n'
  | [], _ => by decide
  | x :: rest, h => by
      simp only [wfValueList, Bool.and_eq_true] at h
      simp only [valueListTailOut]
      exact noNl_append _ _ (noNl_append _ _ (by decide) (valueOut_noNl x h.1))
        (valueListTailOut_noNl rest h.2)

/-- Well-formed object tails print without newlines. -/
theorem valueObjectTailOut_noNl : ∀ (items : List (String × Value)),
    wfValueFields items = true → ∀ c ∈ (valueObjectTailOut items).data, c ≠ '\n'
  | [], _ => by decide
  | (n, v) :: rest, h => by
      simp only [wfValueFields, Bool.and_eq_true] at h
      obtain ⟨⟨h1, h2⟩, h3⟩ := h
      simp only [valueObjectTailOut]
      exact noNl_append _ _ (noNl_append _ _ (noNl_append _ _ (noNl_append _ _
        (by decide) (goodName_noNl n h1)) (by decide)) (valueOut_noNl v h2))
        (valueObjectTailOut_noNl rest h3)

end

/-- Well-formed argument tails print without newlines. -/
theorem argumentsTailOut_noNl (args : List (String × Value)) (h : wfArguments args = true) :
    ∀ c ∈ (argumentsTailOut args).data, c ≠ '\n' := by
  induction args with
  | nil => decide
  | cons a rest ih =>
    obtain ⟨n, v⟩ := a
    simp only [wfArguments, Bool.and_eq_true] at h
    obtain ⟨⟨h1, h2⟩, h3⟩ := h
    simp only [argumentsTailOut]
    exact noNl_append _ _ (noNl_append _ _ (noNl_append _ _ (noNl_append _ _
      (by decide) (goodName_noNl n h1)) (by decide)) (valueOut_noNl v h2)) (ih h3)

/-- Well-formed arguments print without newlines. -/
theorem argumentsOut_noNl (args : List (String × Value)) (h : wfArguments args = true) :
    ∀ c ∈ (argumentsOut args).data, c ≠ '\n' := by
  cases args with
  | nil => decide
  | cons a rest =>
    obtain ⟨n, v⟩ := a
    simp only [wfArguments, Bool.and_eq_true] at h
    obtain ⟨⟨h1, h2⟩, h3⟩ := h
    simp only [argumentsOut]
    exact noNl_append _ _ (noNl_append _ _ (noNl_append _ _ (noNl_append _ _
      (noNl_append _ _ (by decide) (goodName_noNl n h1)) (by decide))
      (valueOut_noNl v h2)) (argumentsTailOut_noNl rest h3)) (by decide)

/-- A well-formed directive prints without newlines. -/
theorem directiveOut_noNl (d : Directive) (h : wfDirective d = true) :
    ∀ c ∈ (directiveOut d).data, c ≠ '\n' := by
  simp only [wfDirective, Bool.and_eq_true] at h
  simp only [directiveOut]
  exact noNl_append _ _ (noNl_append _ _ (by decide) (goodName_noNl d.name h.1))
    (argumentsOut_noNl d.arguments h.2)

/-- Well-formed directive lists print without newlines. -/
theorem directivesOut_noNl (dirs : List Directive) (h : wfDirectives dirs = true) :
    ∀ c ∈ (directivesOut dirs).data, c ≠ '\n' := by
  induction dirs with
  | nil => decide
  | cons d rest ih =>
    simp only [wfDirectives, Bool.and_eq_true] at h
    simp only [directivesOut]
    exact noNl_append _ _ (noNl_append _ _ (by decide) (directiveOut_noNl d h.1)) (ih h.2)

/-- Appending keeps a non-whitespace last character. -/
theorem lastNonWs_append (a b : String)
    (hb : ∃ c, b.data.getLast? = some c ∧ c.isWhitespace = false) :
    ∃ c, (a ++ b).data.getLast? = some c ∧ c.isWhitespace = false := by
  obtain ⟨c, h1, h2⟩ := hb
  refine ⟨c, ?_, h2⟩
  rw [String.data_append, List.getLast?_append, h1]
  rfl

/-- A well-formed name ends in a non-whitespace character. -/
theorem goodName_lastNonWs (s : String) (h : goodNameB s = true) :
    ∃ c, s.data.getLast? = some c ∧ c.isWhitespace = false := by
  obtain ⟨hne, hall⟩ := goodName_data s h
  refine ⟨s.data.getLast hne, List.getLast?_eq_getLast s.data hne, ?_⟩
  exact isNameChar_not_ws _ (hall _ (List.getLast_mem hne))

/-- Nonempty arguments end in the closing parenthesis. -/
theorem argumentsOut_lastNonWs (args : List (String × Value)) (h : args ≠ []) :
    ∃ c, (argumentsOut args).data.getLast? = some c ∧ c.isWhitespace = false := by
  cases args with
  | nil => exact absurd rfl h
  | cons a rest =>
    obtain ⟨n, v⟩ := a
    simp only [argumentsOut]
    exact lastNonWs_append _ _ ⟨')', rfl, by decide⟩

/-- A well-formed directive ends in a non-whitespace character. -/
theorem directiveOut_lastNonWs (d : Directive) (h : wfDirective d = true) :
    ∃ c, (directiveOut d).data.getLast? = some c ∧ c.isWhitespace = false := by
  simp only [wfDirective, Bool.and_eq_true] at h
  simp only [directiveOut]
  cases hargs : d.arguments with
  | nil =>
    simp only [hargs, argumentsOut, String.append_empty]
    exact lastNonWs_append _ _ (goodName_lastNonWs d.name h.1)
  | cons a rest =>
    refine lastNonWs_append _ _ ?_
    rw [← hargs]
    exact argumentsOut_lastNonWs d.arguments (by rw [hargs]; simp)

/-- A nonempty well-formed directive list ends in a non-whitespace
character. -/
theorem directivesOut_lastNonWs (dirs : List Directive) (hne : dirs ≠ [])
    (h : wfDirectives dirs = true) :
    ∃ c, (directivesOut dirs).data.getLast? = some c ∧ c.isWhitespace = false := by
  induction dirs with
  | nil => exact absurd rfl hne
  | cons d rest ih =>
    simp only [wfDirectives, Bool.and_eq_true] at h
    simp only [directivesOut]
    cases hrest : rest with
    | nil =>
      simp only [hrest, directivesOut, String.append_empty]
      exact lastNonWs_append _ _ (directiveOut_lastNonWs d h.1)
    | cons e tail =>
      refine lastNonWs_append _ _ ?_
      rw [← hrest]
      exact ih (by rw [hrest]; simp) h.2

/-! ## Theorems: empty-selection fields print on one line (claim C7). -/

/-- C7: a well-formed field whose sub-selection set is empty is written
as one single line — the indentation, then alias, name, arguments and
directives, then the newline — with no block opened (the indentation
level is unchanged and the line contains no newline) and no trailing
whitespace before the line end. -/
theorem field_empty_selection_single_line
    (al : Option String) (nm : String) (args : List (String × Value))
    (dirs : List Directive) (f : Formatter)
    (h : wfField (.mk al nm args dirs (.mk [])) = true) :
    ∃ line : String,
      Field.display (.mk al nm args dirs (.mk [])) f =
        f.write (spacesStr f.indentLvl ++ (line ++ "\n")) ∧
      (Field.display (.mk al nm args dirs (.mk [])) f).indentLvl = f.indentLvl ∧
      line ≠ "" ∧
      (∀ c ∈ line.data, c ≠ '\n') ∧
      (∃ c, line.data.getLast? = some c ∧ c.isWhitespace = false) := by
  simp only [wfField, Bool.and_eq_true] at h
  obtain ⟨⟨⟨⟨hal, hnm⟩, hargs⟩, hdirs⟩, -⟩ := h
  refine ⟨aliasOut al ++ (nm ++ (argumentsOut args ++ directivesOut dirs)), ?_, ?_, ?_, ?_, ?_⟩
  · rw [field_display_out]
    simp [fieldOut, String.append_assoc]
  · rw [field_display_out]
    rfl
  · intro hcontra
    have hlen := congrArg String.length hcontra
    obtain ⟨hne, _⟩ := goodName_data nm hnm
    have : 0 < nm.length := by
      cases hd : nm.data with
      | nil => exact absurd hd hne
      | cons c l =>
        have : nm.length = nm.data.length := rfl
        rw [this, hd]
        simp
    simp [String.length_append] at hlen
    omega
  · refine noNl_append _ _ ?_ (noNl_append _ _ (goodName_noNl nm hnm)
      (noNl_append _ _ (argumentsOut_noNl args hargs) (directivesOut_noNl dirs hdirs)))
    cases al with
    | none => decide
    | some a =>
      simp only [aliasOut]
      exact noNl_append _ _ (goodName_noNl a hal) (by decide)
  · cases hd : dirs with
    | cons d rest =>
      refine lastNonWs_append _ _ (lastNonWs_append _ _ (lastNonWs_append _ _ ?_))
      rw [← hd]
      exact directivesOut_lastNonWs dirs (by rw [hd]; simp) hdirs
    | nil =>
      simp only [directivesOut, String.append_empty]
      cases hargs2 : args with
      | cons a rest =>
        refine lastNonWs_append _ _ (lastNonWs_append _ _ ?_)
        rw [← hargs2]
        exact argumentsOut_lastNonWs args (by rw [hargs2]; simp)
      | nil =>
        simp only [argumentsOut, String.append_empty]
        exact lastNonWs_append _ _ (goodName_lastNonWs nm hnm)

/-- Witness for C7 at a concrete aliased field with an argument and a
directive. -/
theorem field_empty_selection_single_line_witness :
    wfField (.mk (some "al") "me" [("x", Value.int 1)]
      [⟨"skip", [("if", Value.boolean true)]⟩] (.mk [])) = true ∧
    ∃ line : String,
      Field.display (.mk (some "al") "me" [("x", Value.int 1)]
          [⟨"skip", [("if", Value.boolean true)]⟩] (.mk []))
          (Formatter.new Style.default) =
        (Formatter.new Style.default).write
          (spacesStr (Formatter.new Style.default).indentLvl ++ (line ++ "\n")) ∧
      (Field.display (.mk (some "al") "me" [("x", Value.int 1)]
          [⟨"skip", [("if", Value.boolean true)]⟩] (.mk []))
          (Formatter.new Style.default)).indentLvl =
        (Formatter.new Style.default).indentLvl ∧
      line ≠ "" ∧
      (∀ c ∈ line.data, c ≠ '\n') ∧
      (∃ c, line.data.getLast? = some c ∧ c.isWhitespace = false) :=
  ⟨by decide,
    field_empty_selection_single_line (some "al") "me" [("x", Value.int 1)]
      [⟨"skip", [("if", Value.boolean true)]⟩] (Formatter.new Style.default) (by decide)⟩

/-! ## Token-level round trips. -/

/-- Ignored characters are dropped one at a time. -/
theorem skipWs_cons_ws (c : Char) (l : List Char) (h : isWsChar c = true) :
    skipWs (c :: l) = skipWs l := by
  simp [skipWs, List.dropWhile_cons, h]

/-- A non-ignored head stops the skip. -/
theorem skipWs_cons_not (c : Char) (l : List Char) (h : isWsChar c = false) :
    skipWs (c :: l) = c :: l := by
  simp [skipWs, List.dropWhile_cons, h]

/-- An all-ignored prefix is skipped entirely. -/
theorem skipWs_append_ws (pre l : List Char) (h : ∀ c ∈ pre, isWsChar c = true) :
    skipWs (pre ++ l) = skipWs l := by
  induction pre with
  | nil => rfl
  | cons c rest ih =>
    rw [List.cons_append, skipWs_cons_ws c _ (h c (by simp)),
      ih (fun x hx => h x (List.mem_cons_of_mem c hx))]

/-- Spaces are skipped. -/
theorem skipWs_spaces (n : Nat) (l : List Char) :
    skipWs ((spacesStr n).data ++ l) = skipWs l := by
  refine skipWs_append_ws _ l ?_
  intro c hc
  have : (spacesStr n).data = List.replicate n ' ' := rfl
  rw [this] at hc
  rw [List.eq_of_mem_replicate hc]
  decide

/-- Name characters are not ignored. -/
theorem isNameChar_not_isWs (c : Char) (h : isNameChar c = true) : isWsChar c = false := by
  by_contra hw
  simp only [Bool.not_eq_false] at hw
  simp only [isWsChar, Bool.or_eq_true, decide_eq_true_eq] at hw
  rcases hw with (((rfl | rfl) | rfl) | rfl) | rfl <;> exact absurd h (by decide)

/-- Two characters with different name-character status differ. -/
theorem isNameChar_ne_of (c d : Char) (h : isNameChar c = true)
    (hd : isNameChar d = false) : c ≠ d := by
  rintro rfl
  rw [h] at hd
  exact Bool.noConfusion hd

/-- Two characters with different digit status differ. -/
theorem isDigit_ne_of (c d : Char) (h : c.isDigit = true) (hd : d.isDigit = false) :
    c ≠ d := by
  rintro rfl
  rw [h] at hd
  exact Bool.noConfusion hd

/-- Digits are name characters. -/
theorem isDigit_isNameChar (c : Char) (h : c.isDigit = true) : isNameChar c = true := by
  simp [isNameChar, Char.isAlphanum, h]

/-- Name-start characters are not digits. -/
theorem isNameStart_not_digit (c : Char) (h : isNameStart c = true) : c.isDigit = false := by
  simp only [isNameStart, Bool.or_eq_true, decide_eq_true_eq] at h
  rcases h with h | rfl
  · simp only [Char.isAlpha, Char.isUpper, Char.isLower, Bool.or_eq_true,
      Bool.and_eq_true, decide_eq_true_eq] at h
    by_contra hd
    simp only [Bool.not_eq_false] at hd
    simp only [Char.isDigit, Bool.and_eq_true, decide_eq_true_eq] at hd
    obtain ⟨hd1, hd2⟩ := hd
    rcases h with ⟨h1, h2⟩ | ⟨h1, h2⟩ <;>
    · simp only [ge_iff_le, UInt32.le_def, BitVec.le_def] at hd1 hd2 h1 h2
      simp at hd1 hd2 h1 h2
      omega
  · decide

/-- A run satisfying the predicate followed by a failing head splits a
`takeWhile`/`dropWhile` pair exactly. -/
theorem takeWhile_dropWhile_append (p : Char → Bool) (l r : List Char)
    (hl : ∀ c ∈ l, p c = true) (hr : ∀ c, r.head? = some c → p c = false) :
    (l ++ r).takeWhile p = l ∧ (l ++ r).dropWhile p = r := by
  induction l with
  | nil =>
    cases r with
    | nil => exact ⟨rfl, rfl⟩
    | cons c r2 =>
      have := hr c rfl
      simp [List.takeWhile_cons, List.dropWhile_cons, this]
  | cons c l2 ih =>
    have hc := hl c (by simp)
    obtain ⟨ht, hd⟩ := ih (fun x hx => hl x (List.mem_cons_of_mem c hx))
    simp [List.takeWhile_cons, List.dropWhile_cons, hc, ht, hd]

/-- `takeName` reads exactly a printed well-formed name. -/
theorem takeName_exact (s : String) (rest : List Char) (h : goodNameB s = true)
    (hb : ∀ c, rest.head? = some c → isNameChar c = false) :
    takeName (s.data ++ rest) = some (s, rest) := by
  obtain ⟨hne, hall⟩ := goodName_data s h
  obtain ⟨ht, hd⟩ := takeWhile_dropWhile_append isNameChar s.data rest hall hb
  simp only [takeName, ht, hd]
  have hie : s.data.isEmpty = false := by
    cases hl : s.data with
    | nil => exact absurd hl hne
    | cons a l => rfl
  have hmk : String.mk s.data = s := rfl
  simp [hie, hmk]

/-- Digit values invert digit characters below ten. -/
theorem digitVal_digitChar (d : Nat) (h : d < 10) : digitVal (digitChar d) = d := by
  interval_cases d <;> decide

/-- A decimal print is nonempty. -/
theorem natDecimalChars_ne_nil (n : Nat) : natDecimalChars n ≠ [] := by
  rw [natDecimalChars]
  by_cases h : n < 10 <;> simp [h]

/-- Folding digits over an appended digit. -/
theorem digitsVal_append (l : List Char) (c : Char) :
    digitsVal (l ++ [c]) = 10 * digitsVal l + digitVal c := by
  simp [digitsVal, List.foldl_append]

/-- The decimal print evaluates back to its number. -/
theorem digitsVal_natDecimalChars (n : Nat) : digitsVal (natDecimalChars n) = n := by
  induction n using Nat.strong_induction_on with
  | _ n ih =>
    rw [natDecimalChars]
    by_cases h : n < 10
    · simp only [h, dite_true]
      simp [digitsVal, digitVal_digitChar n h]
    · simp only [h, dite_false]
      rw [digitsVal_append, ih (n / 10) (Nat.div_lt_self (by omega) (by omega)),
        digitVal_digitChar _ (Nat.mod_lt _ (by omega))]
      omega

/-- `parseNatTok` reads exactly a printed decimal. -/
theorem parseNatTok_exact (n : Nat) (rest : List Char)
    (hb : ∀ c, rest.head? = some c → c.isDigit = false) :
    parseNatTok (natDecimalChars n ++ rest) = some (n, rest) := by
  obtain ⟨ht, hd⟩ := takeWhile_dropWhile_append Char.isDigit (natDecimalChars n) rest
    (natDecimalChars_digit n) hb
  simp only [parseNatTok, ht, hd]
  have : (natDecimalChars n).isEmpty = false := by
    cases hl : natDecimalChars n with
    | nil => exact absurd hl (natDecimalChars_ne_nil n)
    | cons a l => rfl
  rw [this]
  simp [digitsVal_natDecimalChars]

/-- `parseStringBody` reads exactly a printed safe string body. -/
theorem parseStringBody_exact (l : List Char) (rest : List Char)
    (h : ∀ c ∈ l, stringSafe c = true) :
    parseStringBody (l ++ ('"' :: rest)) = some (l, rest) := by
  induction l with
  | nil =>
    simp [parseStringBody]
  | cons c l2 ih =>
    have hc := h c (by simp)
    have h1 : ¬(c = '"') := by
      rintro rfl
      exact absurd hc (by decide)
    have h2 : ¬(c = '\\') := by
      rintro rfl
      exact absurd hc (by decide)
    rw [List.cons_append]
    rw [show parseStringBody (c :: (l2 ++ '"' :: rest)) =
      (parseStringBody (l2 ++ '"' :: rest)).map fun p => (c :: p.1, p.2) from by
        simp only [parseStringBody, if_neg h1, if_neg h2]]
    rw [ih (fun x hx => h x (List.mem_cons_of_mem c hx))]
    rfl

/-- `takeDigits` reads exactly a nonempty digit run. -/
theorem takeDigits_exact (ds rest : List Char) (hne : ds ≠ [])
    (hd : ∀ c ∈ ds, c.isDigit = true)
    (hb : ∀ c, rest.head? = some c → c.isDigit = false) :
    takeDigits (ds ++ rest) = some (ds, rest) := by
  obtain ⟨ht, hdr⟩ := takeWhile_dropWhile_append Char.isDigit ds rest hd hb
  simp only [takeDigits, ht, hdr]
  have hie : ds.isEmpty = false := by
    cases hl : ds with
    | nil => exact absurd hl hne
    | cons a l => rfl
  simp [hie]

/-- A name boundary is also a digit boundary. -/
theorem digit_boundary_of_name (rest : List Char)
    (hb : ∀ c, rest.head? = some c → isNameChar c = false) :
    ∀ c, rest.head? = some c → c.isDigit = false := by
  intro c hc
  by_contra hd
  simp only [Bool.not_eq_false] at hd
  have := hb c hc
  rw [isDigit_isNameChar c hd] at this
  exact Bool.noConfusion this

/-- `parseNumTok` reads a printed decimal as an integer when no dot
follows. -/
theorem parseNumTok_int (neg : Bool) (m : Nat) (rest : List Char)
    (hb : ∀ c, rest.head? = some c → isNameChar c = false)
    (hbd : ∀ c, rest.head? = some c → ¬(c = '.')) :
    parseNumTok neg (natDecimalChars m ++ rest) =
      some (Value.int (if neg then -(m : Int) else (m : Int)), rest) := by
  have hdb := digit_boundary_of_name rest hb
  rw [parseNumTok, takeDigits_exact (natDecimalChars m) rest (natDecimalChars_ne_nil m)
    (natDecimalChars_digit m) hdb]
  cases rest with
  | nil => simp [digitsVal_natDecimalChars]
  | cons c r2 =>
    have hc : ¬(c = '.') := hbd c rfl
    simp [hc, digitsVal_natDecimalChars]

/-- `parseNumTok` reads a printed decimal pair joined by a dot as a
float, keeping the raw text. -/
theorem parseNumTok_float (neg : Bool) (ip fp rest : List Char)
    (hip : ip ≠ []) (hfp : fp ≠ [])
    (hipd : ∀ c ∈ ip, c.isDigit = true) (hfpd : ∀ c ∈ fp, c.isDigit = true)
    (hb : ∀ c, rest.head? = some c → isNameChar c = false) :
    parseNumTok neg ((ip ++ ('.' :: fp)) ++ rest) =
      some (Value.float (String.mk ((if neg then ['-'] else []) ++
        (ip ++ ('.' :: fp)))), rest) := by
  have hdb := digit_boundary_of_name rest hb
  have h1 : takeDigits (ip ++ ('.' :: (fp ++ rest))) = some (ip, '.' :: (fp ++ rest)) :=
    takeDigits_exact ip ('.' :: (fp ++ rest)) hip hipd (fun c hc => by
      rw [List.head?_cons, Option.some_inj] at hc
      rw [← hc]
      decide)
  have h2 : takeDigits (fp ++ rest) = some (fp, rest) :=
    takeDigits_exact fp rest hfp hfpd hdb
  rw [show (ip ++ ('.' :: fp)) ++ rest = ip ++ ('.' :: (fp ++ rest)) from by simp]
  simp [parseNumTok, h1, h2]

/-- Stepping `parseStringBody` over one escape pair. -/
theorem parseStringBody_cons_esc (e u : Char) (t : List Char)
    (hu : unescapeChar e = some u) :
    parseStringBody ('\\' :: (e :: t)) =
      (parseStringBody t).map fun p => (u :: p.1, p.2) := by
  simp [parseStringBody, hu]

/-- `parseStringBody` decodes exactly the escaped print of any string
body. -/
theorem parseStringBody_escaped (l : List Char) (rest : List Char) :
    parseStringBody ((l.map escapeChar).flatten ++ ('"' :: rest)) = some (l, rest) := by
  induction l with
  | nil =>
    simp [parseStringBody]
  | cons c l2 ih =>
    rw [List.map_cons, List.flatten_cons, List.append_assoc]
    by_cases h1 : c = '"'
    · subst h1
      rw [show escapeChar '"' = ['\\', '"'] from by decide]
      simp only [List.cons_append, List.nil_append]
      rw [parseStringBody_cons_esc '"' '"' _ (by decide), ih]
      rfl
    · by_cases h2 : c = '\\'
      · subst h2
        rw [show escapeChar '\\' = ['\\', '\\'] from by decide]
        simp only [List.cons_append, List.nil_append]
        rw [parseStringBody_cons_esc '\\' '\\' _ (by decide), ih]
        rfl
      · by_cases h3 : c = '\n'
        · subst h3
          rw [show escapeChar '\n' = ['\\', 'n'] from by decide]
          simp only [List.cons_append, List.nil_append]
          rw [parseStringBody_cons_esc 'n' '\n' _ (by decide), ih]
          rfl
        · by_cases h4 : c = '\r'
          · subst h4
            rw [show escapeChar '\r' = ['\\', 'r'] from by decide]
            simp only [List.cons_append, List.nil_append]
            rw [parseStringBody_cons_esc 'r' '\r' _ (by decide), ih]
            rfl
          · by_cases h5 : c = '\t'
            · subst h5
              rw [show escapeChar '\t' = ['\\', 't'] from by decide]
              simp only [List.cons_append, List.nil_append]
              rw [parseStringBody_cons_esc 't' '\t' _ (by decide), ih]
              rfl
            · rw [show escapeChar c = [c] from by simp [escapeChar, h1, h2, h3, h4, h5]]
              simp only [List.cons_append, List.nil_append]
              rw [show parseStringBody (c :: ((l2.map escapeChar).flatten ++ '"' :: rest)) =
                (parseStringBody ((l2.map escapeChar).flatten ++ '"' :: rest)).map
                  fun p => (c :: p.1, p.2) from by
                simp only [parseStringBody, if_neg h1, if_neg h2]]
              rw [ih]
              rfl

/-! ## Whitespace invariance of the readers. -/

/-- `parseValue` ignores a leading ignored-character run. -/
theorem parseValue_ws (fuel : Nat) (pad l : List Char)
    (h : ∀ c ∈ pad, isWsChar c = true) :
    parseValue fuel (pad ++ l) = parseValue fuel l := by
  cases fuel with
  | zero => rfl
  | succ fu => simp only [parseValue, skipWs_append_ws pad l h]

/-- `parseValueItems` ignores a leading ignored-character run. -/
theorem parseValueItems_ws (fuel : Nat) (pad l : List Char)
    (h : ∀ c ∈ pad, isWsChar c = true) :
    parseValueItems fuel (pad ++ l) = parseValueItems fuel l := by
  cases fuel with
  | zero => rfl
  | succ fu => simp only [parseValueItems, skipWs_append_ws pad l h]

/-- `parseObjectFields` ignores a leading ignored-character run. -/
theorem parseObjectFields_ws (fuel : Nat) (pad l : List Char)
    (h : ∀ c ∈ pad, isWsChar c = true) :
    parseObjectFields fuel (pad ++ l) = parseObjectFields fuel l := by
  cases fuel with
  | zero => rfl
  | succ fu => simp only [parseObjectFields, skipWs_append_ws pad l h]

/-- `parseArgumentsRest` ignores a leading ignored-character run. -/
theorem parseArgumentsRest_ws (fuel : Nat) (pad l : List Char)
    (h : ∀ c ∈ pad, isWsChar c = true) :
    parseArgumentsRest fuel (pad ++ l) = parseArgumentsRest fuel l := by
  cases fuel with
  | zero => rfl
  | succ fu => simp only [parseArgumentsRest, skipWs_append_ws pad l h]

/-- `parseSelection` ignores a leading ignored-character run. -/
theorem parseSelection_ws (fuel : Nat) (pad l : List Char)
    (h : ∀ c ∈ pad, isWsChar c = true) :
    parseSelection fuel (pad ++ l) = parseSelection fuel l := by
  cases fuel with
  | zero => rfl
  | succ fu => simp only [parseSelection, skipWs_append_ws pad l h]

/-- `parseSelectionItems` ignores a leading ignored-character run. -/
theorem parseSelectionItems_ws (fuel : Nat) (pad l : List Char)
    (h : ∀ c ∈ pad, isWsChar c = true) :
    parseSelectionItems fuel (pad ++ l) = parseSelectionItems fuel l := by
  cases fuel with
  | zero => rfl
  | succ fu => simp only [parseSelectionItems, skipWs_append_ws pad l h]

/-- `parseBlock` ignores a leading ignored-character run. -/
theorem parseBlock_ws (fuel : Nat) (pad l : List Char)
    (h : ∀ c ∈ pad, isWsChar c = true) :
    parseBlock fuel (pad ++ l) = parseBlock fuel l := by
  cases fuel with
  | zero => rfl
  | succ fu => simp only [parseBlock, skipWs_append_ws pad l h]

/-- `parseType` ignores a leading ignored-character run. -/
theorem parseType_ws (fuel : Nat) (pad l : List Char)
    (h : ∀ c ∈ pad, isWsChar c = true) :
    parseType fuel (pad ++ l) = parseType fuel l := by
  cases fuel with
  | zero => rfl
  | succ fu => simp only [parseType, skipWs_append_ws pad l h]

/-- `parseVarDefsRest` ignores a leading ignored-character run. -/
theorem parseVarDefsRest_ws (fuel : Nat) (pad l : List Char)
    (h : ∀ c ∈ pad, isWsChar c = true) :
    parseVarDefsRest fuel (pad ++ l) = parseVarDefsRest fuel l := by
  cases fuel with
  | zero => rfl
  | succ fu => simp only [parseVarDefsRest, skipWs_append_ws pad l h]

/-- `parseDefinition` ignores a leading ignored-character run. -/
theorem parseDefinition_ws (fuel : Nat) (pad l : List Char)
    (h : ∀ c ∈ pad, isWsChar c = true) :
    parseDefinition fuel (pad ++ l) = parseDefinition fuel l := by
  cases fuel with
  | zero => rfl
  | succ fu => simp only [parseDefinition, skipWs_append_ws pad l h]

/-- `parseDefinitions` ignores a leading ignored-character run. -/
theorem parseDefinitions_ws (fuel : Nat) (pad l : List Char)
    (h : ∀ c ∈ pad, isWsChar c = true) :
    parseDefinitions fuel (pad ++ l) = parseDefinitions fuel l := by
  cases fuel with
  | zero => rfl
  | succ fu => simp only [parseDefinitions, skipWs_append_ws pad l h]

/-! ## Head shapes of printed values. -/

/-- A boundary over a cons head with a known non-name character. -/
theorem head_boundary (c : Char) (l : List Char) (h : isNameChar c = false) :
    ∀ x, (c :: l).head? = some x → isNameChar x = false := by
  intro x hx
  rw [List.head?_cons, Option.some_inj] at hx
  rw [← hx]
  exact h

/-- The empty boundary. -/
theorem nil_boundary : ∀ x, ([] : List Char).head? = some x → isNameChar x = false := by
  intro x hx
  cases hx

/-- The printed form of a well-formed value starts with a character that
is not ignored and is none of the closing delimiters. -/
theorem valueOut_head (v : Value) (h : wfValue v = true) :
    ∃ c cs, (valueOut v).data = c :: cs ∧ isWsChar c = false ∧
      c ≠ ']' ∧ c ≠ '\x7d' ∧ c ≠ ')' := by
  rcases v with n | n | t | s | b | _ | n | items | fields
  · exact ⟨'$', n.data, rfl, by decide, by decide, by decide, by decide⟩
  · simp only [valueOut, i64Display]
    by_cases hn : n < 0
    · exact ⟨'-', natDecimalChars n.natAbs, by simp [hn], by decide, by decide, by decide,
        by decide⟩
    · simp only [hn, if_false]
      cases hl : natDecimalChars n.natAbs with
      | nil => exact absurd hl (natDecimalChars_ne_nil _)
      | cons c cs =>
        have hd : c.isDigit = true := natDecimalChars_digit _ c (by rw [hl]; simp)
        refine ⟨c, cs, by simp [hl], ?_, isDigit_ne_of c ']' hd (by decide),
          isDigit_ne_of c '\x7d' hd (by decide), isDigit_ne_of c ')' hd (by decide)⟩
        by_contra hw
        simp only [Bool.not_eq_false] at hw
        simp only [isWsChar, Bool.or_eq_true, decide_eq_true_eq] at hw
        rcases hw with (((rfl | rfl) | rfl) | rfl) | rfl <;> exact absurd hd (by decide)
  · have hw : floatTextB t = true := by simpa [wfValue] using h
    obtain ⟨sign, ip, fp, hdec, hsign, hip, -, hipd, -⟩ := floatText_decomp t hw
    rcases hsign with rfl | rfl
    · rw [List.nil_append] at hdec
      cases hi : ip with
      | nil => exact absurd hi hip
      | cons c cs =>
        have hd : c.isDigit = true := hipd c (by rw [hi]; simp)
        refine ⟨c, cs ++ ('.' :: fp), ?_,
          isNameChar_not_isWs c (isDigit_isNameChar c hd),
          isDigit_ne_of c ']' hd (by decide),
          isDigit_ne_of c '\x7d' hd (by decide), isDigit_ne_of c ')' hd (by decide)⟩
        simp only [valueOut]
        rw [hdec, hi]
        rfl
    · refine ⟨'-', ip ++ ('.' :: fp), ?_, by decide, by decide, by decide, by decide⟩
      simp only [valueOut]
      rw [hdec]
      rfl
  · exact ⟨'"', _, rfl, by decide, by decide, by decide, by decide⟩
  · cases b
    · exact ⟨'f', _, rfl, by decide, by decide, by decide, by decide⟩
    · exact ⟨'t', _, rfl, by decide, by decide, by decide, by decide⟩
  · exact ⟨'n', _, rfl, by decide, by decide, by decide, by decide⟩
  · simp only [wfValue, Bool.and_eq_true] at h
    obtain ⟨hne, hall⟩ := goodName_data n h.1
    cases hl : n.data with
    | nil => exact absurd hl hne
    | cons c cs =>
      have hc : isNameChar c = true := hall c (by rw [hl]; simp)
      exact ⟨c, cs, by simp [valueOut, hl], isNameChar_not_isWs c hc,
        isNameChar_ne_of c ']' hc (by decide), isNameChar_ne_of c '\x7d' hc (by decide),
        isNameChar_ne_of c ')' hc (by decide)⟩
  · cases items with
    | nil => exact ⟨'[', _, rfl, by decide, by decide, by decide, by decide⟩
    | cons x xs =>
      refine ⟨'[', (valueOut x ++ valueListTailOut xs ++ "]").data, ?_, by decide,
        by decide, by decide, by decide⟩
      simp [valueOut, String.data_append]
  · cases fields with
    | nil => exact ⟨'\x7b', _, rfl, by decide, by decide, by decide, by decide⟩
    | cons p fs =>
      obtain ⟨n, v⟩ := p
      refine ⟨'\x7b', (String.mk n.data ++ ": " ++ valueOut v ++ valueObjectTailOut fs ++
        "\x7d").data, ?_, by decide, by decide, by decide, by decide⟩
      simp [valueOut, String.data_append]

/-- After a list element comes a comma or the closing bracket. -/
theorem valueListTail_boundary (xs : List Value) (rest : List Char) :
    ∀ c, ((valueListTailOut xs).data ++ (']' :: rest)).head? = some c →
      isNameChar c = false := by
  cases xs with
  | nil =>
    intro c hc
    have hd : (valueListTailOut []).data = [] := rfl
    rw [hd, List.nil_append, List.head?_cons, Option.some_inj] at hc
    rw [← hc]
    decide
  | cons y ys =>
    intro c hc
    obtain ⟨t, hd⟩ : ∃ t, (valueListTailOut (y :: ys)).data = ',' :: t := by
      simp only [valueListTailOut]
      rw [String.data_append, String.data_append]
      exact ⟨_, rfl⟩
    rw [hd, List.cons_append, List.head?_cons, Option.some_inj] at hc
    rw [← hc]
    decide

/-- After an object field comes a comma or the closing brace. -/
theorem valueObjectTail_boundary (fs : List (String × Value)) (rest : List Char) :
    ∀ c, ((valueObjectTailOut fs).data ++ ('\x7d' :: rest)).head? = some c →
      isNameChar c = false := by
  cases fs with
  | nil =>
    intro c hc
    have hd : (valueObjectTailOut []).data = [] := rfl
    rw [hd, List.nil_append, List.head?_cons, Option.some_inj] at hc
    rw [← hc]
    decide
  | cons p fs2 =>
    intro c hc
    obtain ⟨n, v⟩ := p
    obtain ⟨t, hd⟩ : ∃ t, (valueObjectTailOut ((n, v) :: fs2)).data = ',' :: t := by
      simp only [valueObjectTailOut]
      rw [String.data_append, String.data_append, String.data_append, String.data_append]
      exact ⟨_, rfl⟩
    rw [hd, List.cons_append, List.head?_cons, Option.some_inj] at hc
    rw [← hc]
    decide

/-- After an argument comes a comma or the closing parenthesis. -/
theorem argumentsTail_boundary (args : List (String × Value)) (rest : List Char) :
    ∀ c, ((argumentsTailOut args).data ++ (')' :: rest)).head? = some c →
      isNameChar c = false := by
  cases args with
  | nil =>
    intro c hc
    have hd : (argumentsTailOut []).data = [] := rfl
    rw [hd, List.nil_append, List.head?_cons, Option.some_inj] at hc
    rw [← hc]
    decide
  | cons p args2 =>
    intro c hc
    obtain ⟨n, v⟩ := p
    obtain ⟨t, hd⟩ : ∃ t, (argumentsTailOut ((n, v) :: args2)).data = ',' :: t := by
      simp only [argumentsTailOut]
      rw [String.data_append, String.data_append, String.data_append, String.data_append]
      exact ⟨_, rfl⟩
    rw [hd, List.cons_append, List.head?_cons, Option.some_inj] at hc
    rw [← hc]
    decide

/-- No dot begins a list continuation. -/
theorem valueListTail_no_dot (xs : List Value) (rest : List Char) :
    ∀ c, ((valueListTailOut xs).data ++ (']' :: rest)).head? = some c →
      ¬(c = '.') := by
  cases xs with
  | nil =>
    intro c hc
    have hd : (valueListTailOut []).data = [] := rfl
    rw [hd, List.nil_append, List.head?_cons, Option.some_inj] at hc
    rw [← hc]
    decide
  | cons y ys =>
    intro c hc
    obtain ⟨t, hd⟩ : ∃ t, (valueListTailOut (y :: ys)).data = ',' :: t := by
      simp only [valueListTailOut]
      rw [String.data_append, String.data_append]
      exact ⟨_, rfl⟩
    rw [hd, List.cons_append, List.head?_cons, Option.some_inj] at hc
    rw [← hc]
    decide

/-- No dot begins an object continuation. -/
theorem valueObjectTail_no_dot (fs : List (String × Value)) (rest : List Char) :
    ∀ c, ((valueObjectTailOut fs).data ++ ('\x7d' :: rest)).head? = some c →
      ¬(c = '.') := by
  cases fs with
  | nil =>
    intro c hc
    have hd : (valueObjectTailOut []).data = [] := rfl
    rw [hd, List.nil_append, List.head?_cons, Option.some_inj] at hc
    rw [← hc]
    decide
  | cons p fs2 =>
    intro c hc
    obtain ⟨n, v⟩ := p
    obtain ⟨t, hd⟩ : ∃ t, (valueObjectTailOut ((n, v) :: fs2)).data = ',' :: t := by
      simp only [valueObjectTailOut]
      rw [String.data_append, String.data_append, String.data_append, String.data_append]
      exact ⟨_, rfl⟩
    rw [hd, List.cons_append, List.head?_cons, Option.some_inj] at hc
    rw [← hc]
    decide

/-- No dot begins an argument continuation. -/
theorem argumentsTail_no_dot (args : List (String × Value)) (rest : List Char) :
    ∀ c, ((argumentsTailOut args).data ++ (')' :: rest)).head? = some c →
      ¬(c = '.') := by
  cases args with
  | nil =>
    intro c hc
    have hd : (argumentsTailOut []).data = [] := rfl
    rw [hd, List.nil_append, List.head?_cons, Option.some_inj] at hc
    rw [← hc]
    decide
  | cons p args2 =>
    intro c hc
    obtain ⟨n, v⟩ := p
    obtain ⟨t, hd⟩ : ∃ t, (argumentsTailOut ((n, v) :: args2)).data = ',' :: t := by
      simp only [argumentsTailOut]
      rw [String.data_append, String.data_append, String.data_append, String.data_append]
      exact ⟨_, rfl⟩
    rw [hd, List.cons_append, List.head?_cons, Option.some_inj] at hc
    rw [← hc]
    decide

/-- No dot begins a variable-definition continuation. -/
theorem varDefsTail_no_dot (tl : List VariableDefinition) (rest : List Char) :
    ∀ c, ((varDefsTailOut tl).data ++ (')' :: rest)).head? = some c →
      ¬(c = '.') := by
  cases tl with
  | nil =>
    intro c hc
    rw [show (varDefsTailOut []).data ++ (')' :: rest) = ')' :: rest from by
      simp [varDefsTailOut]] at hc
    rw [List.head?_cons, Option.some_inj] at hc
    rw [← hc]
    decide
  | cons v tl2 =>
    intro c hc
    rw [show (varDefsTailOut (v :: tl2)).data ++ (')' :: rest) =
        ',' :: (' ' :: ((varDefOut v).data ++ ((varDefsTailOut tl2).data ++
          (')' :: rest)))) from by
      simp [varDefsTailOut, String.data_append]] at hc
    rw [List.head?_cons, Option.some_inj] at hc
    rw [← hc]
    decide

mutual

theorem parseValue_rt : ∀ (v : Value) (fuel : Nat) (rest : List Char),
    wfValue v = true →
    (∀ c, rest.head? = some c → isNameChar c = false) →
    (∀ c, rest.head? = some c → ¬(c = '.')) →
    valueFuel v ≤ fuel →
    parseValue fuel ((valueOut v).data ++ rest) = some (v, rest)
  | .variable n, fuel, rest => by
    intro hwf hb hbd hfuel
    simp only [valueFuel] at hfuel
    obtain ⟨fu, rfl⟩ : ∃ k, fuel = k + 1 := ⟨fuel - 1, by omega⟩
    simp only [wfValue] at hwf
    have hdata : (valueOut (Value.variable n)).data ++ rest = '$' :: (n.data ++ rest) := by
      simp only [valueOut]
      rw [String.data_append]
      rfl
    rw [hdata]
    simp only [parseValue]
    rw [skipWs_cons_not _ _ (by decide)]
    simp only [takeName_exact n rest hwf hb]
    simp
  | .int n, fuel, rest => by
    intro hwf hb hbd hfuel
    simp only [valueFuel] at hfuel
    obtain ⟨fu, rfl⟩ : ∃ k, fuel = k + 1 := ⟨fuel - 1, by omega⟩
    have hdb := digit_boundary_of_name rest hb
    by_cases hn : n < 0
    · have hdata : (valueOut (Value.int n)).data ++ rest =
        '-' :: (natDecimalChars n.natAbs ++ rest) := by
        simp [valueOut, i64Display, hn]
      rw [hdata]
      simp only [parseValue]
      rw [skipWs_cons_not _ _ (by decide)]
      have hp := parseNumTok_int true n.natAbs rest hb hbd
      have hv : -|n| = n := by
        rw [abs_of_neg hn]
        ring
      simp only [if_pos rfl] at hp
      simp [hp, hv]
    · have hdata : (valueOut (Value.int n)).data ++ rest =
        natDecimalChars n.natAbs ++ rest := by
        simp [valueOut, i64Display, hn]
      cases hl : natDecimalChars n.natAbs with
      | nil => exact absurd hl (natDecimalChars_ne_nil _)
      | cons c cs =>
        have hcd : c.isDigit = true := natDecimalChars_digit _ c (by rw [hl]; simp)
        have hcn : isNameChar c = true := isDigit_isNameChar c hcd
        rw [hdata, hl, List.cons_append]
        simp only [parseValue]
        rw [skipWs_cons_not _ _ (isNameChar_not_isWs c hcn)]
        have h1 : ¬(c = '$') := isDigit_ne_of c '$' hcd (by decide)
        have h2 : ¬(c = '"') := isDigit_ne_of c '"' hcd (by decide)
        have h3 : ¬(c = '[') := isDigit_ne_of c '[' hcd (by decide)
        have h4 : ¬(c = '\x7b') := isDigit_ne_of c '\x7b' hcd (by decide)
        have h5 : ¬(c = '-') := isDigit_ne_of c '-' hcd (by decide)
        have hp : parseNumTok false (c :: (cs ++ rest)) =
            some (Value.int ((n.natAbs : Int)), rest) := by
          rw [show c :: (cs ++ rest) = natDecimalChars n.natAbs ++ rest from by rw [hl]; rfl]
          have hq := parseNumTok_int false n.natAbs rest hb hbd
          simpa using hq
        have hv : |n| = n := abs_of_nonneg (by omega)
        simp [h1, h2, h3, h4, h5, hcd, hp, hv]
  | .float t, fuel, rest => by
    intro hwf hb hbd hfuel
    simp only [valueFuel] at hfuel
    obtain ⟨fu, rfl⟩ : ∃ k, fuel = k + 1 := ⟨fuel - 1, by omega⟩
    have hw : floatTextB t = true := by simpa [wfValue] using hwf
    obtain ⟨sign, ip, fp, hdec, hsign, hip, hfp, hipd, hfpd⟩ := floatText_decomp t hw
    rcases hsign with rfl | rfl
    · rw [List.nil_append] at hdec
      rcases ip with _ | ⟨c, cs⟩
      · exact absurd rfl hip
      · have hcd : c.isDigit = true := hipd c (by simp)
        have hcn : isNameChar c = true := isDigit_isNameChar c hcd
        rw [show (valueOut (Value.float t)).data ++ rest =
            c :: (cs ++ ('.' :: (fp ++ rest))) from by
          simp only [valueOut]
          rw [hdec]
          simp]
        simp only [parseValue]
        rw [skipWs_cons_not _ _ (isNameChar_not_isWs c hcn)]
        have h1 : ¬(c = '$') := isDigit_ne_of c '$' hcd (by decide)
        have h2 : ¬(c = '"') := isDigit_ne_of c '"' hcd (by decide)
        have h3 : ¬(c = '[') := isDigit_ne_of c '[' hcd (by decide)
        have h4 : ¬(c = '\x7b') := isDigit_ne_of c '\x7b' hcd (by decide)
        have h5 : ¬(c = '-') := isDigit_ne_of c '-' hcd (by decide)
        have hp : parseNumTok false (c :: (cs ++ ('.' :: (fp ++ rest)))) =
            some (Value.float t, rest) := by
          rw [show c :: (cs ++ ('.' :: (fp ++ rest))) =
            ((c :: cs) ++ ('.' :: fp)) ++ rest from by simp]
          rw [parseNumTok_float false (c :: cs) fp rest (by simp) hfp hipd hfpd hb]
          rw [show (if false then ['-'] else ([] : List Char)) ++
            ((c :: cs) ++ ('.' :: fp)) = t.data from by rw [hdec]; rfl]
        simp [h1, h2, h3, h4, h5, hcd, hp]
    · rw [show (valueOut (Value.float t)).data ++ rest =
          '-' :: (ip ++ ('.' :: (fp ++ rest))) from by
        simp only [valueOut]
        rw [hdec]
        simp]
      simp only [parseValue]
      rw [skipWs_cons_not _ _ (by decide)]
      have hp : parseNumTok true (ip ++ ('.' :: (fp ++ rest))) =
          some (Value.float t, rest) := by
        rw [show ip ++ ('.' :: (fp ++ rest)) = (ip ++ ('.' :: fp)) ++ rest from by simp]
        rw [parseNumTok_float true ip fp rest hip hfp hipd hfpd hb]
        rw [show (if true then ['-'] else ([] : List Char)) ++ (ip ++ ('.' :: fp)) =
          t.data from by rw [hdec]; rfl]
      simp [hp]
  | .string s, fuel, rest => by
    intro hwf hb hbd hfuel
    simp only [valueFuel] at hfuel
    obtain ⟨fu, rfl⟩ : ∃ k, fuel = k + 1 := ⟨fuel - 1, by omega⟩
    obtain ⟨sd⟩ := s
    have hdata : (valueOut (Value.string (String.mk sd))).data ++ rest =
        '"' :: ((sd.map escapeChar).flatten ++ ('"' :: rest)) := by
      simp [valueOut, quotedOut, String.data_append]
    rw [hdata]
    simp only [parseValue]
    rw [skipWs_cons_not _ _ (by decide)]
    have hp := parseStringBody_escaped sd rest
    simp [hp]
  | .boolean true, fuel, rest => by
    intro hwf hb hbd hfuel
    simp only [valueFuel] at hfuel
    obtain ⟨fu, rfl⟩ : ∃ k, fuel = k + 1 := ⟨fuel - 1, by omega⟩
    rw [show (valueOut (Value.boolean true)).data ++ rest =
      't' :: (['r', 'u', 'e'] ++ rest) from rfl]
    simp only [parseValue]
    rw [skipWs_cons_not _ _ (by decide)]
    have ht : takeName ('t' :: 'r' :: 'u' :: 'e' :: rest) = some ("true", rest) := by
      rw [show 't' :: 'r' :: 'u' :: 'e' :: rest = ("true").data ++ rest from rfl]
      exact takeName_exact "true" rest (by decide) hb
    simp [ht]
  | .boolean false, fuel, rest => by
    intro hwf hb hbd hfuel
    simp only [valueFuel] at hfuel
    obtain ⟨fu, rfl⟩ : ∃ k, fuel = k + 1 := ⟨fuel - 1, by omega⟩
    rw [show (valueOut (Value.boolean false)).data ++ rest =
      'f' :: 'a' :: 'l' :: 's' :: 'e' :: rest from rfl]
    simp only [parseValue]
    rw [skipWs_cons_not _ _ (by decide)]
    have ht : takeName ('f' :: 'a' :: 'l' :: 's' :: 'e' :: rest) = some ("false", rest) := by
      rw [show 'f' :: 'a' :: 'l' :: 's' :: 'e' :: rest = ("false").data ++ rest from rfl]
      exact takeName_exact "false" rest (by decide) hb
    simp [ht]
  | .null, fuel, rest => by
    intro hwf hb hbd hfuel
    simp only [valueFuel] at hfuel
    obtain ⟨fu, rfl⟩ : ∃ k, fuel = k + 1 := ⟨fuel - 1, by omega⟩
    rw [show (valueOut Value.null).data ++ rest = 'n' :: 'u' :: 'l' :: 'l' :: rest from rfl]
    simp only [parseValue]
    rw [skipWs_cons_not _ _ (by decide)]
    have ht : takeName ('n' :: 'u' :: 'l' :: 'l' :: rest) = some ("null", rest) := by
      rw [show 'n' :: 'u' :: 'l' :: 'l' :: rest = ("null").data ++ rest from rfl]
      exact takeName_exact "null" rest (by decide) hb
    simp [ht]
  | .enum n, fuel, rest => by
    intro hwf hb hbd hfuel
    simp only [valueFuel] at hfuel
    obtain ⟨fu, rfl⟩ : ∃ k, fuel = k + 1 := ⟨fuel - 1, by omega⟩
    simp only [wfValue, Bool.and_eq_true] at hwf
    obtain ⟨hgn, hkw⟩ := hwf
    simp only [Bool.not_eq_eq_eq_not, Bool.not_true, Bool.or_eq_false_iff,
      decide_eq_false_iff_not] at hkw
    obtain ⟨hne, hall⟩ := goodName_data n hgn
    cases hl : n.data with
    | nil => exact absurd hl hne
    | cons c cs =>
      have hstart : isNameStart c = true := by
        simp only [goodNameB, hl, Bool.and_eq_true] at hgn
        exact hgn.1
      have hc : isNameChar c = true := isNameStart_isNameChar c hstart
      have hdata : (valueOut (Value.enum n)).data ++ rest = c :: (cs ++ rest) := by
        simp [valueOut, hl]
      rw [hdata]
      simp only [parseValue]
      rw [skipWs_cons_not _ _ (isNameChar_not_isWs c hc)]
      have h1 : ¬(c = '$') := isNameChar_ne_of c '$' hc (by decide)
      have h2 : ¬(c = '"') := isNameChar_ne_of c '"' hc (by decide)
      have h3 : ¬(c = '[') := isNameChar_ne_of c '[' hc (by decide)
      have h4 : ¬(c = '\x7b') := isNameChar_ne_of c '\x7b' hc (by decide)
      have h5 : ¬(c = '-') := isNameChar_ne_of c '-' hc (by decide)
      have h6 : c.isDigit = false := isNameStart_not_digit c hstart
      have ht : takeName (c :: (cs ++ rest)) = some (n, rest) := by
        rw [show c :: (cs ++ rest) = n.data ++ rest from by rw [hl]; rfl]
        exact takeName_exact n rest hgn hb
      simp [h1, h2, h3, h4, h5, h6, ht, hkw.1.1, hkw.1.2, hkw.2]
  | .list items, fuel, rest => by
    intro hwf hb hbd hfuel
    simp only [valueFuel] at hfuel
    obtain ⟨fu, rfl⟩ : ∃ k, fuel = k + 1 := ⟨fuel - 1, by omega⟩
    simp only [wfValue] at hwf
    have hdata : (valueOut (Value.list items)).data ++ rest =
        '[' :: (valueItemsInner items ++ (']' :: rest)) := by
      cases items with
      | nil => simp [valueOut, valueItemsInner, String.data_append]
      | cons x xs => simp [valueOut, valueItemsInner, String.data_append]
    rw [hdata]
    simp only [parseValue]
    rw [skipWs_cons_not _ _ (by decide)]
    have hit : parseValueItems fu (valueItemsInner items ++ (']' :: rest)) =
        some (items, rest) :=
      parseValueItems_rt items fu rest hwf (by omega)
    simp [hit]
  | .object fields, fuel, rest => by
    intro hwf hb hbd hfuel
    simp only [valueFuel] at hfuel
    obtain ⟨fu, rfl⟩ : ∃ k, fuel = k + 1 := ⟨fuel - 1, by omega⟩
    simp only [wfValue] at hwf
    have hdata : (valueOut (Value.object fields)).data ++ rest =
        '\x7b' :: (valueObjectInner fields ++ ('\x7d' :: rest)) := by
      cases fields with
      | nil => simp [valueOut, valueObjectInner, String.data_append]
      | cons p fs =>
        obtain ⟨n, v⟩ := p
        simp [valueOut, valueObjectInner, String.data_append]
    rw [hdata]
    simp only [parseValue]
    rw [skipWs_cons_not _ _ (by decide)]
    have hit : parseObjectFields fu (valueObjectInner fields ++ ('\x7d' :: rest)) =
        some (fields, rest) :=
      parseObjectFields_rt fields fu rest hwf (by omega)
    simp [hit]

theorem parseValueItems_rt : ∀ (items : List Value) (fuel : Nat) (rest : List Char),
    wfValueList items = true →
    valueItemsFuel items ≤ fuel →
    parseValueItems fuel (valueItemsInner items ++ (']' :: rest)) = some (items, rest)
  | [], fuel, rest => by
    intro hwf hfuel
    simp only [valueItemsFuel] at hfuel
    obtain ⟨fu, rfl⟩ : ∃ k, fuel = k + 1 := ⟨fuel - 1, by omega⟩
    simp only [valueItemsInner, List.nil_append, parseValueItems]
    rw [skipWs_cons_not _ _ (by decide)]
    simp
  | x :: xs, fuel, rest => by
    intro hwf hfuel
    simp only [wfValueList, Bool.and_eq_true] at hwf
    obtain ⟨hwx, hwxs⟩ := hwf
    simp only [valueItemsFuel] at hfuel
    obtain ⟨fu, rfl⟩ : ∃ k, fuel = k + 1 := ⟨fuel - 1, by omega⟩
    have hfx : valueFuel x ≤ fu := by omega
    have hfxs : valueItemsFuel xs ≤ fu := by omega
    obtain ⟨c, cs, hcd, hws, hbr, _, _⟩ := valueOut_head x hwx
    have hdata : valueItemsInner (x :: xs) ++ (']' :: rest) =
        c :: (cs ++ ((valueListTailOut xs).data ++ (']' :: rest))) := by
      simp [valueItemsInner, hcd]
    rw [hdata]
    simp only [parseValueItems]
    rw [skipWs_cons_not _ _ hws]
    have hv : parseValue fu (c :: (cs ++ ((valueListTailOut xs).data ++ (']' :: rest)))) =
        some (x, (valueListTailOut xs).data ++ (']' :: rest)) := by
      rw [show c :: (cs ++ ((valueListTailOut xs).data ++ (']' :: rest))) =
          (valueOut x).data ++ ((valueListTailOut xs).data ++ (']' :: rest)) from by
        rw [hcd]
        rfl]
      exact parseValue_rt x fu _ hwx (valueListTail_boundary xs rest) (valueListTail_no_dot xs rest) hfx
    have htail : parseValueItems fu ((valueListTailOut xs).data ++ (']' :: rest)) =
        some (xs, rest) := by
      cases xs with
      | nil =>
        have h0 := parseValueItems_rt [] fu rest rfl hfxs
        simpa [valueItemsInner, valueListTailOut] using h0
      | cons y ys =>
        have hd2 : (valueListTailOut (y :: ys)).data ++ (']' :: rest) =
            [',', ' '] ++ (valueItemsInner (y :: ys) ++ (']' :: rest)) := by
          simp [valueListTailOut, valueItemsInner, String.data_append]
        rw [hd2, parseValueItems_ws fu [',', ' '] _ (by decide)]
        exact parseValueItems_rt (y :: ys) fu rest hwxs hfxs
    simp [hbr, hv, htail]

theorem parseObjectFields_rt : ∀ (fields : List (String × Value)) (fuel : Nat)
    (rest : List Char),
    wfValueFields fields = true →
    objectFieldsFuel fields ≤ fuel →
    parseObjectFields fuel (valueObjectInner fields ++ ('\x7d' :: rest)) =
      some (fields, rest)
  | [], fuel, rest => by
    intro hwf hfuel
    simp only [objectFieldsFuel] at hfuel
    obtain ⟨fu, rfl⟩ : ∃ k, fuel = k + 1 := ⟨fuel - 1, by omega⟩
    simp only [valueObjectInner, List.nil_append, parseObjectFields]
    rw [skipWs_cons_not _ _ (by decide)]
    simp
  | (n, v) :: fs, fuel, rest => by
    intro hwf hfuel
    simp only [wfValueFields, Bool.and_eq_true] at hwf
    obtain ⟨⟨hgn, hwv⟩, hwfs⟩ := hwf
    simp only [objectFieldsFuel] at hfuel
    obtain ⟨fu, rfl⟩ : ∃ k, fuel = k + 1 := ⟨fuel - 1, by omega⟩
    have hfv : valueFuel v ≤ fu := by omega
    have hffs : objectFieldsFuel fs ≤ fu := by omega
    obtain ⟨hne, hall⟩ := goodName_data n hgn
    cases hl : n.data with
    | nil => exact absurd hl hne
    | cons c cs =>
      have hstart : isNameStart c = true := by
        simp only [goodNameB, hl, Bool.and_eq_true] at hgn
        exact hgn.1
      have hc : isNameChar c = true := isNameStart_isNameChar c hstart
      have hgn2 : goodNameB n = true := by
        simp only [goodNameB, hl, Bool.and_eq_true]
        refine ⟨hstart, ?_⟩
        rw [List.all_eq_true]
        intro a ha
        exact hall a (by rw [hl]; exact List.mem_cons_of_mem c ha)
      have hdata : valueObjectInner ((n, v) :: fs) ++ ('\x7d' :: rest) =
          c :: (cs ++ (':' :: ' ' :: ((valueOut v).data ++
            ((valueObjectTailOut fs).data ++ ('\x7d' :: rest))))) := by
        simp [valueObjectInner, hl]
      rw [hdata]
      simp only [parseObjectFields]
      rw [skipWs_cons_not _ _ (isNameChar_not_isWs c hc)]
      have hbr : ¬(c = '\x7d') := isNameChar_ne_of c '\x7d' hc (by decide)
      have ht : takeName (c :: (cs ++ (':' :: ' ' :: ((valueOut v).data ++
          ((valueObjectTailOut fs).data ++ ('\x7d' :: rest)))))) =
          some (n, ':' :: ' ' :: ((valueOut v).data ++
            ((valueObjectTailOut fs).data ++ ('\x7d' :: rest)))) := by
        rw [show c :: (cs ++ (':' :: ' ' :: ((valueOut v).data ++
            ((valueObjectTailOut fs).data ++ ('\x7d' :: rest))))) =
            n.data ++ (':' :: ' ' :: ((valueOut v).data ++
              ((valueObjectTailOut fs).data ++ ('\x7d' :: rest)))) from by
          rw [hl]
          rfl]
        exact takeName_exact n _ hgn2 (head_boundary ':' _ (by decide))
      have hsk : skipWs (':' :: ' ' :: ((valueOut v).data ++
          ((valueObjectTailOut fs).data ++ ('\x7d' :: rest)))) =
          ':' :: ' ' :: ((valueOut v).data ++
            ((valueObjectTailOut fs).data ++ ('\x7d' :: rest))) :=
        skipWs_cons_not _ _ (by decide)
      have hv : parseValue fu (' ' :: ((valueOut v).data ++
          ((valueObjectTailOut fs).data ++ ('\x7d' :: rest)))) =
          some (v, (valueObjectTailOut fs).data ++ ('\x7d' :: rest)) := by
        rw [show (' ' :: ((valueOut v).data ++
            ((valueObjectTailOut fs).data ++ ('\x7d' :: rest)))) =
            [' '] ++ ((valueOut v).data ++
              ((valueObjectTailOut fs).data ++ ('\x7d' :: rest))) from rfl]
        rw [parseValue_ws fu [' '] _ (by decide)]
        exact parseValue_rt v fu _ hwv (valueObjectTail_boundary fs rest) (valueObjectTail_no_dot fs rest) hfv
      have htail : parseObjectFields fu ((valueObjectTailOut fs).data ++ ('\x7d' :: rest)) =
          some (fs, rest) := by
        cases fs with
        | nil =>
          have h0 := parseObjectFields_rt [] fu rest rfl hffs
          simpa [valueObjectInner, valueObjectTailOut] using h0
        | cons q qs =>
          obtain ⟨n2, v2⟩ := q
          have hd2 : (valueObjectTailOut ((n2, v2) :: qs)).data ++ ('\x7d' :: rest) =
              [',', ' '] ++ (valueObjectInner ((n2, v2) :: qs) ++ ('\x7d' :: rest)) := by
            simp [valueObjectTailOut, valueObjectInner, String.data_append]
          rw [hd2, parseObjectFields_ws fu [',', ' '] _ (by decide)]
          exact parseObjectFields_rt ((n2, v2) :: qs) fu rest hwfs hffs
      simp [hbr, ht, hsk, expectChar, hv, htail]

end


/-- An ignored character differs from any non-ignored character. -/
theorem isWsChar_ne_of (c d : Char) (h : isWsChar c = true) (hd : isWsChar d = false) :
    ¬(c = d) := by
  rintro rfl
  rw [h] at hd
  exact Bool.noConfusion hd

/-- Ignored characters are not name characters. -/
theorem isWs_not_nameChar (c : Char) (h : isWsChar c = true) : isNameChar c = false := by
  cases hx : isNameChar c with
  | false => rfl
  | true =>
    rw [isNameChar_not_isWs c hx] at h
    exact Bool.noConfusion h

/-- A printed argument list is followed by its continuation: heads. -/
theorem argsThen_boundary (args : List (String × Value)) (l : List Char)
    (hl : ∀ c, l.head? = some c → isNameChar c = false) :
    ∀ c, ((argumentsOut args).data ++ l).head? = some c → isNameChar c = false := by
  cases args with
  | nil =>
    intro c hc
    rw [show (argumentsOut []).data ++ l = l from by simp [argumentsOut]] at hc
    exact hl c hc
  | cons q qs =>
    obtain ⟨qn, qv⟩ := q
    intro c hc
    rw [show (argumentsOut ((qn, qv) :: qs)).data ++ l =
        '(' :: ((argumentsInner ((qn, qv) :: qs)) ++ (')' :: l)) from by
      simp [argumentsOut, argumentsInner, String.data_append]] at hc
    rw [List.head?_cons, Option.some_inj] at hc
    rw [← hc]
    decide

/-- After printed directives the head is ignored when the continuation
starts ignored. -/
theorem dirsThen_ws_head (dirs : List Directive) (l : List Char)
    (hl : ∀ c, l.head? = some c → isWsChar c = true) :
    ∀ c, ((directivesOut dirs).data ++ l).head? = some c → isWsChar c = true := by
  cases dirs with
  | nil =>
    intro c hc
    rw [show (directivesOut []).data ++ l = l from by simp [directivesOut]] at hc
    exact hl c hc
  | cons d tl =>
    intro c hc
    rw [show (directivesOut (d :: tl)).data ++ l =
        ' ' :: (((directiveOut d).data ++ (directivesOut tl).data) ++ l) from by
      simp [directivesOut, String.data_append]] at hc
    rw [List.head?_cons, Option.some_inj] at hc
    rw [← hc]
    decide

/-- After printed directives no name character starts a ws-led
continuation. -/
theorem dirsThen_boundary (dirs : List Directive) (l : List Char)
    (hl : ∀ c, l.head? = some c → isWsChar c = true) :
    ∀ c, ((directivesOut dirs).data ++ l).head? = some c → isNameChar c = false :=
  fun c hc => isWs_not_nameChar c (dirsThen_ws_head dirs l hl c hc)

/-- Reading back a printed argument tail. -/
theorem parseArgumentsRest_rt : ∀ (args : List (String × Value)) (fuel : Nat)
    (rest : List Char),
    wfArguments args = true →
    argumentsRestFuel args ≤ fuel →
    parseArgumentsRest fuel (argumentsInner args ++ (')' :: rest)) = some (args, rest)
  | [], fuel, rest => by
    intro hwf hfuel
    simp only [argumentsRestFuel] at hfuel
    obtain ⟨fu, rfl⟩ : ∃ k, fuel = k + 1 := ⟨fuel - 1, by omega⟩
    simp only [argumentsInner, List.nil_append, parseArgumentsRest]
    rw [skipWs_cons_not _ _ (by decide)]
    simp
  | (n, v) :: fs, fuel, rest => by
    intro hwf hfuel
    simp only [wfArguments, Bool.and_eq_true] at hwf
    obtain ⟨⟨hgn, hwv⟩, hwfs⟩ := hwf
    simp only [argumentsRestFuel] at hfuel
    obtain ⟨fu, rfl⟩ : ∃ k, fuel = k + 1 := ⟨fuel - 1, by omega⟩
    have hfv : valueFuel v ≤ fu := by omega
    have hffs : argumentsRestFuel fs ≤ fu := by omega
    obtain ⟨hne, hall⟩ := goodName_data n hgn
    cases hl : n.data with
    | nil => exact absurd hl hne
    | cons c cs =>
      have hstart : isNameStart c = true := by
        simp only [goodNameB, hl, Bool.and_eq_true] at hgn
        exact hgn.1
      have hc : isNameChar c = true := isNameStart_isNameChar c hstart
      have hgn2 : goodNameB n = true := by
        simp only [goodNameB, hl, Bool.and_eq_true]
        refine ⟨hstart, ?_⟩
        rw [List.all_eq_true]
        intro a ha
        exact hall a (by rw [hl]; exact List.mem_cons_of_mem c ha)
      have hdata : argumentsInner ((n, v) :: fs) ++ (')' :: rest) =
          c :: (cs ++ (':' :: ' ' :: ((valueOut v).data ++
            ((argumentsTailOut fs).data ++ (')' :: rest))))) := by
        simp [argumentsInner, hl]
      rw [hdata]
      simp only [parseArgumentsRest]
      rw [skipWs_cons_not _ _ (isNameChar_not_isWs c hc)]
      have hbr : ¬(c = ')') := isNameChar_ne_of c ')' hc (by decide)
      have ht : takeName (c :: (cs ++ (':' :: ' ' :: ((valueOut v).data ++
          ((argumentsTailOut fs).data ++ (')' :: rest)))))) =
          some (n, ':' :: ' ' :: ((valueOut v).data ++
            ((argumentsTailOut fs).data ++ (')' :: rest)))) := by
        rw [show c :: (cs ++ (':' :: ' ' :: ((valueOut v).data ++
            ((argumentsTailOut fs).data ++ (')' :: rest))))) =
            n.data ++ (':' :: ' ' :: ((valueOut v).data ++
              ((argumentsTailOut fs).data ++ (')' :: rest)))) from by
          rw [hl]
          rfl]
        exact takeName_exact n _ hgn2 (head_boundary ':' _ (by decide))
      have hsk : skipWs (':' :: ' ' :: ((valueOut v).data ++
          ((argumentsTailOut fs).data ++ (')' :: rest)))) =
          ':' :: ' ' :: ((valueOut v).data ++
            ((argumentsTailOut fs).data ++ (')' :: rest))) :=
        skipWs_cons_not _ _ (by decide)
      have hv : parseValue fu (' ' :: ((valueOut v).data ++
          ((argumentsTailOut fs).data ++ (')' :: rest)))) =
          some (v, (argumentsTailOut fs).data ++ (')' :: rest)) := by
        rw [show (' ' :: ((valueOut v).data ++
            ((argumentsTailOut fs).data ++ (')' :: rest)))) =
            [' '] ++ ((valueOut v).data ++
              ((argumentsTailOut fs).data ++ (')' :: rest))) from rfl]
        rw [parseValue_ws fu [' '] _ (by decide)]
        exact parseValue_rt v fu _ hwv (argumentsTail_boundary fs rest) (argumentsTail_no_dot fs rest) hfv
      have htail : parseArgumentsRest fu ((argumentsTailOut fs).data ++ (')' :: rest)) =
          some (fs, rest) := by
        cases fs with
        | nil =>
          have h0 := parseArgumentsRest_rt [] fu rest rfl hffs
          simpa [argumentsInner, argumentsTailOut] using h0
        | cons q qs =>
          obtain ⟨n2, v2⟩ := q
          have hd2 : (argumentsTailOut ((n2, v2) :: qs)).data ++ (')' :: rest) =
              [',', ' '] ++ (argumentsInner ((n2, v2) :: qs) ++ (')' :: rest)) := by
            simp [argumentsTailOut, argumentsInner, String.data_append]
          rw [hd2, parseArgumentsRest_ws fu [',', ' '] _ (by decide)]
          exact parseArgumentsRest_rt ((n2, v2) :: qs) fu rest hwfs hffs
      simp [hbr, ht, hsk, expectChar, hv, htail]

/-- Reading back a printed optional argument list. -/
theorem parseOptArguments_rt (args : List (String × Value)) (fuel : Nat) (rest : List Char)
    (hwf : wfArguments args = true)
    (hfuel : 1 + argumentsRestFuel args ≤ fuel)
    (hb : ∀ c, rest.head? = some c → ¬(c = '(')) :
    parseOptArguments fuel ((argumentsOut args).data ++ rest) = some (args, rest) := by
  obtain ⟨fu, rfl⟩ : ∃ k, fuel = k + 1 := ⟨fuel - 1, by omega⟩
  cases args with
  | nil =>
    rw [show (argumentsOut []).data ++ rest = rest from by simp [argumentsOut]]
    simp only [parseOptArguments]
    cases rest with
    | nil => rfl
    | cons c r =>
      have := hb c rfl
      simp [this]
  | cons p tl =>
    obtain ⟨n, v⟩ := p
    have hdata : (argumentsOut ((n, v) :: tl)).data ++ rest =
        '(' :: (argumentsInner ((n, v) :: tl) ++ (')' :: rest)) := by
      simp [argumentsOut, argumentsInner, String.data_append]
    rw [hdata]
    have hrec : parseArgumentsRest fu (argumentsInner ((n, v) :: tl) ++ (')' :: rest)) =
        some ((n, v) :: tl, rest) :=
      parseArgumentsRest_rt ((n, v) :: tl) fu rest hwf (by omega)
    simp [parseOptArguments, hrec]

/-- Reading back printed directives. -/
theorem parseDirectives_rt : ∀ (dirs : List Directive) (fuel : Nat) (rest : List Char),
    wfDirectives dirs = true →
    directivesFuel dirs ≤ fuel →
    (∀ c, rest.head? = some c → isWsChar c = true) →
    (∀ c, (skipWs rest).head? = some c → ¬(c = '@')) →
    parseDirectives fuel ((directivesOut dirs).data ++ rest) = some (dirs, rest)
  | [], fuel, rest => by
    intro hwf hfuel hws hnb
    simp only [directivesFuel] at hfuel
    obtain ⟨fu, rfl⟩ : ∃ k, fuel = k + 1 := ⟨fuel - 1, by omega⟩
    rw [show (directivesOut []).data ++ rest = rest from by simp [directivesOut]]
    simp only [parseDirectives]
    cases hsk : skipWs rest with
    | nil => rfl
    | cons c r =>
      have := hnb c (by rw [hsk]; rfl)
      simp [this]
  | d :: tl, fuel, rest => by
    intro hwf hfuel hws hnb
    obtain ⟨dn, dargs⟩ := d
    simp only [wfDirectives, wfDirective, Bool.and_eq_true] at hwf
    obtain ⟨⟨hgn, hargs⟩, htl⟩ := hwf
    simp only [directivesFuel] at hfuel
    obtain ⟨fu, rfl⟩ : ∃ k, fuel = k + 1 := ⟨fuel - 1, by omega⟩
    have hdata : (directivesOut (Directive.mk dn dargs :: tl)).data ++ rest =
        ' ' :: '@' :: (dn.data ++ ((argumentsOut dargs).data ++
          ((directivesOut tl).data ++ rest))) := by
      simp [directivesOut, directiveOut, String.data_append]
    rw [hdata]
    simp only [parseDirectives]
    rw [skipWs_cons_ws ' ' _ (by decide), skipWs_cons_not '@' _ (by decide)]
    have hwsT : ∀ c, ((directivesOut tl).data ++ rest).head? = some c → isWsChar c = true :=
      dirsThen_ws_head tl rest hws
    have ht : takeName (dn.data ++ ((argumentsOut dargs).data ++
        ((directivesOut tl).data ++ rest))) =
        some (dn, (argumentsOut dargs).data ++ ((directivesOut tl).data ++ rest)) :=
      takeName_exact dn _ hgn (argsThen_boundary dargs _ (dirsThen_boundary tl rest hws))
    have hopt : parseOptArguments fu ((argumentsOut dargs).data ++
        ((directivesOut tl).data ++ rest)) =
        some (dargs, (directivesOut tl).data ++ rest) :=
      parseOptArguments_rt dargs fu _ hargs (by omega)
        (fun c hc => isWsChar_ne_of c '(' (hwsT c hc) (by decide))
    have hrec : parseDirectives fu ((directivesOut tl).data ++ rest) = some (tl, rest) :=
      parseDirectives_rt tl fu rest htl (by omega) hws hnb
    simp [ht, hopt, hrec]


/-- A printed selection is its indentation, core and newline. -/
theorem selOut_data (w ind : Nat) (s : Selection) :
    (selOut w ind s).data = (spacesStr ind).data ++ ((selCore w ind s).data ++ ['\n']) := by
  rcases s with fld | frag | sp
  · obtain ⟨alias_, name, args, dirs, ss⟩ := fld
    obtain ⟨items⟩ := ss
    cases items with
    | nil => simp [selOut, fieldOut, selCore, String.data_append]
    | cons a b => simp [selOut, fieldOut, selCore, String.data_append]
  · obtain ⟨tc, dirs, ss⟩ := frag
    obtain ⟨items⟩ := ss
    simp [selOut, inlineFragOut, selCore, String.data_append]
  · simp [selOut, selCore, String.data_append]

/-- The head character of a printed selection core. -/
theorem selCore_head (w ind : Nat) (s : Selection) (h : wfSelection s = true) :
    ∃ c cs, (selCore w ind s).data = c :: cs ∧ isWsChar c = false ∧
      ¬(c = '\x7d') ∧ ¬(c = '@') ∧ ¬(c = '\x7b') ∧ ¬(c = ':') := by
  rcases s with fld | frag | sp
  · obtain ⟨alias_, name, args, dirs, ss⟩ := fld
    obtain ⟨items⟩ := ss
    simp only [wfSelection, wfField, Bool.and_eq_true] at h
    obtain ⟨⟨⟨⟨hal, hnm⟩, hargs⟩, hdirs⟩, hitems⟩ := h
    cases alias_ with
    | some a =>
      obtain ⟨hne, hall⟩ := goodName_data a hal
      cases hla : a.data with
      | nil => exact absurd hla hne
      | cons c cs =>
        have hc : isNameChar c = true := hall c (by rw [hla]; simp)
        refine ⟨c, cs ++ (": " ++ name ++ argumentsOut args ++ directivesOut dirs ++
          (match items with
           | [] => ""
           | _ :: _ => " " ++ "\x7b" ++ "\n" ++ itemsOut w (ind + w) items ++
               spacesStr ind ++ "\x7d")).data, ?_, isNameChar_not_isWs c hc,
          isNameChar_ne_of c '\x7d' hc (by decide), isNameChar_ne_of c '@' hc (by decide),
          isNameChar_ne_of c '\x7b' hc (by decide), isNameChar_ne_of c ':' hc (by decide)⟩
        cases items with
        | nil => simp [selCore, aliasOut, hla, String.data_append]
        | cons x xs => simp [selCore, aliasOut, hla, String.data_append]
    | none =>
      obtain ⟨hne, hall⟩ := goodName_data name hnm
      cases hla : name.data with
      | nil => exact absurd hla hne
      | cons c cs =>
        have hc : isNameChar c = true := hall c (by rw [hla]; simp)
        refine ⟨c, cs ++ (argumentsOut args ++ directivesOut dirs ++
          (match items with
           | [] => ""
           | _ :: _ => " " ++ "\x7b" ++ "\n" ++ itemsOut w (ind + w) items ++
               spacesStr ind ++ "\x7d")).data, ?_, isNameChar_not_isWs c hc,
          isNameChar_ne_of c '\x7d' hc (by decide), isNameChar_ne_of c '@' hc (by decide),
          isNameChar_ne_of c '\x7b' hc (by decide), isNameChar_ne_of c ':' hc (by decide)⟩
        cases items with
        | nil => simp [selCore, aliasOut, hla, String.data_append]
        | cons x xs => simp [selCore, aliasOut, hla, String.data_append]
  · obtain ⟨tc, dirs, ss⟩ := frag
    obtain ⟨items⟩ := ss
    refine ⟨'.', '.' :: '.' :: (typeCondOut tc ++ directivesOut dirs ++ " " ++ "\x7b" ++
      "\n" ++ itemsOut w (ind + w) items ++ spacesStr ind ++ "\x7d").data, ?_,
      by decide, by decide, by decide, by decide, by decide⟩
    simp [selCore, String.data_append]
  · refine ⟨'.', '.' :: '.' :: (sp.fragment_name ++ directivesOut sp.directives).data, ?_,
      by decide, by decide, by decide, by decide, by decide⟩
    simp [selCore, String.data_append]

/-- After a selection list and closing indentation the first significant
character is a brace or a selection head. -/
theorem items_boundary (w ind ind2 : Nat) (items : List Selection) (rest : List Char)
    (hwf : wfSelectionList items = true) :
    ∀ c, (skipWs ((itemsOut w ind items).data ++
        ((spacesStr ind2).data ++ ('\x7d' :: rest)))).head? = some c →
      ¬(c = '@') ∧ ¬(c = '\x7b') ∧ ¬(c = ':') := by
  cases items with
  | nil =>
    intro c hc
    rw [show (itemsOut w ind ([] : List Selection)).data = [] from rfl, List.nil_append,
      skipWs_spaces, skipWs_cons_not _ _ (by decide), List.head?_cons,
      Option.some_inj] at hc
    rw [← hc]
    refine ⟨by decide, by decide, by decide⟩
  | cons s tl =>
    intro c hc
    simp only [wfSelectionList, Bool.and_eq_true] at hwf
    obtain ⟨hws1, -⟩ := hwf
    obtain ⟨c0, cs0, hcd, hnws, -, h1, h2, h3⟩ := selCore_head w ind s hws1
    rw [show (itemsOut w ind (s :: tl)).data ++ ((spacesStr ind2).data ++ ('\x7d' :: rest)) =
        (spacesStr ind).data ++ (c0 :: (cs0 ++ (['\n'] ++ ((itemsOut w ind tl).data ++
          ((spacesStr ind2).data ++ ('\x7d' :: rest)))))) from by
      simp only [itemsOut]
      rw [String.data_append, selOut_data]
      simp [hcd]] at hc
    rw [skipWs_spaces, skipWs_cons_not _ _ hnws, List.head?_cons, Option.some_inj] at hc
    rw [← hc]
    exact ⟨h1, h2, h3⟩

/-- The colon test after a field name fails past a printed argument
list. -/
theorem noColon_args (args : List (String × Value)) (l : List Char)
    (h : ∀ c, (skipWs l).head? = some c → ¬(c = ':')) :
    ∀ c, (skipWs ((argumentsOut args).data ++ l)).head? = some c → ¬(c = ':') := by
  cases args with
  | nil =>
    intro c hc
    rw [show (argumentsOut []).data ++ l = l from by simp [argumentsOut]] at hc
    exact h c hc
  | cons q qs =>
    obtain ⟨qn, qv⟩ := q
    intro c hc
    rw [show (argumentsOut ((qn, qv) :: qs)).data ++ l =
        '(' :: ((argumentsInner ((qn, qv) :: qs)) ++ (')' :: l)) from by
      simp [argumentsOut, argumentsInner, String.data_append]] at hc
    rw [skipWs_cons_not _ _ (by decide), List.head?_cons, Option.some_inj] at hc
    rw [← hc]
    decide

/-- The colon test after a field name fails past printed directives. -/
theorem noColon_dirs (dirs : List Directive) (l : List Char)
    (h : ∀ c, (skipWs l).head? = some c → ¬(c = ':')) :
    ∀ c, (skipWs ((directivesOut dirs).data ++ l)).head? = some c → ¬(c = ':') := by
  cases dirs with
  | nil =>
    intro c hc
    rw [show (directivesOut []).data ++ l = l from by simp [directivesOut]] at hc
    exact h c hc
  | cons d tl =>
    obtain ⟨dn, dargs⟩ := d
    intro c hc
    rw [show (directivesOut (Directive.mk dn dargs :: tl)).data ++ l =
        ' ' :: '@' :: (dn.data ++ ((argumentsOut dargs).data ++
          ((directivesOut tl).data ++ l))) from by
      simp [directivesOut, directiveOut, String.data_append]] at hc
    rw [skipWs_cons_ws ' ' _ (by decide), skipWs_cons_not '@' _ (by decide),
      List.head?_cons, Option.some_inj] at hc
    rw [← hc]
    decide


/-- The head of a well-formed name. -/
theorem goodName_head (n : String) (h : goodNameB n = true) :
    ∃ c cs, n.data = c :: cs ∧ isNameStart c = true ∧ isNameChar c = true := by
  obtain ⟨hne, hall⟩ := goodName_data n h
  cases hl : n.data with
  | nil => exact absurd hl hne
  | cons c cs =>
    have hstart : isNameStart c = true := by
      have h2 := h
      simp only [goodNameB, hl, Bool.and_eq_true] at h2
      exact h2.1
    exact ⟨c, cs, rfl, hstart, isNameStart_isNameChar c hstart⟩

/-- An ignored head makes an ignored head. -/
theorem head_ws (c : Char) (l : List Char) (h : isWsChar c = true) :
    ∀ x, (c :: l).head? = some x → isWsChar x = true := by
  intro x hx
  rw [List.head?_cons, Option.some_inj] at hx
  rw [← hx]
  exact h

/-- Dropping ignored characters before a directive list does not change
the parse when a directive follows. -/
theorem parseDirectives_head_at (fu : Nat) (l r : List Char) (h : skipWs l = '@' :: r) :
    parseDirectives (fu + 1) ('@' :: r) = parseDirectives (fu + 1) l := by
  have h2 : skipWs ('@' :: r) = '@' :: r := skipWs_cons_not '@' r (by decide)
  simp only [parseDirectives, h, h2]
  simp

mutual

/-- Reading back one printed selection, with the trailing newline left
in place. -/
theorem parseSelection_rt : ∀ (s : Selection) (w ind fuel : Nat) (rest : List Char),
    wfSelection s = true →
    selFuel s ≤ fuel →
    (∀ c, (skipWs rest).head? = some c → ¬(c = '@') ∧ ¬(c = '\x7b') ∧ ¬(c = ':')) →
    parseSelection fuel ((selCore w ind s).data ++ ('\n' :: rest)) = some (s, '\n' :: rest)
  | .fragmentSpread sp, w, ind, fuel, rest => by
    intro hwf hfuel hb
    obtain ⟨sn, sdirs⟩ := sp
    simp only [wfSelection, Bool.and_eq_true] at hwf
    obtain ⟨⟨hgn, hon⟩, hdirs⟩ := hwf
    have hon2 : ¬(sn = "on") := by simpa using hon
    simp only [selFuel] at hfuel
    obtain ⟨fu, rfl⟩ : ∃ k, fuel = k + 1 := ⟨fuel - 1, by omega⟩
    obtain ⟨c, cs, hla, hstart, hc⟩ := goodName_head sn hgn
    have hdata : (selCore w ind (Selection.fragmentSpread ⟨sn, sdirs⟩)).data ++
        ('\n' :: rest) =
        '.' :: '.' :: '.' :: (c :: (cs ++ ((directivesOut sdirs).data ++ ('\n' :: rest)))) := by
      simp [selCore, hla, String.data_append]
    rw [hdata]
    simp only [parseSelection]
    rw [skipWs_cons_not '.' _ (by decide)]
    have hsk : skipWs (c :: (cs ++ ((directivesOut sdirs).data ++ ('\n' :: rest)))) =
        c :: (cs ++ ((directivesOut sdirs).data ++ ('\n' :: rest))) :=
      skipWs_cons_not _ _ (isNameChar_not_isWs c hc)
    have hno1 : ¬(c = '@') := isNameChar_ne_of c '@' hc (by decide)
    have hno2 : ¬(c = '\x7b') := isNameChar_ne_of c '\x7b' hc (by decide)
    have ht : takeName (c :: (cs ++ ((directivesOut sdirs).data ++ ('\n' :: rest)))) =
        some (sn, (directivesOut sdirs).data ++ ('\n' :: rest)) := by
      rw [show c :: (cs ++ ((directivesOut sdirs).data ++ ('\n' :: rest))) =
          sn.data ++ ((directivesOut sdirs).data ++ ('\n' :: rest)) from by
        rw [hla]
        rfl]
      exact takeName_exact sn _ hgn
        (dirsThen_boundary sdirs _ (head_ws '\n' rest (by decide)))
    have hdr : parseDirectives fu ((directivesOut sdirs).data ++ ('\n' :: rest)) =
        some (sdirs, '\n' :: rest) :=
      parseDirectives_rt sdirs fu _ hdirs (by omega) (head_ws '\n' rest (by decide))
        (fun x hx => by
          rw [skipWs_cons_ws '\n' rest (by decide)] at hx
          exact (hb x hx).1)
    simp [expectChar, hsk, hno1, hno2, ht, hon2, hdr]
  | .inlineFragment frag, w, ind, fuel, rest => by
    intro hwf hfuel hb
    obtain ⟨tc, dirs, ss⟩ := frag
    obtain ⟨items⟩ := ss
    simp only [wfSelection, wfInlineFragment, Bool.and_eq_true] at hwf
    obtain ⟨⟨htc, hdirs⟩, hitems⟩ := hwf
    simp only [selFuel] at hfuel
    obtain ⟨fu, rfl⟩ : ∃ k, fuel = k + 1 := ⟨fuel - 1, by omega⟩
    obtain ⟨fb, rfl⟩ : ∃ k, fu = k + 1 := ⟨fu - 1, by omega⟩
    have hfi : selItemsFuel items ≤ fb := by omega
    have hitemsP : ∀ fz : Nat, selItemsFuel items ≤ fz →
        parseSelectionItems fz ('\n' :: ((itemsOut w (ind + w) items).data ++
          ((spacesStr ind).data ++ ('\x7d' :: ('\n' :: rest))))) =
          some (items, '\n' :: rest) := fun fz hfz => by
      rw [show ('\n' :: ((itemsOut w (ind + w) items).data ++
          ((spacesStr ind).data ++ ('\x7d' :: ('\n' :: rest))))) =
          ['\n'] ++ ((itemsOut w (ind + w) items).data ++
            ((spacesStr ind).data ++ ('\x7d' :: ('\n' :: rest)))) from rfl,
        parseSelectionItems_ws fz ['\n'] _ (by decide)]
      exact parseSelectionItems_rt items w (ind + w) ind fz ('\n' :: rest) hitems hfz
    have hblk : parseBlock (fb + 1) (' ' :: '\x7b' ::
        ('\n' :: ((itemsOut w (ind + w) items).data ++
          ((spacesStr ind).data ++ ('\x7d' :: ('\n' :: rest)))))) =
        some (items, '\n' :: rest) := by
      simp only [parseBlock]
      rw [skipWs_cons_ws ' ' _ (by decide), skipWs_cons_not '\x7b' _ (by decide)]
      simp [hitemsP fb hfi]
    have hdr : parseDirectives (fb + 1) ((directivesOut dirs).data ++
        (' ' :: '\x7b' :: ('\n' :: ((itemsOut w (ind + w) items).data ++
          ((spacesStr ind).data ++ ('\x7d' :: ('\n' :: rest))))))) =
        some (dirs, ' ' :: '\x7b' :: ('\n' :: ((itemsOut w (ind + w) items).data ++
          ((spacesStr ind).data ++ ('\x7d' :: ('\n' :: rest)))))) :=
      parseDirectives_rt dirs (fb + 1) _ hdirs (by omega) (head_ws ' ' _ (by decide))
        (fun x hx => by
          rw [skipWs_cons_ws ' ' _ (by decide), skipWs_cons_not '\x7b' _ (by decide)] at hx
          rw [List.head?_cons, Option.some_inj] at hx
          rw [← hx]
          decide)
    cases tc with
    | some cond =>
      obtain ⟨c3, cs3, hla3, hstart3, hc3⟩ := goodName_head cond htc
      have hdata : (selCore w ind (Selection.inlineFragment
          (InlineFragment.mk (some cond) dirs (SelectionSet.mk items)))).data ++
          ('\n' :: rest) =
          '.' :: '.' :: '.' :: (' ' :: 'o' :: 'n' :: ' ' :: (cond.data ++
            ((directivesOut dirs).data ++ (' ' :: '\x7b' ::
              ('\n' :: ((itemsOut w (ind + w) items).data ++
                ((spacesStr ind).data ++ ('\x7d' :: ('\n' :: rest))))))))) := by
        simp [selCore, typeCondOut, String.data_append]
      rw [hdata]
      simp only [parseSelection]
      rw [skipWs_cons_not '.' _ (by decide)]
      have hsk3 : skipWs (' ' :: 'o' :: 'n' :: ' ' :: (cond.data ++
          ((directivesOut dirs).data ++ (' ' :: '\x7b' ::
            ('\n' :: ((itemsOut w (ind + w) items).data ++
              ((spacesStr ind).data ++ ('\x7d' :: ('\n' :: rest))))))))) =
          'o' :: 'n' :: ' ' :: (cond.data ++
            ((directivesOut dirs).data ++ (' ' :: '\x7b' ::
              ('\n' :: ((itemsOut w (ind + w) items).data ++
                ((spacesStr ind).data ++ ('\x7d' :: ('\n' :: rest)))))))) := by
        rw [skipWs_cons_ws ' ' _ (by decide), skipWs_cons_not 'o' _ (by decide)]
      have hton : takeName ('o' :: 'n' :: ' ' :: (cond.data ++
          ((directivesOut dirs).data ++ (' ' :: '\x7b' ::
            ('\n' :: ((itemsOut w (ind + w) items).data ++
              ((spacesStr ind).data ++ ('\x7d' :: ('\n' :: rest))))))))) =
          some ("on", ' ' :: (cond.data ++
            ((directivesOut dirs).data ++ (' ' :: '\x7b' ::
              ('\n' :: ((itemsOut w (ind + w) items).data ++
                ((spacesStr ind).data ++ ('\x7d' :: ('\n' :: rest))))))))) := by
        rw [show ('o' :: 'n' :: ' ' :: (cond.data ++
            ((directivesOut dirs).data ++ (' ' :: '\x7b' ::
              ('\n' :: ((itemsOut w (ind + w) items).data ++
                ((spacesStr ind).data ++ ('\x7d' :: ('\n' :: rest))))))))) =
            ("on").data ++ (' ' :: (cond.data ++
              ((directivesOut dirs).data ++ (' ' :: '\x7b' ::
                ('\n' :: ((itemsOut w (ind + w) items).data ++
                  ((spacesStr ind).data ++ ('\x7d' :: ('\n' :: rest))))))))) from rfl]
        exact takeName_exact "on" _ (by decide) (head_boundary ' ' _ (by decide))
      have hsk4 : skipWs (' ' :: (cond.data ++
          ((directivesOut dirs).data ++ (' ' :: '\x7b' ::
            ('\n' :: ((itemsOut w (ind + w) items).data ++
              ((spacesStr ind).data ++ ('\x7d' :: ('\n' :: rest))))))))) =
          cond.data ++ ((directivesOut dirs).data ++ (' ' :: '\x7b' ::
            ('\n' :: ((itemsOut w (ind + w) items).data ++
              ((spacesStr ind).data ++ ('\x7d' :: ('\n' :: rest))))))) := by
        rw [skipWs_cons_ws ' ' _ (by decide), hla3, List.cons_append,
          skipWs_cons_not _ _ (isNameChar_not_isWs c3 hc3), ← List.cons_append, ← hla3]
      have ht5 : takeName (cond.data ++ ((directivesOut dirs).data ++ (' ' :: '\x7b' ::
          ('\n' :: ((itemsOut w (ind + w) items).data ++
            ((spacesStr ind).data ++ ('\x7d' :: ('\n' :: rest)))))))) =
          some (cond, (directivesOut dirs).data ++ (' ' :: '\x7b' ::
            ('\n' :: ((itemsOut w (ind + w) items).data ++
              ((spacesStr ind).data ++ ('\x7d' :: ('\n' :: rest))))))) :=
        takeName_exact cond _ htc (dirsThen_boundary dirs _ (head_ws ' ' _ (by decide)))
      simp [expectChar, hsk3, hton, hsk4, ht5, hdr, hblk]
    | none =>
      cases dirs with
      | nil =>
        have hdata : (selCore w ind (Selection.inlineFragment
            (InlineFragment.mk none [] (SelectionSet.mk items)))).data ++
            ('\n' :: rest) =
            '.' :: '.' :: '.' :: (' ' :: '\x7b' ::
              ('\n' :: ((itemsOut w (ind + w) items).data ++
                ((spacesStr ind).data ++ ('\x7d' :: ('\n' :: rest)))))) := by
          simp [selCore, typeCondOut, directivesOut, String.data_append]
        rw [hdata]
        simp only [parseSelection]
        rw [skipWs_cons_not '.' _ (by decide)]
        have hsk3 : skipWs (' ' :: '\x7b' ::
            ('\n' :: ((itemsOut w (ind + w) items).data ++
              ((spacesStr ind).data ++ ('\x7d' :: ('\n' :: rest)))))) =
            '\x7b' :: ('\n' :: ((itemsOut w (ind + w) items).data ++
              ((spacesStr ind).data ++ ('\x7d' :: ('\n' :: rest))))) := by
          rw [skipWs_cons_ws ' ' _ (by decide), skipWs_cons_not '\x7b' _ (by decide)]
        simp [expectChar, hsk3, hitemsP (fb + 1) (by omega)]
      | cons d tl =>
        obtain ⟨dn, dargs⟩ := d
        have hdata : (selCore w ind (Selection.inlineFragment
            (InlineFragment.mk none (Directive.mk dn dargs :: tl)
              (SelectionSet.mk items)))).data ++ ('\n' :: rest) =
            '.' :: '.' :: '.' :: (' ' :: '@' :: (dn.data ++
              ((argumentsOut dargs).data ++ ((directivesOut tl).data ++
                (' ' :: '\x7b' :: ('\n' :: ((itemsOut w (ind + w) items).data ++
                  ((spacesStr ind).data ++ ('\x7d' :: ('\n' :: rest)))))))))) := by
          simp [selCore, typeCondOut, directivesOut, directiveOut, String.data_append]
        rw [hdata]
        simp only [parseSelection]
        rw [skipWs_cons_not '.' _ (by decide)]
        have hsk3 : skipWs (' ' :: '@' :: (dn.data ++
            ((argumentsOut dargs).data ++ ((directivesOut tl).data ++
              (' ' :: '\x7b' :: ('\n' :: ((itemsOut w (ind + w) items).data ++
                ((spacesStr ind).data ++ ('\x7d' :: ('\n' :: rest)))))))))) =
            '@' :: (dn.data ++
              ((argumentsOut dargs).data ++ ((directivesOut tl).data ++
                (' ' :: '\x7b' :: ('\n' :: ((itemsOut w (ind + w) items).data ++
                  ((spacesStr ind).data ++ ('\x7d' :: ('\n' :: rest))))))))) := by
          rw [skipWs_cons_ws ' ' _ (by decide), skipWs_cons_not '@' _ (by decide)]
        have hdr2 : parseDirectives (fb + 1) ('@' :: (dn.data ++
            ((argumentsOut dargs).data ++ ((directivesOut tl).data ++
              (' ' :: '\x7b' :: ('\n' :: ((itemsOut w (ind + w) items).data ++
                ((spacesStr ind).data ++ ('\x7d' :: ('\n' :: rest)))))))))) =
            some (Directive.mk dn dargs :: tl,
              ' ' :: '\x7b' :: ('\n' :: ((itemsOut w (ind + w) items).data ++
                ((spacesStr ind).data ++ ('\x7d' :: ('\n' :: rest)))))) := by
          rw [parseDirectives_head_at fb (' ' :: '@' :: (dn.data ++
            ((argumentsOut dargs).data ++ ((directivesOut tl).data ++
              (' ' :: '\x7b' :: ('\n' :: ((itemsOut w (ind + w) items).data ++
                ((spacesStr ind).data ++ ('\x7d' :: ('\n' :: rest)))))))))) _ hsk3]
          rw [show (' ' :: '@' :: (dn.data ++
              ((argumentsOut dargs).data ++ ((directivesOut tl).data ++
                (' ' :: '\x7b' :: ('\n' :: ((itemsOut w (ind + w) items).data ++
                  ((spacesStr ind).data ++ ('\x7d' :: ('\n' :: rest)))))))))) =
              (directivesOut (Directive.mk dn dargs :: tl)).data ++
                (' ' :: '\x7b' :: ('\n' :: ((itemsOut w (ind + w) items).data ++
                  ((spacesStr ind).data ++ ('\x7d' :: ('\n' :: rest)))))) from by
              simp [directivesOut, directiveOut, String.data_append]]
          exact hdr
        simp [expectChar, hsk3, hdr2, hblk]
  | .field fld, w, ind, fuel, rest => by
    intro hwf hfuel hb
    obtain ⟨alias_, name, args, dirs, ss⟩ := fld
    obtain ⟨items⟩ := ss
    simp only [wfSelection, wfField, Bool.and_eq_true] at hwf
    obtain ⟨⟨⟨⟨hal, hnm⟩, hargs⟩, hdirs⟩, hitems⟩ := hwf
    simp only [selFuel] at hfuel
    obtain ⟨fu, rfl⟩ : ∃ k, fuel = k + 1 := ⟨fuel - 1, by omega⟩
    obtain ⟨cn, csn, hlan, hstartn, hcn⟩ := goodName_head name hnm
    cases items with
    | nil =>
      have hwsC : ∀ c, ('\n' :: rest).head? = some c → isWsChar c = true :=
        head_ws '\n' rest (by decide)
      have hnameB : ∀ c, ((argumentsOut args).data ++
          ((directivesOut dirs).data ++ ('\n' :: rest))).head? = some c →
          isNameChar c = false :=
        argsThen_boundary args _ (dirsThen_boundary dirs _ hwsC)
      have hnc : ∀ c, (skipWs ((argumentsOut args).data ++
          ((directivesOut dirs).data ++ ('\n' :: rest)))).head? = some c → ¬(c = ':') :=
        noColon_args args _ (noColon_dirs dirs _ (fun c hc => by
          rw [skipWs_cons_ws '\n' rest (by decide)] at hc
          exact (hb c hc).2.2))
      have hopt : parseOptArguments fu ((argumentsOut args).data ++
          ((directivesOut dirs).data ++ ('\n' :: rest))) =
          some (args, (directivesOut dirs).data ++ ('\n' :: rest)) :=
        parseOptArguments_rt args fu _ hargs (by omega) (fun c hc =>
          isWsChar_ne_of c '(' (dirsThen_ws_head dirs _ hwsC c hc) (by decide))
      have hdr : parseDirectives fu ((directivesOut dirs).data ++ ('\n' :: rest)) =
          some (dirs, '\n' :: rest) :=
        parseDirectives_rt dirs fu _ hdirs (by omega) hwsC (fun c hc => by
          rw [skipWs_cons_ws '\n' rest (by decide)] at hc
          exact (hb c hc).1)
      have hskNl : skipWs ('\n' :: rest) = skipWs rest := skipWs_cons_ws '\n' rest (by decide)
      cases alias_ with
      | none =>
        have hdata : (selCore w ind (Selection.field (Field.mk none name args dirs
            (SelectionSet.mk [])))).data ++ ('\n' :: rest) =
            cn :: (csn ++ ((argumentsOut args).data ++
              ((directivesOut dirs).data ++ ('\n' :: rest)))) := by
          simp [selCore, aliasOut, hlan, String.data_append]
        rw [hdata]
        simp only [parseSelection]
        rw [skipWs_cons_not _ _ (isNameChar_not_isWs cn hcn)]
        have hnd : ¬(cn = '.') := isNameChar_ne_of cn '.' hcn (by decide)
        have ht : takeName (cn :: (csn ++ ((argumentsOut args).data ++
            ((directivesOut dirs).data ++ ('\n' :: rest))))) =
            some (name, (argumentsOut args).data ++
              ((directivesOut dirs).data ++ ('\n' :: rest))) := by
          rw [show cn :: (csn ++ ((argumentsOut args).data ++
              ((directivesOut dirs).data ++ ('\n' :: rest)))) =
              name.data ++ ((argumentsOut args).data ++
                ((directivesOut dirs).data ++ ('\n' :: rest))) from by
            rw [hlan]
            rfl]
          exact takeName_exact name _ hnm hnameB
        cases hskA : skipWs ((argumentsOut args).data ++
            ((directivesOut dirs).data ++ ('\n' :: rest))) with
        | nil =>
          cases hskC : skipWs rest with
          | nil => simp [hnd, ht, hskA, hopt, hdr, hskNl, hskC]
          | cons c3 r3 =>
            have h3 := (hb c3 (by rw [hskC]; rfl)).2.1
            simp [hnd, ht, hskA, hopt, hdr, hskNl, hskC, h3]
        | cons c2 r2 =>
          have h2 : ¬(c2 = ':') := hnc c2 (by rw [hskA]; rfl)
          cases hskC : skipWs rest with
          | nil => simp [hnd, ht, hskA, h2, hopt, hdr, hskNl, hskC]
          | cons c3 r3 =>
            have h3 := (hb c3 (by rw [hskC]; rfl)).2.1
            simp [hnd, ht, hskA, h2, hopt, hdr, hskNl, hskC, h3]
      | some a =>
        have hal2 : goodNameB a = true := hal
        obtain ⟨ca, csa, hlaa, hstarta, hca⟩ := goodName_head a hal2
        have hdata : (selCore w ind (Selection.field (Field.mk (some a) name args dirs
            (SelectionSet.mk [])))).data ++ ('\n' :: rest) =
            ca :: (csa ++ (':' :: ' ' :: (name.data ++ ((argumentsOut args).data ++
              ((directivesOut dirs).data ++ ('\n' :: rest)))))) := by
          simp [selCore, aliasOut, hlaa, String.data_append]
        rw [hdata]
        simp only [parseSelection]
        rw [skipWs_cons_not _ _ (isNameChar_not_isWs ca hca)]
        have hnd : ¬(ca = '.') := isNameChar_ne_of ca '.' hca (by decide)
        have ht : takeName (ca :: (csa ++ (':' :: ' ' :: (name.data ++
            ((argumentsOut args).data ++ ((directivesOut dirs).data ++
              ('\n' :: rest))))))) =
            some (a, ':' :: ' ' :: (name.data ++ ((argumentsOut args).data ++
              ((directivesOut dirs).data ++ ('\n' :: rest))))) := by
          rw [show ca :: (csa ++ (':' :: ' ' :: (name.data ++ ((argumentsOut args).data ++
              ((directivesOut dirs).data ++ ('\n' :: rest)))))) =
              a.data ++ (':' :: ' ' :: (name.data ++ ((argumentsOut args).data ++
                ((directivesOut dirs).data ++ ('\n' :: rest))))) from by
            rw [hlaa]
            rfl]
          exact takeName_exact a _ hal2 (head_boundary ':' _ (by decide))
        have ht2 : takeName (skipWs (' ' :: (name.data ++ ((argumentsOut args).data ++
            ((directivesOut dirs).data ++ ('\n' :: rest)))))) =
            some (name, (argumentsOut args).data ++
              ((directivesOut dirs).data ++ ('\n' :: rest))) := by
          rw [skipWs_cons_ws ' ' _ (by decide), hlan, List.cons_append,
            skipWs_cons_not _ _ (isNameChar_not_isWs cn hcn), ← List.cons_append, ← hlan]
          exact takeName_exact name _ hnm hnameB
        have hskColon : skipWs (':' :: ' ' :: (name.data ++ ((argumentsOut args).data ++
            ((directivesOut dirs).data ++ ('\n' :: rest))))) =
            ':' :: ' ' :: (name.data ++ ((argumentsOut args).data ++
              ((directivesOut dirs).data ++ ('\n' :: rest)))) :=
          skipWs_cons_not ':' _ (by decide)
        cases hskC : skipWs rest with
        | nil => simp [hnd, ht, ht2, hopt, hdr, hskColon, hskNl, hskC]
        | cons c3 r3 =>
          have h3 := (hb c3 (by rw [hskC]; rfl)).2.1
          simp [hnd, ht, ht2, hopt, hdr, hskColon, hskNl, hskC, h3]
    | cons x xs =>
      have hwsC : ∀ c, (' ' :: '\x7b' :: ('\n' :: ((itemsOut w (ind + w) (x :: xs)).data ++
          ((spacesStr ind).data ++ ('\x7d' :: ('\n' :: rest)))))).head? = some c →
          isWsChar c = true :=
        head_ws ' ' _ (by decide)
      have hnameB : ∀ c, ((argumentsOut args).data ++ ((directivesOut dirs).data ++
          (' ' :: '\x7b' :: ('\n' :: ((itemsOut w (ind + w) (x :: xs)).data ++
            ((spacesStr ind).data ++ ('\x7d' :: ('\n' :: rest)))))))).head? = some c →
          isNameChar c = false :=
        argsThen_boundary args _ (dirsThen_boundary dirs _ hwsC)
      have hnc : ∀ c, (skipWs ((argumentsOut args).data ++ ((directivesOut dirs).data ++
          (' ' :: '\x7b' :: ('\n' :: ((itemsOut w (ind + w) (x :: xs)).data ++
            ((spacesStr ind).data ++ ('\x7d' :: ('\n' :: rest))))))))).head? = some c →
          ¬(c = ':') :=
        noColon_args args _ (noColon_dirs dirs _ (fun c hc => by
          rw [skipWs_cons_ws ' ' _ (by decide), skipWs_cons_not '\x7b' _ (by decide)] at hc
          rw [List.head?_cons, Option.some_inj] at hc
          rw [← hc]
          decide))
      have hopt : parseOptArguments fu ((argumentsOut args).data ++
          ((directivesOut dirs).data ++ (' ' :: '\x7b' ::
            ('\n' :: ((itemsOut w (ind + w) (x :: xs)).data ++
              ((spacesStr ind).data ++ ('\x7d' :: ('\n' :: rest)))))))) =
          some (args, (directivesOut dirs).data ++ (' ' :: '\x7b' ::
            ('\n' :: ((itemsOut w (ind + w) (x :: xs)).data ++
              ((spacesStr ind).data ++ ('\x7d' :: ('\n' :: rest))))))) :=
        parseOptArguments_rt args fu _ hargs (by omega) (fun c hc =>
          isWsChar_ne_of c '(' (dirsThen_ws_head dirs _ hwsC c hc) (by decide))
      have hdr : parseDirectives fu ((directivesOut dirs).data ++ (' ' :: '\x7b' ::
          ('\n' :: ((itemsOut w (ind + w) (x :: xs)).data ++
            ((spacesStr ind).data ++ ('\x7d' :: ('\n' :: rest))))))) =
          some (dirs, ' ' :: '\x7b' :: ('\n' :: ((itemsOut w (ind + w) (x :: xs)).data ++
            ((spacesStr ind).data ++ ('\x7d' :: ('\n' :: rest)))))) :=
        parseDirectives_rt dirs fu _ hdirs (by omega) hwsC (fun c hc => by
          rw [skipWs_cons_ws ' ' _ (by decide), skipWs_cons_not '\x7b' _ (by decide)] at hc
          rw [List.head?_cons, Option.some_inj] at hc
          rw [← hc]
          decide)
      have hitemsP : parseSelectionItems fu ('\n' ::
          ((itemsOut w (ind + w) (x :: xs)).data ++
            ((spacesStr ind).data ++ ('\x7d' :: ('\n' :: rest))))) =
          some (x :: xs, '\n' :: rest) := by
        rw [show ('\n' :: ((itemsOut w (ind + w) (x :: xs)).data ++
            ((spacesStr ind).data ++ ('\x7d' :: ('\n' :: rest))))) =
            ['\n'] ++ ((itemsOut w (ind + w) (x :: xs)).data ++
              ((spacesStr ind).data ++ ('\x7d' :: ('\n' :: rest)))) from rfl,
          parseSelectionItems_ws fu ['\n'] _ (by decide)]
        exact parseSelectionItems_rt (x :: xs) w (ind + w) ind fu ('\n' :: rest) hitems
          (by omega)
      have hskBlk : skipWs (' ' :: '\x7b' :: ('\n' ::
          ((itemsOut w (ind + w) (x :: xs)).data ++
            ((spacesStr ind).data ++ ('\x7d' :: ('\n' :: rest)))))) =
          '\x7b' :: ('\n' :: ((itemsOut w (ind + w) (x :: xs)).data ++
            ((spacesStr ind).data ++ ('\x7d' :: ('\n' :: rest))))) := by
        rw [skipWs_cons_ws ' ' _ (by decide), skipWs_cons_not '\x7b' _ (by decide)]
      cases alias_ with
      | none =>
        have hdata : (selCore w ind (Selection.field (Field.mk none name args dirs
            (SelectionSet.mk (x :: xs))))).data ++ ('\n' :: rest) =
            cn :: (csn ++ ((argumentsOut args).data ++ ((directivesOut dirs).data ++
              (' ' :: '\x7b' :: ('\n' :: ((itemsOut w (ind + w) (x :: xs)).data ++
                ((spacesStr ind).data ++ ('\x7d' :: ('\n' :: rest))))))))) := by
          simp [selCore, aliasOut, hlan, String.data_append]
        rw [hdata]
        simp only [parseSelection]
        rw [skipWs_cons_not _ _ (isNameChar_not_isWs cn hcn)]
        have hnd : ¬(cn = '.') := isNameChar_ne_of cn '.' hcn (by decide)
        have ht : takeName (cn :: (csn ++ ((argumentsOut args).data ++
            ((directivesOut dirs).data ++ (' ' :: '\x7b' ::
              ('\n' :: ((itemsOut w (ind + w) (x :: xs)).data ++
                ((spacesStr ind).data ++ ('\x7d' :: ('\n' :: rest)))))))))) =
            some (name, (argumentsOut args).data ++ ((directivesOut dirs).data ++
              (' ' :: '\x7b' :: ('\n' :: ((itemsOut w (ind + w) (x :: xs)).data ++
                ((spacesStr ind).data ++ ('\x7d' :: ('\n' :: rest)))))))) := by
          rw [show cn :: (csn ++ ((argumentsOut args).data ++
              ((directivesOut dirs).data ++ (' ' :: '\x7b' ::
                ('\n' :: ((itemsOut w (ind + w) (x :: xs)).data ++
                  ((spacesStr ind).data ++ ('\x7d' :: ('\n' :: rest))))))))) =
              name.data ++ ((argumentsOut args).data ++ ((directivesOut dirs).data ++
                (' ' :: '\x7b' :: ('\n' :: ((itemsOut w (ind + w) (x :: xs)).data ++
                  ((spacesStr ind).data ++ ('\x7d' :: ('\n' :: rest)))))))) from by
            rw [hlan]
            rfl]
          exact takeName_exact name _ hnm hnameB
        cases hskA : skipWs ((argumentsOut args).data ++ ((directivesOut dirs).data ++
            (' ' :: '\x7b' :: ('\n' :: ((itemsOut w (ind + w) (x :: xs)).data ++
              ((spacesStr ind).data ++ ('\x7d' :: ('\n' :: rest)))))))) with
        | nil => simp [hnd, ht, hskA, hopt, hdr, hskBlk, hitemsP]
        | cons c2 r2 =>
          have h2 : ¬(c2 = ':') := hnc c2 (by rw [hskA]; rfl)
          simp [hnd, ht, hskA, h2, hopt, hdr, hskBlk, hitemsP]
      | some a =>
        have hal2 : goodNameB a = true := hal
        obtain ⟨ca, csa, hlaa, hstarta, hca⟩ := goodName_head a hal2
        have hdata : (selCore w ind (Selection.field (Field.mk (some a) name args dirs
            (SelectionSet.mk (x :: xs))))).data ++ ('\n' :: rest) =
            ca :: (csa ++ (':' :: ' ' :: (name.data ++ ((argumentsOut args).data ++
              ((directivesOut dirs).data ++ (' ' :: '\x7b' ::
                ('\n' :: ((itemsOut w (ind + w) (x :: xs)).data ++
                  ((spacesStr ind).data ++ ('\x7d' :: ('\n' :: rest))))))))))) := by
          simp [selCore, aliasOut, hlaa, String.data_append]
        rw [hdata]
        simp only [parseSelection]
        rw [skipWs_cons_not _ _ (isNameChar_not_isWs ca hca)]
        have hnd : ¬(ca = '.') := isNameChar_ne_of ca '.' hca (by decide)
        have ht : takeName (ca :: (csa ++ (':' :: ' ' :: (name.data ++
            ((argumentsOut args).data ++ ((directivesOut dirs).data ++
              (' ' :: '\x7b' :: ('\n' :: ((itemsOut w (ind + w) (x :: xs)).data ++
                ((spacesStr ind).data ++ ('\x7d' :: ('\n' :: rest)))))))))))) =
            some (a, ':' :: ' ' :: (name.data ++ ((argumentsOut args).data ++
              ((directivesOut dirs).data ++ (' ' :: '\x7b' ::
                ('\n' :: ((itemsOut w (ind + w) (x :: xs)).data ++
                  ((spacesStr ind).data ++ ('\x7d' :: ('\n' :: rest)))))))))) := by
          rw [show ca :: (csa ++ (':' :: ' ' :: (name.data ++ ((argumentsOut args).data ++
              ((directivesOut dirs).data ++ (' ' :: '\x7b' ::
                ('\n' :: ((itemsOut w (ind + w) (x :: xs)).data ++
                  ((spacesStr ind).data ++ ('\x7d' :: ('\n' :: rest))))))))))) =
              a.data ++ (':' :: ' ' :: (name.data ++ ((argumentsOut args).data ++
                ((directivesOut dirs).data ++ (' ' :: '\x7b' ::
                  ('\n' :: ((itemsOut w (ind + w) (x :: xs)).data ++
                    ((spacesStr ind).data ++ ('\x7d' :: ('\n' :: rest)))))))))) from by
            rw [hlaa]
            rfl]
          exact takeName_exact a _ hal2 (head_boundary ':' _ (by decide))
        have ht2 : takeName (skipWs (' ' :: (name.data ++ ((argumentsOut args).data ++
            ((directivesOut dirs).data ++ (' ' :: '\x7b' ::
              ('\n' :: ((itemsOut w (ind + w) (x :: xs)).data ++
                ((spacesStr ind).data ++ ('\x7d' :: ('\n' :: rest))))))))))) =
            some (name, (argumentsOut args).data ++ ((directivesOut dirs).data ++
              (' ' :: '\x7b' :: ('\n' :: ((itemsOut w (ind + w) (x :: xs)).data ++
                ((spacesStr ind).data ++ ('\x7d' :: ('\n' :: rest)))))))) := by
          rw [skipWs_cons_ws ' ' _ (by decide), hlan, List.cons_append,
            skipWs_cons_not _ _ (isNameChar_not_isWs cn hcn), ← List.cons_append, ← hlan]
          exact takeName_exact name _ hnm hnameB
        have hskColon : skipWs (':' :: ' ' :: (name.data ++ ((argumentsOut args).data ++
            ((directivesOut dirs).data ++ (' ' :: '\x7b' ::
              ('\n' :: ((itemsOut w (ind + w) (x :: xs)).data ++
                ((spacesStr ind).data ++ ('\x7d' :: ('\n' :: rest)))))))))) =
            ':' :: ' ' :: (name.data ++ ((argumentsOut args).data ++
              ((directivesOut dirs).data ++ (' ' :: '\x7b' ::
                ('\n' :: ((itemsOut w (ind + w) (x :: xs)).data ++
                  ((spacesStr ind).data ++ ('\x7d' :: ('\n' :: rest))))))))) :=
          skipWs_cons_not ':' _ (by decide)
        simp [hnd, ht, ht2, hopt, hdr, hskColon, hskBlk, hitemsP]

/-- Reading back a printed selection list up to its closing brace. -/
theorem parseSelectionItems_rt : ∀ (items : List Selection) (w ind ind2 fuel : Nat)
    (rest : List Char),
    wfSelectionList items = true →
    selItemsFuel items ≤ fuel →
    parseSelectionItems fuel ((itemsOut w ind items).data ++
      ((spacesStr ind2).data ++ ('\x7d' :: rest))) = some (items, rest)
  | [], w, ind, ind2, fuel, rest => by
    intro hwf hfuel
    simp only [selItemsFuel] at hfuel
    obtain ⟨fu, rfl⟩ : ∃ k, fuel = k + 1 := ⟨fuel - 1, by omega⟩
    rw [show (itemsOut w ind ([] : List Selection)).data = [] from rfl, List.nil_append]
    simp only [parseSelectionItems]
    rw [skipWs_spaces, skipWs_cons_not _ _ (by decide)]
    simp
  | s :: tl, w, ind, ind2, fuel, rest => by
    intro hwf hfuel
    simp only [wfSelectionList, Bool.and_eq_true] at hwf
    obtain ⟨hws1, hwtl⟩ := hwf
    simp only [selItemsFuel] at hfuel
    obtain ⟨fu, rfl⟩ : ∃ k, fuel = k + 1 := ⟨fuel - 1, by omega⟩
    have hfs : selFuel s ≤ fu := by omega
    have hft : selItemsFuel tl ≤ fu := by omega
    obtain ⟨c0, cs0, hcd, hnws, hbr, -, -, -⟩ := selCore_head w ind s hws1
    have hdata : (itemsOut w ind (s :: tl)).data ++
        ((spacesStr ind2).data ++ ('\x7d' :: rest)) =
        (spacesStr ind).data ++ (c0 :: (cs0 ++ ('\n' :: ((itemsOut w ind tl).data ++
          ((spacesStr ind2).data ++ ('\x7d' :: rest)))))) := by
      simp only [itemsOut]
      rw [String.data_append, selOut_data]
      simp [hcd]
    rw [hdata]
    simp only [parseSelectionItems]
    rw [skipWs_spaces, skipWs_cons_not _ _ hnws]
    have hsel : parseSelection fu (c0 :: (cs0 ++ ('\n' :: ((itemsOut w ind tl).data ++
        ((spacesStr ind2).data ++ ('\x7d' :: rest)))))) =
        some (s, '\n' :: ((itemsOut w ind tl).data ++
          ((spacesStr ind2).data ++ ('\x7d' :: rest)))) := by
      rw [show c0 :: (cs0 ++ ('\n' :: ((itemsOut w ind tl).data ++
          ((spacesStr ind2).data ++ ('\x7d' :: rest))))) =
          (selCore w ind s).data ++ ('\n' :: ((itemsOut w ind tl).data ++
            ((spacesStr ind2).data ++ ('\x7d' :: rest)))) from by
        rw [hcd]
        rfl]
      exact parseSelection_rt s w ind fu _ hws1 hfs (items_boundary w ind ind2 tl rest hwtl)
    have htl : parseSelectionItems fu ('\n' :: ((itemsOut w ind tl).data ++
        ((spacesStr ind2).data ++ ('\x7d' :: rest)))) = some (tl, rest) := by
      rw [show ('\n' :: ((itemsOut w ind tl).data ++
          ((spacesStr ind2).data ++ ('\x7d' :: rest)))) =
          ['\n'] ++ ((itemsOut w ind tl).data ++
            ((spacesStr ind2).data ++ ('\x7d' :: rest))) from rfl,
        parseSelectionItems_ws fu ['\n'] _ (by decide)]
      exact parseSelectionItems_rt tl w ind ind2 fu rest hwtl hft
    simp [hbr, hsel, htl]

end


/-- Reading back a printed type. -/
theorem parseType_rt : ∀ (t : GqlType) (fuel : Nat) (rest : List Char),
    wfType t = true →
    typeFuel t ≤ fuel →
    (∀ c, rest.head? = some c → isNameChar c = false) →
    (∀ c, rest.head? = some c → ¬(c = '!')) →
    parseType fuel ((typeOut t).data ++ rest) = some (t, rest)
  | .namedType n, fuel, rest => by
    intro hwf hfuel hb1 hb2
    simp only [typeFuel] at hfuel
    obtain ⟨fu, rfl⟩ : ∃ k, fuel = k + 1 := ⟨fuel - 1, by omega⟩
    simp only [wfType] at hwf
    obtain ⟨cn, csn, hlan, hstartn, hcn⟩ := goodName_head n hwf
    have hdata : (typeOut (GqlType.namedType n)).data ++ rest = cn :: (csn ++ rest) := by
      simp [typeOut, hlan]
    rw [hdata]
    simp only [parseType]
    rw [skipWs_cons_not _ _ (isNameChar_not_isWs cn hcn)]
    have hno : ¬(cn = '[') := isNameChar_ne_of cn '[' hcn (by decide)
    have ht : takeName (cn :: (csn ++ rest)) = some (n, rest) := by
      rw [show cn :: (csn ++ rest) = n.data ++ rest from by
        rw [hlan]
        rfl]
      exact takeName_exact n rest hwf hb1
    rcases rest with _ | ⟨c2, r2⟩
    · simp only [List.append_nil] at ht
      simp [hno, ht]
    · have h2 : ¬(c2 = '!') := hb2 c2 rfl
      simp [hno, ht, h2]
  | .listType t1, fuel, rest => by
    intro hwf hfuel hb1 hb2
    simp only [typeFuel] at hfuel
    obtain ⟨fu, rfl⟩ : ∃ k, fuel = k + 1 := ⟨fuel - 1, by omega⟩
    simp only [wfType] at hwf
    have hdata : (typeOut (GqlType.listType t1)).data ++ rest =
        '[' :: ((typeOut t1).data ++ (']' :: rest)) := by
      simp [typeOut, String.data_append]
    rw [hdata]
    simp only [parseType]
    rw [skipWs_cons_not '[' _ (by decide)]
    have hrec : parseType fu ((typeOut t1).data ++ (']' :: rest)) = some (t1, ']' :: rest) :=
      parseType_rt t1 fu _ hwf (by omega) (head_boundary ']' _ (by decide))
        (fun c hc => by
          rw [List.head?_cons, Option.some_inj] at hc
          rw [← hc]
          decide)
    have hsk : skipWs (']' :: rest) = ']' :: rest := skipWs_cons_not ']' _ (by decide)
    rcases rest with _ | ⟨c2, r2⟩
    · simp [hrec, hsk, expectChar]
    · have h2 : ¬(c2 = '!') := hb2 c2 rfl
      simp [hrec, hsk, expectChar, h2]
  | .nonNullType t1, fuel, rest => by
    intro hwf hfuel hb1 hb2
    simp only [wfType, Bool.and_eq_true] at hwf
    obtain ⟨hw1, hnn⟩ := hwf
    cases t1 with
    | nonNullType t2 => simp [GqlType.isNonNull] at hnn
    | namedType n =>
      simp only [typeFuel] at hfuel
      obtain ⟨fu, rfl⟩ : ∃ k, fuel = k + 1 := ⟨fuel - 1, by omega⟩
      simp only [wfType] at hw1
      obtain ⟨cn, csn, hlan, hstartn, hcn⟩ := goodName_head n hw1
      have hdata : (typeOut (GqlType.nonNullType (GqlType.namedType n))).data ++ rest =
          cn :: (csn ++ ('!' :: rest)) := by
        simp [typeOut, hlan, String.data_append]
      rw [hdata]
      simp only [parseType]
      rw [skipWs_cons_not _ _ (isNameChar_not_isWs cn hcn)]
      have hno : ¬(cn = '[') := isNameChar_ne_of cn '[' hcn (by decide)
      have ht : takeName (cn :: (csn ++ ('!' :: rest))) = some (n, '!' :: rest) := by
        rw [show cn :: (csn ++ ('!' :: rest)) = n.data ++ ('!' :: rest) from by
          rw [hlan]
          rfl]
        exact takeName_exact n _ hw1 (head_boundary '!' _ (by decide))
      simp [hno, ht]
    | listType t2 =>
      simp only [typeFuel] at hfuel
      obtain ⟨fu, rfl⟩ : ∃ k, fuel = k + 1 := ⟨fuel - 1, by omega⟩
      simp only [wfType] at hw1
      have hdata : (typeOut (GqlType.nonNullType (GqlType.listType t2))).data ++ rest =
          '[' :: ((typeOut t2).data ++ (']' :: ('!' :: rest))) := by
        simp [typeOut, String.data_append]
      rw [hdata]
      simp only [parseType]
      rw [skipWs_cons_not '[' _ (by decide)]
      have hrec : parseType fu ((typeOut t2).data ++ (']' :: ('!' :: rest))) =
          some (t2, ']' :: ('!' :: rest)) :=
        parseType_rt t2 fu _ hw1 (by omega)
          (head_boundary ']' _ (by decide))
          (fun c hc => by
            rw [List.head?_cons, Option.some_inj] at hc
            rw [← hc]
            decide)
      have hsk : skipWs (']' :: ('!' :: rest)) = ']' :: ('!' :: rest) :=
        skipWs_cons_not ']' _ (by decide)
      simp [hrec, hsk, expectChar]


/-- After a variable definition comes a comma or the closing
parenthesis. -/
theorem varDefsTail_boundary (tl : List VariableDefinition) (rest : List Char) :
    ∀ c, ((varDefsTailOut tl).data ++ (')' :: rest)).head? = some c →
      isNameChar c = false := by
  cases tl with
  | nil =>
    intro c hc
    rw [show (varDefsTailOut []).data ++ (')' :: rest) = ')' :: rest from by
      simp [varDefsTailOut]] at hc
    rw [List.head?_cons, Option.some_inj] at hc
    rw [← hc]
    decide
  | cons v tl2 =>
    intro c hc
    rw [show (varDefsTailOut (v :: tl2)).data ++ (')' :: rest) =
        ',' :: (' ' :: ((varDefOut v).data ++ ((varDefsTailOut tl2).data ++
          (')' :: rest)))) from by
      simp [varDefsTailOut, String.data_append]] at hc
    rw [List.head?_cons, Option.some_inj] at hc
    rw [← hc]
    decide

/-- No equals sign begins the continuation after a variable
definition. -/
theorem varDefsThen_no_eq (tl : List VariableDefinition) (rest : List Char) :
    ∀ c, (skipWs ((varDefsTailOut tl).data ++ (')' :: rest))).head? = some c →
      ¬(c = '=') := by
  cases tl with
  | nil =>
    intro c hc
    rw [show (varDefsTailOut []).data ++ (')' :: rest) = ')' :: rest from by
      simp [varDefsTailOut], skipWs_cons_not ')' _ (by decide)] at hc
    rw [List.head?_cons, Option.some_inj] at hc
    rw [← hc]
    decide
  | cons v tl2 =>
    intro c hc
    rw [show (varDefsTailOut (v :: tl2)).data ++ (')' :: rest) =
        ',' :: (' ' :: ('$' :: ((v.name).data ++ (':' :: ' ' ::
          ((typeOut v.var_type).data ++ ((match v.default_value with
            | some d => " = " ++ valueOut d
            | none => "").data ++ ((varDefsTailOut tl2).data ++
              (')' :: rest)))))))) from by
      simp [varDefsTailOut, varDefOut, String.data_append], skipWs_cons_ws ',' _ (by decide),
      skipWs_cons_ws ' ' _ (by decide), skipWs_cons_not '$' _ (by decide)] at hc
    rw [List.head?_cons, Option.some_inj] at hc
    rw [← hc]
    decide

/-- No exclamation mark begins the continuation after a variable
definition. -/
theorem varDefsTail_head_ne_bang (tl : List VariableDefinition) (rest : List Char) :
    ∀ c, ((varDefsTailOut tl).data ++ (')' :: rest)).head? = some c → ¬(c = '!') := by
  cases tl with
  | nil =>
    intro c hc
    rw [show (varDefsTailOut []).data ++ (')' :: rest) = ')' :: rest from by
      simp [varDefsTailOut]] at hc
    rw [List.head?_cons, Option.some_inj] at hc
    rw [← hc]
    decide
  | cons v tl2 =>
    intro c hc
    rw [show (varDefsTailOut (v :: tl2)).data ++ (')' :: rest) =
        ',' :: (' ' :: ((varDefOut v).data ++ ((varDefsTailOut tl2).data ++
          (')' :: rest)))) from by
      simp [varDefsTailOut, String.data_append]] at hc
    rw [List.head?_cons, Option.some_inj] at hc
    rw [← hc]
    decide

/-- Reading back a printed variable-definition list. -/
theorem parseVarDefsRest_rt : ∀ (vds : List VariableDefinition) (fuel : Nat)
    (rest : List Char),
    wfVariableDefinitions vds = true →
    varDefsRestFuel vds ≤ fuel →
    parseVarDefsRest fuel (varDefsInner vds ++ (')' :: rest)) = some (vds, rest)
  | [], fuel, rest => by
    intro hwf hfuel
    simp only [varDefsRestFuel] at hfuel
    obtain ⟨fu, rfl⟩ : ∃ k, fuel = k + 1 := ⟨fuel - 1, by omega⟩
    simp only [varDefsInner, List.nil_append, parseVarDefsRest]
    rw [skipWs_cons_not ')' _ (by decide)]
    simp
  | v :: tl, fuel, rest => by
    intro hwf hfuel
    obtain ⟨nm, ty, dv⟩ := v
    cases dv with
    | none =>
      simp only [wfVariableDefinitions, wfVariableDefinition, Bool.and_eq_true] at hwf
      obtain ⟨⟨⟨hnm, hty⟩, hdv⟩, htl⟩ := hwf
      simp only [varDefsRestFuel] at hfuel
      obtain ⟨fu, rfl⟩ : ∃ k, fuel = k + 1 := ⟨fuel - 1, by omega⟩
      obtain ⟨cn, csn, hlan, hstartn, hcn⟩ := goodName_head nm hnm
      have htail : parseVarDefsRest fu ((varDefsTailOut tl).data ++ (')' :: rest)) =
          some (tl, rest) := by
        cases tl with
        | nil =>
          have h0 := parseVarDefsRest_rt [] fu rest rfl (by omega)
          simpa [varDefsInner, varDefsTailOut] using h0
        | cons v2 tl2 =>
          have hd2 : (varDefsTailOut (v2 :: tl2)).data ++ (')' :: rest) =
              [',', ' '] ++ (varDefsInner (v2 :: tl2) ++ (')' :: rest)) := by
            simp [varDefsTailOut, varDefsInner, String.data_append]
          rw [hd2, parseVarDefsRest_ws fu [',', ' '] _ (by decide)]
          exact parseVarDefsRest_rt (v2 :: tl2) fu rest htl (by omega)
      have hdata : varDefsInner (VariableDefinition.mk nm ty none :: tl) ++
          (')' :: rest) =
          '$' :: (cn :: (csn ++ (':' :: ' ' :: ((typeOut ty).data ++
            ((varDefsTailOut tl).data ++ (')' :: rest)))))) := by
        simp [varDefsInner, varDefOut, hlan, String.data_append]
      rw [hdata]
      simp only [parseVarDefsRest]
      rw [skipWs_cons_not '$' _ (by decide)]
      have ht : takeName (cn :: (csn ++ (':' :: ' ' :: ((typeOut ty).data ++
          ((varDefsTailOut tl).data ++ (')' :: rest)))))) =
          some (nm, ':' :: ' ' :: ((typeOut ty).data ++
            ((varDefsTailOut tl).data ++ (')' :: rest)))) := by
        rw [show cn :: (csn ++ (':' :: ' ' :: ((typeOut ty).data ++
            ((varDefsTailOut tl).data ++ (')' :: rest))))) =
            nm.data ++ (':' :: ' ' :: ((typeOut ty).data ++
              ((varDefsTailOut tl).data ++ (')' :: rest)))) from by
          rw [hlan]
          rfl]
        exact takeName_exact nm _ hnm (head_boundary ':' _ (by decide))
      have hsk : skipWs (':' :: ' ' :: ((typeOut ty).data ++
          ((varDefsTailOut tl).data ++ (')' :: rest)))) =
          ':' :: ' ' :: ((typeOut ty).data ++
            ((varDefsTailOut tl).data ++ (')' :: rest))) :=
        skipWs_cons_not ':' _ (by decide)
      have hpt : parseType fu (' ' :: ((typeOut ty).data ++
          ((varDefsTailOut tl).data ++ (')' :: rest)))) =
          some (ty, (varDefsTailOut tl).data ++ (')' :: rest)) := by
        rw [show (' ' :: ((typeOut ty).data ++
            ((varDefsTailOut tl).data ++ (')' :: rest)))) =
            [' '] ++ ((typeOut ty).data ++
              ((varDefsTailOut tl).data ++ (')' :: rest))) from rfl,
          parseType_ws fu [' '] _ (by decide)]
        exact parseType_rt ty fu _ hty (by omega) (varDefsTail_boundary tl rest)
          (varDefsTail_head_ne_bang tl rest)
      cases hsk2 : skipWs ((varDefsTailOut tl).data ++ (')' :: rest)) with
      | nil => simp [ht, hsk, expectChar, hpt, hsk2, htail]
      | cons c2 r3 =>
        have h2 := varDefsThen_no_eq tl rest c2 (by rw [hsk2]; rfl)
        simp [ht, hsk, expectChar, hpt, hsk2, h2, htail]
    | some d =>
      simp only [wfVariableDefinitions, wfVariableDefinition, Bool.and_eq_true] at hwf
      obtain ⟨⟨⟨hnm, hty⟩, hdv⟩, htl⟩ := hwf
      simp only [varDefsRestFuel] at hfuel
      obtain ⟨fu, rfl⟩ : ∃ k, fuel = k + 1 := ⟨fuel - 1, by omega⟩
      obtain ⟨cn, csn, hlan, hstartn, hcn⟩ := goodName_head nm hnm
      have htail : parseVarDefsRest fu ((varDefsTailOut tl).data ++ (')' :: rest)) =
          some (tl, rest) := by
        cases tl with
        | nil =>
          have h0 := parseVarDefsRest_rt [] fu rest rfl (by omega)
          simpa [varDefsInner, varDefsTailOut] using h0
        | cons v2 tl2 =>
          have hd2 : (varDefsTailOut (v2 :: tl2)).data ++ (')' :: rest) =
              [',', ' '] ++ (varDefsInner (v2 :: tl2) ++ (')' :: rest)) := by
            simp [varDefsTailOut, varDefsInner, String.data_append]
          rw [hd2, parseVarDefsRest_ws fu [',', ' '] _ (by decide)]
          exact parseVarDefsRest_rt (v2 :: tl2) fu rest htl (by omega)
      have hdata : varDefsInner (VariableDefinition.mk nm ty (some d) :: tl) ++
          (')' :: rest) =
          '$' :: (cn :: (csn ++ (':' :: ' ' :: ((typeOut ty).data ++
            (' ' :: '=' :: ' ' :: ((valueOut d).data ++
              ((varDefsTailOut tl).data ++ (')' :: rest)))))))) := by
        simp [varDefsInner, varDefOut, hlan, String.data_append]
      rw [hdata]
      simp only [parseVarDefsRest]
      rw [skipWs_cons_not '$' _ (by decide)]
      have ht : takeName (cn :: (csn ++ (':' :: ' ' :: ((typeOut ty).data ++
          (' ' :: '=' :: ' ' :: ((valueOut d).data ++
            ((varDefsTailOut tl).data ++ (')' :: rest)))))))) =
          some (nm, ':' :: ' ' :: ((typeOut ty).data ++
            (' ' :: '=' :: ' ' :: ((valueOut d).data ++
              ((varDefsTailOut tl).data ++ (')' :: rest)))))) := by
        rw [show cn :: (csn ++ (':' :: ' ' :: ((typeOut ty).data ++
            (' ' :: '=' :: ' ' :: ((valueOut d).data ++
              ((varDefsTailOut tl).data ++ (')' :: rest))))))) =
            nm.data ++ (':' :: ' ' :: ((typeOut ty).data ++
              (' ' :: '=' :: ' ' :: ((valueOut d).data ++
                ((varDefsTailOut tl).data ++ (')' :: rest)))))) from by
          rw [hlan]
          rfl]
        exact takeName_exact nm _ hnm (head_boundary ':' _ (by decide))
      have hsk : skipWs (':' :: ' ' :: ((typeOut ty).data ++
          (' ' :: '=' :: ' ' :: ((valueOut d).data ++
            ((varDefsTailOut tl).data ++ (')' :: rest)))))) =
          ':' :: ' ' :: ((typeOut ty).data ++
            (' ' :: '=' :: ' ' :: ((valueOut d).data ++
              ((varDefsTailOut tl).data ++ (')' :: rest))))) :=
        skipWs_cons_not ':' _ (by decide)
      have hpt : parseType fu (' ' :: ((typeOut ty).data ++
          (' ' :: '=' :: ' ' :: ((valueOut d).data ++
            ((varDefsTailOut tl).data ++ (')' :: rest)))))) =
          some (ty, ' ' :: '=' :: ' ' :: ((valueOut d).data ++
            ((varDefsTailOut tl).data ++ (')' :: rest)))) := by
        rw [show (' ' :: ((typeOut ty).data ++
            (' ' :: '=' :: ' ' :: ((valueOut d).data ++
              ((varDefsTailOut tl).data ++ (')' :: rest)))))) =
            [' '] ++ ((typeOut ty).data ++
              (' ' :: '=' :: ' ' :: ((valueOut d).data ++
                ((varDefsTailOut tl).data ++ (')' :: rest))))) from rfl,
          parseType_ws fu [' '] _ (by decide)]
        exact parseType_rt ty fu _ hty (by omega) (head_boundary ' ' _ (by decide))
          (fun c hc => by
            rw [List.head?_cons, Option.some_inj] at hc
            rw [← hc]
            decide)
      have hsk2 : skipWs (' ' :: '=' :: ' ' :: ((valueOut d).data ++
          ((varDefsTailOut tl).data ++ (')' :: rest)))) =
          '=' :: ' ' :: ((valueOut d).data ++
            ((varDefsTailOut tl).data ++ (')' :: rest))) := by
        rw [skipWs_cons_ws ' ' _ (by decide), skipWs_cons_not '=' _ (by decide)]
      have hv : parseValue fu (' ' :: ((valueOut d).data ++
          ((varDefsTailOut tl).data ++ (')' :: rest)))) =
          some (d, (varDefsTailOut tl).data ++ (')' :: rest)) := by
        rw [show (' ' :: ((valueOut d).data ++
            ((varDefsTailOut tl).data ++ (')' :: rest)))) =
            [' '] ++ ((valueOut d).data ++
              ((varDefsTailOut tl).data ++ (')' :: rest))) from rfl,
          parseValue_ws fu [' '] _ (by decide)]
        exact parseValue_rt d fu _ hdv (varDefsTail_boundary tl rest) (varDefsTail_no_dot tl rest) (by omega)
      simp [ht, hsk, expectChar, hpt, hsk2, hv, htail]


/-- No opening parenthesis begins printed directives followed by a
block. -/
theorem dirsThen_no_paren (dirs : List Directive) (l : List Char)
    (h : ∀ c, (skipWs l).head? = some c → ¬(c = '(')) :
    ∀ c, (skipWs ((directivesOut dirs).data ++ l)).head? = some c → ¬(c = '(') := by
  cases dirs with
  | nil =>
    intro c hc
    rw [show (directivesOut []).data ++ l = l from by simp [directivesOut]] at hc
    exact h c hc
  | cons d tl =>
    obtain ⟨dn, dargs⟩ := d
    intro c hc
    rw [show (directivesOut (Directive.mk dn dargs :: tl)).data ++ l =
        ' ' :: '@' :: (dn.data ++ ((argumentsOut dargs).data ++
          ((directivesOut tl).data ++ l))) from by
      simp [directivesOut, directiveOut, String.data_append]] at hc
    rw [skipWs_cons_ws ' ' _ (by decide), skipWs_cons_not '@' _ (by decide),
      List.head?_cons, Option.some_inj] at hc
    rw [← hc]
    decide

/-- Reading back the printed remainder of an operation. -/
theorem parseOperationRest_rt (kind : OperationKind) (nm : Option String)
    (vds : List VariableDefinition) (dirs : List Directive) (items : List Selection)
    (w fuel : Nat) (rest : List Char)
    (hwf : wfOperation (OperationDefinition.mk kind nm vds dirs
      (SelectionSet.mk items)) = true)
    (hfuel : opRestFuel (OperationDefinition.mk kind nm vds dirs
      (SelectionSet.mk items)) ≤ fuel) :
    parseOperationRest kind fuel ((opNameOut nm vds).data ++
      ((directivesOut dirs).data ++ (' ' :: '\x7b' :: ('\n' ::
        ((itemsOut w w items).data ++ ('\x7d' :: ('\n' :: rest))))))) =
      some (OperationDefinition.mk kind nm vds dirs (SelectionSet.mk items),
        '\n' :: rest) := by
  simp only [wfOperation, SelectionSet.items, Bool.and_eq_true] at hwf
  obtain ⟨⟨⟨hnm, hvds⟩, hdirs⟩, hitems⟩ := hwf
  simp only [opRestFuel, SelectionSet.items] at hfuel
  obtain ⟨fu, rfl⟩ : ∃ k, fuel = k + 1 := ⟨fuel - 1, by omega⟩
  obtain ⟨fb, rfl⟩ : ∃ k, fu = k + 1 := ⟨fu - 1, by omega⟩
  have hitemsP : parseSelectionItems fb ('\n' :: ((itemsOut w w items).data ++
      ('\x7d' :: ('\n' :: rest)))) = some (items, '\n' :: rest) := by
    rw [show ('\n' :: ((itemsOut w w items).data ++ ('\x7d' :: ('\n' :: rest)))) =
        ['\n'] ++ ((itemsOut w w items).data ++
          ((spacesStr 0).data ++ ('\x7d' :: ('\n' :: rest)))) from rfl,
      parseSelectionItems_ws fb ['\n'] _ (by decide)]
    exact parseSelectionItems_rt items w w 0 fb ('\n' :: rest) hitems (by omega)
  have hblk : parseBlock (fb + 1) (' ' :: '\x7b' :: ('\n' ::
      ((itemsOut w w items).data ++ ('\x7d' :: ('\n' :: rest))))) =
      some (items, '\n' :: rest) := by
    simp only [parseBlock]
    rw [skipWs_cons_ws ' ' _ (by decide), skipWs_cons_not '\x7b' _ (by decide)]
    simp [hitemsP]
  have hdr : parseDirectives (fb + 1) ((directivesOut dirs).data ++
      (' ' :: '\x7b' :: ('\n' :: ((itemsOut w w items).data ++
        ('\x7d' :: ('\n' :: rest)))))) =
      some (dirs, ' ' :: '\x7b' :: ('\n' :: ((itemsOut w w items).data ++
        ('\x7d' :: ('\n' :: rest))))) :=
    parseDirectives_rt dirs (fb + 1) _ hdirs (by omega) (head_ws ' ' _ (by decide))
      (fun x hx => by
        rw [skipWs_cons_ws ' ' _ (by decide), skipWs_cons_not '\x7b' _ (by decide)] at hx
        rw [List.head?_cons, Option.some_inj] at hx
        rw [← hx]
        decide)
  have hnp : ∀ c, (skipWs ((directivesOut dirs).data ++
      (' ' :: '\x7b' :: ('\n' :: ((itemsOut w w items).data ++
        ('\x7d' :: ('\n' :: rest))))))).head? = some c → ¬(c = '(') :=
    dirsThen_no_paren dirs _ (fun x hx => by
      rw [skipWs_cons_ws ' ' _ (by decide), skipWs_cons_not '\x7b' _ (by decide)] at hx
      rw [List.head?_cons, Option.some_inj] at hx
      rw [← hx]
      decide)
  cases nm with
  | none =>
    have hvempty : vds = [] := by
      cases vds with
      | nil => rfl
      | cons a b => simp at hnm
    subst hvempty
    rw [show (opNameOut none []).data ++ ((directivesOut dirs).data ++
        (' ' :: '\x7b' :: ('\n' :: ((itemsOut w w items).data ++
          ('\x7d' :: ('\n' :: rest)))))) =
        (directivesOut dirs).data ++ (' ' :: '\x7b' :: ('\n' ::
          ((itemsOut w w items).data ++ ('\x7d' :: ('\n' :: rest))))) from by
      simp [opNameOut]]
    simp only [parseOperationRest]
    cases dirs with
    | nil =>
      have hskB : skipWs ((directivesOut ([] : List Directive)).data ++
          (' ' :: '\x7b' :: ('\n' :: ((itemsOut w w items).data ++
            ('\x7d' :: ('\n' :: rest)))))) =
          '\x7b' :: ('\n' :: ((itemsOut w w items).data ++
            ('\x7d' :: ('\n' :: rest)))) := by
        rw [show (directivesOut ([] : List Directive)).data ++
            (' ' :: '\x7b' :: ('\n' :: ((itemsOut w w items).data ++
              ('\x7d' :: ('\n' :: rest))))) =
            ' ' :: '\x7b' :: ('\n' :: ((itemsOut w w items).data ++
              ('\x7d' :: ('\n' :: rest)))) from by simp [directivesOut],
          skipWs_cons_ws ' ' _ (by decide), skipWs_cons_not '\x7b' _ (by decide)]
      simp [hskB, hdr, hblk, show isNameStart '\x7b' = false from by decide]
    | cons d dtl =>
      obtain ⟨dn, dargs⟩ := d
      have hskB : skipWs ((directivesOut (Directive.mk dn dargs :: dtl)).data ++
          (' ' :: '\x7b' :: ('\n' :: ((itemsOut w w items).data ++
            ('\x7d' :: ('\n' :: rest)))))) =
          '@' :: (dn.data ++ ((argumentsOut dargs).data ++
            ((directivesOut dtl).data ++ (' ' :: '\x7b' :: ('\n' ::
              ((itemsOut w w items).data ++ ('\x7d' :: ('\n' :: rest)))))))) := by
        rw [show (directivesOut (Directive.mk dn dargs :: dtl)).data ++
            (' ' :: '\x7b' :: ('\n' :: ((itemsOut w w items).data ++
              ('\x7d' :: ('\n' :: rest))))) =
            ' ' :: '@' :: (dn.data ++ ((argumentsOut dargs).data ++
              ((directivesOut dtl).data ++ (' ' :: '\x7b' :: ('\n' ::
                ((itemsOut w w items).data ++ ('\x7d' :: ('\n' :: rest)))))))) from by
          simp [directivesOut, directiveOut, String.data_append],
          skipWs_cons_ws ' ' _ (by decide), skipWs_cons_not '@' _ (by decide)]
      simp [hskB, hdr, hblk, show isNameStart '@' = false from by decide]
  | some n =>
    have hgn : goodNameB n = true := hnm
    obtain ⟨cn, csn, hlan, hstartn, hcn⟩ := goodName_head n hgn
    cases vds with
    | nil =>
      rw [show (opNameOut (some n) []).data ++ ((directivesOut dirs).data ++
          (' ' :: '\x7b' :: ('\n' :: ((itemsOut w w items).data ++
            ('\x7d' :: ('\n' :: rest)))))) =
          ' ' :: (cn :: (csn ++ ((directivesOut dirs).data ++
            (' ' :: '\x7b' :: ('\n' :: ((itemsOut w w items).data ++
              ('\x7d' :: ('\n' :: rest)))))))) from by
        simp [opNameOut, hlan, String.data_append]]
      simp only [parseOperationRest]
      rw [skipWs_cons_ws ' ' _ (by decide),
        skipWs_cons_not _ _ (isNameChar_not_isWs cn hcn)]
      have ht : takeName (cn :: (csn ++ ((directivesOut dirs).data ++
          (' ' :: '\x7b' :: ('\n' :: ((itemsOut w w items).data ++
            ('\x7d' :: ('\n' :: rest)))))))) =
          some (n, (directivesOut dirs).data ++
            (' ' :: '\x7b' :: ('\n' :: ((itemsOut w w items).data ++
              ('\x7d' :: ('\n' :: rest)))))) := by
        rw [show cn :: (csn ++ ((directivesOut dirs).data ++
            (' ' :: '\x7b' :: ('\n' :: ((itemsOut w w items).data ++
              ('\x7d' :: ('\n' :: rest))))))) =
            n.data ++ ((directivesOut dirs).data ++
              (' ' :: '\x7b' :: ('\n' :: ((itemsOut w w items).data ++
                ('\x7d' :: ('\n' :: rest)))))) from by
          rw [hlan]
          rfl]
        exact takeName_exact n _ hgn (dirsThen_boundary dirs _ (head_ws ' ' _ (by decide)))
      cases hskB : skipWs ((directivesOut dirs).data ++
          (' ' :: '\x7b' :: ('\n' :: ((itemsOut w w items).data ++
            ('\x7d' :: ('\n' :: rest)))))) with
      | nil => simp [hstartn, ht, hskB, hdr, hblk]
      | cons c2 r2 =>
        have h2 : ¬(c2 = '(') := hnp c2 (by rw [hskB]; rfl)
        simp [hstartn, ht, hskB, h2, hdr, hblk]
    | cons v vtl =>
      rw [show (opNameOut (some n) (v :: vtl)).data ++ ((directivesOut dirs).data ++
          (' ' :: '\x7b' :: ('\n' :: ((itemsOut w w items).data ++
            ('\x7d' :: ('\n' :: rest)))))) =
          ' ' :: (cn :: (csn ++ ('(' :: (varDefsInner (v :: vtl) ++
            (')' :: ((directivesOut dirs).data ++
              (' ' :: '\x7b' :: ('\n' :: ((itemsOut w w items).data ++
                ('\x7d' :: ('\n' :: rest))))))))))) from by
        simp [opNameOut, varDefsInner, varDefOut, hlan, String.data_append]]
      simp only [parseOperationRest]
      rw [skipWs_cons_ws ' ' _ (by decide),
        skipWs_cons_not _ _ (isNameChar_not_isWs cn hcn)]
      have ht : takeName (cn :: (csn ++ ('(' :: (varDefsInner (v :: vtl) ++
          (')' :: ((directivesOut dirs).data ++
            (' ' :: '\x7b' :: ('\n' :: ((itemsOut w w items).data ++
              ('\x7d' :: ('\n' :: rest))))))))))) =
          some (n, '(' :: (varDefsInner (v :: vtl) ++
            (')' :: ((directivesOut dirs).data ++
              (' ' :: '\x7b' :: ('\n' :: ((itemsOut w w items).data ++
                ('\x7d' :: ('\n' :: rest))))))))) := by
        rw [show cn :: (csn ++ ('(' :: (varDefsInner (v :: vtl) ++
            (')' :: ((directivesOut dirs).data ++
              (' ' :: '\x7b' :: ('\n' :: ((itemsOut w w items).data ++
                ('\x7d' :: ('\n' :: rest)))))))))) =
            n.data ++ ('(' :: (varDefsInner (v :: vtl) ++
              (')' :: ((directivesOut dirs).data ++
                (' ' :: '\x7b' :: ('\n' :: ((itemsOut w w items).data ++
                  ('\x7d' :: ('\n' :: rest))))))))) from by
          rw [hlan]
          rfl]
        exact takeName_exact n _ hgn (head_boundary '(' _ (by decide))
      have hvd : parseVarDefsRest (fb + 1) (varDefsInner (v :: vtl) ++
          (')' :: ((directivesOut dirs).data ++
            (' ' :: '\x7b' :: ('\n' :: ((itemsOut w w items).data ++
              ('\x7d' :: ('\n' :: rest)))))))) =
          some (v :: vtl, (directivesOut dirs).data ++
            (' ' :: '\x7b' :: ('\n' :: ((itemsOut w w items).data ++
              ('\x7d' :: ('\n' :: rest)))))) :=
        parseVarDefsRest_rt (v :: vtl) (fb + 1) _ hvds (by omega)
      have hskP : skipWs ('(' :: (varDefsInner (v :: vtl) ++
          (')' :: ((directivesOut dirs).data ++
            (' ' :: '\x7b' :: ('\n' :: ((itemsOut w w items).data ++
              ('\x7d' :: ('\n' :: rest))))))))) =
          '(' :: (varDefsInner (v :: vtl) ++
            (')' :: ((directivesOut dirs).data ++
              (' ' :: '\x7b' :: ('\n' :: ((itemsOut w w items).data ++
                ('\x7d' :: ('\n' :: rest)))))))) :=
        skipWs_cons_not '(' _ (by decide)
      simp [hstartn, ht, hvd, hdr, hblk, hskP]


/-- A printed definition is its separator, core and newline. -/
theorem defOut_data (w : Nat) (first : Bool) (d : Definition) :
    (defOut w 0 first d).data =
      (if first then [] else ['\n']) ++ ((defCore w d).data ++ ['\n']) := by
  rcases d with s | op | x
  · obtain ⟨items⟩ := s
    cases first <;>
      simp [defOut, bareSelOut, defCore, spacesStr, SelectionSet.items, String.data_append]
  · obtain ⟨kind, nm, vds, dirs, ss⟩ := op
    obtain ⟨items⟩ := ss
    cases first <;>
      simp [defOut, opOut, defCore, spacesStr, SelectionSet.items, String.data_append]
  · obtain ⟨nm, tc, dirs, ss⟩ := x
    obtain ⟨items⟩ := ss
    cases first <;>
      simp [defOut, fragDefOut, defCore, spacesStr, SelectionSet.items, String.data_append]

/-- The head character of a printed definition core. -/
theorem defCore_head (w : Nat) (d : Definition) :
    ∃ c cs, (defCore w d).data = c :: cs ∧ isWsChar c = false := by
  rcases d with s | op | x
  · exact ⟨'\x7b', '\n' :: ((itemsOut w w s.items).data ++ ['\x7d']),
      by simp [defCore, String.data_append], by decide⟩
  · obtain ⟨kind, nm, vds, dirs, ss⟩ := op
    cases kind with
    | query =>
      refine ⟨'q', ('u' :: 'e' :: 'r' :: 'y' :: []) ++ (opNameOut nm vds ++
        directivesOut dirs ++ " " ++ "\x7b" ++ "\n" ++
        itemsOut w w ss.items ++ "\x7d").data, ?_, by decide⟩
      simp [defCore, OperationKind.as_str, String.data_append]
    | mutation =>
      refine ⟨'m', ('u' :: 't' :: 'a' :: 't' :: 'i' :: 'o' :: 'n' :: []) ++
        (opNameOut nm vds ++ directivesOut dirs ++ " " ++ "\x7b" ++ "\n" ++
          itemsOut w w ss.items ++ "\x7d").data, ?_, by decide⟩
      simp [defCore, OperationKind.as_str, String.data_append]
    | subscription =>
      refine ⟨'s', ('u' :: 'b' :: 's' :: 'c' :: 'r' :: 'i' :: 'p' :: 't' :: 'i' :: 'o' ::
        'n' :: []) ++ (opNameOut nm vds ++ directivesOut dirs ++ " " ++ "\x7b" ++
          "\n" ++ itemsOut w w ss.items ++ "\x7d").data, ?_, by decide⟩
      simp [defCore, OperationKind.as_str, String.data_append]
  · refine ⟨'f', ('r' :: 'a' :: 'g' :: 'm' :: 'e' :: 'n' :: 't' :: ' ' :: []) ++
      (x.name ++ " on " ++ x.type_condition ++ directivesOut x.directives ++ " " ++
        "\x7b" ++ "\n" ++ itemsOut w w x.selection_set.items ++ "\x7d").data, ?_,
      by decide⟩
    simp [defCore, String.data_append]


/-- The operation remainder begins with an ignored character. -/
theorem opNameThen_ws_head (nm : Option String) (vds : List VariableDefinition)
    (l : List Char) (hl : ∀ c, l.head? = some c → isWsChar c = true) :
    ∀ c, ((opNameOut nm vds).data ++ l).head? = some c → isWsChar c = true := by
  cases nm with
  | none =>
    intro c hc
    rw [show (opNameOut none vds).data ++ l = l from by simp [opNameOut]] at hc
    exact hl c hc
  | some n =>
    intro c hc
    rw [show (opNameOut (some n) vds).data ++ l =
        ' ' :: ((n ++ (match vds with
          | [] => ""
          | v :: tl => "(" ++ varDefOut v ++ varDefsTailOut tl ++ ")")).data ++ l) from by
      cases vds <;> simp [opNameOut, String.data_append]] at hc
    rw [List.head?_cons, Option.some_inj] at hc
    rw [← hc]
    decide

/-- Reading back one printed top-level definition. -/
theorem parseDefinition_rt : ∀ (d : Definition) (w fuel : Nat) (rest : List Char),
    wfDefinition d = true →
    defFuel d ≤ fuel →
    parseDefinition fuel ((defCore w d).data ++ ('\n' :: rest)) = some (d, '\n' :: rest)
  | .selectionSet ss, w, fuel, rest => by
    intro hwf hfuel
    obtain ⟨items⟩ := ss
    simp only [wfDefinition, SelectionSet.items] at hwf
    simp only [defFuel, SelectionSet.items] at hfuel
    obtain ⟨fu, rfl⟩ : ∃ k, fuel = k + 1 := ⟨fuel - 1, by omega⟩
    have hdata : (defCore w (Definition.selectionSet (SelectionSet.mk items))).data ++
        ('\n' :: rest) =
        '\x7b' :: ('\n' :: ((itemsOut w w items).data ++ ('\x7d' :: ('\n' :: rest)))) := by
      simp [defCore, SelectionSet.items, String.data_append]
    rw [hdata]
    simp only [parseDefinition]
    rw [skipWs_cons_not '\x7b' _ (by decide)]
    have hitemsP : parseSelectionItems fu ('\n' :: ((itemsOut w w items).data ++
        ('\x7d' :: ('\n' :: rest)))) = some (items, '\n' :: rest) := by
      rw [show ('\n' :: ((itemsOut w w items).data ++ ('\x7d' :: ('\n' :: rest)))) =
          ['\n'] ++ ((itemsOut w w items).data ++
            ((spacesStr 0).data ++ ('\x7d' :: ('\n' :: rest)))) from rfl,
        parseSelectionItems_ws fu ['\n'] _ (by decide)]
      exact parseSelectionItems_rt items w w 0 fu ('\n' :: rest) hwf (by omega)
    simp [hitemsP]
  | .operation op, w, fuel, rest => by
    intro hwf hfuel
    obtain ⟨kind, nm, vds, dirs, ss⟩ := op
    obtain ⟨items⟩ := ss
    simp only [wfDefinition] at hwf
    simp only [defFuel] at hfuel
    obtain ⟨fu, rfl⟩ : ∃ k, fuel = k + 1 := ⟨fuel - 1, by omega⟩
    have hws1 : ∀ c, ((opNameOut nm vds).data ++ ((directivesOut dirs).data ++
        (' ' :: '\x7b' :: ('\n' :: ((itemsOut w w items).data ++
          ('\x7d' :: ('\n' :: rest))))))).head? = some c → isWsChar c = true :=
      opNameThen_ws_head nm vds _ (dirsThen_ws_head dirs _ (head_ws ' ' _ (by decide)))
    have hopr : parseOperationRest kind fu ((opNameOut nm vds).data ++
        ((directivesOut dirs).data ++ (' ' :: '\x7b' :: ('\n' ::
          ((itemsOut w w items).data ++ ('\x7d' :: ('\n' :: rest))))))) =
        some (OperationDefinition.mk kind nm vds dirs (SelectionSet.mk items),
          '\n' :: rest) :=
      parseOperationRest_rt kind nm vds dirs items w fu rest hwf (by omega)
    cases kind with
    | query =>
      have hdata : (defCore w (Definition.operation (OperationDefinition.mk .query nm vds
          dirs (SelectionSet.mk items)))).data ++ ('\n' :: rest) =
          'q' :: 'u' :: 'e' :: 'r' :: 'y' :: ((opNameOut nm vds).data ++
            ((directivesOut dirs).data ++ (' ' :: '\x7b' :: ('\n' ::
              ((itemsOut w w items).data ++ ('\x7d' :: ('\n' :: rest))))))) := by
        simp [defCore, OperationKind.as_str, SelectionSet.items, String.data_append]
      rw [hdata]
      simp only [parseDefinition]
      rw [skipWs_cons_not 'q' _ (by decide)]
      have ht : takeName ('q' :: 'u' :: 'e' :: 'r' :: 'y' :: ((opNameOut nm vds).data ++
          ((directivesOut dirs).data ++ (' ' :: '\x7b' :: ('\n' ::
            ((itemsOut w w items).data ++ ('\x7d' :: ('\n' :: rest)))))))) =
          some ("query", (opNameOut nm vds).data ++
            ((directivesOut dirs).data ++ (' ' :: '\x7b' :: ('\n' ::
              ((itemsOut w w items).data ++ ('\x7d' :: ('\n' :: rest))))))) := by
        rw [show 'q' :: 'u' :: 'e' :: 'r' :: 'y' :: ((opNameOut nm vds).data ++
            ((directivesOut dirs).data ++ (' ' :: '\x7b' :: ('\n' ::
              ((itemsOut w w items).data ++ ('\x7d' :: ('\n' :: rest))))))) =
            ("query").data ++ ((opNameOut nm vds).data ++
              ((directivesOut dirs).data ++ (' ' :: '\x7b' :: ('\n' ::
                ((itemsOut w w items).data ++ ('\x7d' :: ('\n' :: rest))))))) from rfl]
        exact takeName_exact "query" _ (by decide)
          (fun c hc => isWs_not_nameChar c (hws1 c hc))
      simp [ht, hopr]
    | mutation =>
      have hdata : (defCore w (Definition.operation (OperationDefinition.mk .mutation nm
          vds dirs (SelectionSet.mk items)))).data ++ ('\n' :: rest) =
          'm' :: 'u' :: 't' :: 'a' :: 't' :: 'i' :: 'o' :: 'n' ::
            ((opNameOut nm vds).data ++
            ((directivesOut dirs).data ++ (' ' :: '\x7b' :: ('\n' ::
              ((itemsOut w w items).data ++ ('\x7d' :: ('\n' :: rest))))))) := by
        simp [defCore, OperationKind.as_str, SelectionSet.items, String.data_append]
      rw [hdata]
      simp only [parseDefinition]
      rw [skipWs_cons_not 'm' _ (by decide)]
      have ht : takeName ('m' :: 'u' :: 't' :: 'a' :: 't' :: 'i' :: 'o' :: 'n' ::
          ((opNameOut nm vds).data ++
          ((directivesOut dirs).data ++ (' ' :: '\x7b' :: ('\n' ::
            ((itemsOut w w items).data ++ ('\x7d' :: ('\n' :: rest)))))))) =
          some ("mutation", (opNameOut nm vds).data ++
            ((directivesOut dirs).data ++ (' ' :: '\x7b' :: ('\n' ::
              ((itemsOut w w items).data ++ ('\x7d' :: ('\n' :: rest))))))) := by
        rw [show 'm' :: 'u' :: 't' :: 'a' :: 't' :: 'i' :: 'o' :: 'n' ::
            ((opNameOut nm vds).data ++
            ((directivesOut dirs).data ++ (' ' :: '\x7b' :: ('\n' ::
              ((itemsOut w w items).data ++ ('\x7d' :: ('\n' :: rest))))))) =
            ("mutation").data ++ ((opNameOut nm vds).data ++
              ((directivesOut dirs).data ++ (' ' :: '\x7b' :: ('\n' ::
                ((itemsOut w w items).data ++ ('\x7d' :: ('\n' :: rest))))))) from rfl]
        exact takeName_exact "mutation" _ (by decide)
          (fun c hc => isWs_not_nameChar c (hws1 c hc))
      simp [ht, hopr]
    | subscription =>
      have hdata : (defCore w (Definition.operation (OperationDefinition.mk .subscription
          nm vds dirs (SelectionSet.mk items)))).data ++ ('\n' :: rest) =
          's' :: 'u' :: 'b' :: 's' :: 'c' :: 'r' :: 'i' :: 'p' :: 't' :: 'i' :: 'o' ::
            'n' :: ((opNameOut nm vds).data ++
            ((directivesOut dirs).data ++ (' ' :: '\x7b' :: ('\n' ::
              ((itemsOut w w items).data ++ ('\x7d' :: ('\n' :: rest))))))) := by
        simp [defCore, OperationKind.as_str, SelectionSet.items, String.data_append]
      rw [hdata]
      simp only [parseDefinition]
      rw [skipWs_cons_not 's' _ (by decide)]
      have ht : takeName ('s' :: 'u' :: 'b' :: 's' :: 'c' :: 'r' :: 'i' :: 'p' :: 't' ::
          'i' :: 'o' :: 'n' :: ((opNameOut nm vds).data ++
          ((directivesOut dirs).data ++ (' ' :: '\x7b' :: ('\n' ::
            ((itemsOut w w items).data ++ ('\x7d' :: ('\n' :: rest)))))))) =
          some ("subscription", (opNameOut nm vds).data ++
            ((directivesOut dirs).data ++ (' ' :: '\x7b' :: ('\n' ::
              ((itemsOut w w items).data ++ ('\x7d' :: ('\n' :: rest))))))) := by
        rw [show 's' :: 'u' :: 'b' :: 's' :: 'c' :: 'r' :: 'i' :: 'p' :: 't' :: 'i' ::
            'o' :: 'n' :: ((opNameOut nm vds).data ++
            ((directivesOut dirs).data ++ (' ' :: '\x7b' :: ('\n' ::
              ((itemsOut w w items).data ++ ('\x7d' :: ('\n' :: rest))))))) =
            ("subscription").data ++ ((opNameOut nm vds).data ++
              ((directivesOut dirs).data ++ (' ' :: '\x7b' :: ('\n' ::
                ((itemsOut w w items).data ++ ('\x7d' :: ('\n' :: rest))))))) from rfl]
        exact takeName_exact "subscription" _ (by decide)
          (fun c hc => isWs_not_nameChar c (hws1 c hc))
      simp [ht, hopr]
  | .fragment x, w, fuel, rest => by
    intro hwf hfuel
    obtain ⟨nm, tc, dirs, ss⟩ := x
    obtain ⟨items⟩ := ss
    simp only [wfDefinition, wfFragmentDefinition, SelectionSet.items,
      Bool.and_eq_true] at hwf
    obtain ⟨⟨⟨hnm, htc⟩, hdirs⟩, hitems⟩ := hwf
    simp only [defFuel, SelectionSet.items] at hfuel
    obtain ⟨fu, rfl⟩ : ∃ k, fuel = k + 1 := ⟨fuel - 1, by omega⟩
    obtain ⟨fb, rfl⟩ : ∃ k, fu = k + 1 := ⟨fu - 1, by omega⟩
    obtain ⟨cn, csn, hlan, hstartn, hcn⟩ := goodName_head nm hnm
    obtain ⟨ct, cst, hlat, hstartt, hct⟩ := goodName_head tc htc
    have hitemsP : parseSelectionItems fb ('\n' :: ((itemsOut w w items).data ++
        ('\x7d' :: ('\n' :: rest)))) = some (items, '\n' :: rest) := by
      rw [show ('\n' :: ((itemsOut w w items).data ++ ('\x7d' :: ('\n' :: rest)))) =
          ['\n'] ++ ((itemsOut w w items).data ++
            ((spacesStr 0).data ++ ('\x7d' :: ('\n' :: rest)))) from rfl,
        parseSelectionItems_ws fb ['\n'] _ (by decide)]
      exact parseSelectionItems_rt items w w 0 fb ('\n' :: rest) hitems (by omega)
    have hblk : parseBlock (fb + 1) (' ' :: '\x7b' :: ('\n' ::
        ((itemsOut w w items).data ++ ('\x7d' :: ('\n' :: rest))))) =
        some (items, '\n' :: rest) := by
      simp only [parseBlock]
      rw [skipWs_cons_ws ' ' _ (by decide), skipWs_cons_not '\x7b' _ (by decide)]
      simp [hitemsP]
    have hdr : parseDirectives (fb + 1) ((directivesOut dirs).data ++
        (' ' :: '\x7b' :: ('\n' :: ((itemsOut w w items).data ++
          ('\x7d' :: ('\n' :: rest)))))) =
        some (dirs, ' ' :: '\x7b' :: ('\n' :: ((itemsOut w w items).data ++
          ('\x7d' :: ('\n' :: rest))))) :=
      parseDirectives_rt dirs (fb + 1) _ hdirs (by omega) (head_ws ' ' _ (by decide))
        (fun c hc => by
          rw [skipWs_cons_ws ' ' _ (by decide), skipWs_cons_not '\x7b' _ (by decide)] at hc
          rw [List.head?_cons, Option.some_inj] at hc
          rw [← hc]
          decide)
    have hdata : (defCore w (Definition.fragment (FragmentDefinition.mk nm tc dirs
        (SelectionSet.mk items)))).data ++ ('\n' :: rest) =
        'f' :: 'r' :: 'a' :: 'g' :: 'm' :: 'e' :: 'n' :: 't' :: ' ' ::
          (nm.data ++ (' ' :: 'o' :: 'n' :: ' ' :: (tc.data ++
            ((directivesOut dirs).data ++ (' ' :: '\x7b' :: ('\n' ::
              ((itemsOut w w items).data ++ ('\x7d' :: ('\n' :: rest))))))))) := by
      simp [defCore, SelectionSet.items, String.data_append]
    rw [hdata]
    simp only [parseDefinition]
    rw [skipWs_cons_not 'f' _ (by decide)]
    have ht : takeName ('f' :: 'r' :: 'a' :: 'g' :: 'm' :: 'e' :: 'n' :: 't' :: ' ' ::
        (nm.data ++ (' ' :: 'o' :: 'n' :: ' ' :: (tc.data ++
          ((directivesOut dirs).data ++ (' ' :: '\x7b' :: ('\n' ::
            ((itemsOut w w items).data ++ ('\x7d' :: ('\n' :: rest)))))))))) =
        some ("fragment", ' ' :: (nm.data ++ (' ' :: 'o' :: 'n' :: ' ' :: (tc.data ++
          ((directivesOut dirs).data ++ (' ' :: '\x7b' :: ('\n' ::
            ((itemsOut w w items).data ++ ('\x7d' :: ('\n' :: rest)))))))))) := by
      rw [show 'f' :: 'r' :: 'a' :: 'g' :: 'm' :: 'e' :: 'n' :: 't' :: ' ' ::
          (nm.data ++ (' ' :: 'o' :: 'n' :: ' ' :: (tc.data ++
            ((directivesOut dirs).data ++ (' ' :: '\x7b' :: ('\n' ::
              ((itemsOut w w items).data ++ ('\x7d' :: ('\n' :: rest))))))))) =
          ("fragment").data ++ (' ' :: (nm.data ++ (' ' :: 'o' :: 'n' :: ' ' ::
            (tc.data ++ ((directivesOut dirs).data ++ (' ' :: '\x7b' :: ('\n' ::
              ((itemsOut w w items).data ++ ('\x7d' :: ('\n' :: rest)))))))))) from rfl]
      exact takeName_exact "fragment" _ (by decide) (head_boundary ' ' _ (by decide))
    have hsk2 : skipWs (' ' :: (nm.data ++ (' ' :: 'o' :: 'n' :: ' ' :: (tc.data ++
        ((directivesOut dirs).data ++ (' ' :: '\x7b' :: ('\n' ::
          ((itemsOut w w items).data ++ ('\x7d' :: ('\n' :: rest)))))))))) =
        nm.data ++ (' ' :: 'o' :: 'n' :: ' ' :: (tc.data ++
          ((directivesOut dirs).data ++ (' ' :: '\x7b' :: ('\n' ::
            ((itemsOut w w items).data ++ ('\x7d' :: ('\n' :: rest)))))))) := by
      rw [skipWs_cons_ws ' ' _ (by decide), hlan, List.cons_append,
        skipWs_cons_not _ _ (isNameChar_not_isWs cn hcn), ← List.cons_append, ← hlan]
    have ht2 : takeName (nm.data ++ (' ' :: 'o' :: 'n' :: ' ' :: (tc.data ++
        ((directivesOut dirs).data ++ (' ' :: '\x7b' :: ('\n' ::
          ((itemsOut w w items).data ++ ('\x7d' :: ('\n' :: rest)))))))))  =
        some (nm, ' ' :: 'o' :: 'n' :: ' ' :: (tc.data ++
          ((directivesOut dirs).data ++ (' ' :: '\x7b' :: ('\n' ::
            ((itemsOut w w items).data ++ ('\x7d' :: ('\n' :: rest)))))))) :=
      takeName_exact nm _ hnm (head_boundary ' ' _ (by decide))
    have hsk3 : skipWs (' ' :: 'o' :: 'n' :: ' ' :: (tc.data ++
        ((directivesOut dirs).data ++ (' ' :: '\x7b' :: ('\n' ::
          ((itemsOut w w items).data ++ ('\x7d' :: ('\n' :: rest)))))))) =
        'o' :: 'n' :: ' ' :: (tc.data ++
          ((directivesOut dirs).data ++ (' ' :: '\x7b' :: ('\n' ::
            ((itemsOut w w items).data ++ ('\x7d' :: ('\n' :: rest))))))) := by
      rw [skipWs_cons_ws ' ' _ (by decide), skipWs_cons_not 'o' _ (by decide)]
    have ht3 : takeName ('o' :: 'n' :: ' ' :: (tc.data ++
        ((directivesOut dirs).data ++ (' ' :: '\x7b' :: ('\n' ::
          ((itemsOut w w items).data ++ ('\x7d' :: ('\n' :: rest)))))))) =
        some ("on", ' ' :: (tc.data ++
          ((directivesOut dirs).data ++ (' ' :: '\x7b' :: ('\n' ::
            ((itemsOut w w items).data ++ ('\x7d' :: ('\n' :: rest)))))))) := by
      rw [show 'o' :: 'n' :: ' ' :: (tc.data ++
          ((directivesOut dirs).data ++ (' ' :: '\x7b' :: ('\n' ::
            ((itemsOut w w items).data ++ ('\x7d' :: ('\n' :: rest))))))) =
          ("on").data ++ (' ' :: (tc.data ++
            ((directivesOut dirs).data ++ (' ' :: '\x7b' :: ('\n' ::
              ((itemsOut w w items).data ++ ('\x7d' :: ('\n' :: rest)))))))) from rfl]
      exact takeName_exact "on" _ (by decide) (head_boundary ' ' _ (by decide))
    have hsk4 : skipWs (' ' :: (tc.data ++
        ((directivesOut dirs).data ++ (' ' :: '\x7b' :: ('\n' ::
          ((itemsOut w w items).data ++ ('\x7d' :: ('\n' :: rest)))))))) =
        tc.data ++ ((directivesOut dirs).data ++ (' ' :: '\x7b' :: ('\n' ::
          ((itemsOut w w items).data ++ ('\x7d' :: ('\n' :: rest)))))) := by
      rw [skipWs_cons_ws ' ' _ (by decide), hlat, List.cons_append,
        skipWs_cons_not _ _ (isNameChar_not_isWs ct hct), ← List.cons_append, ← hlat]
    have ht4 : takeName (tc.data ++ ((directivesOut dirs).data ++
        (' ' :: '\x7b' :: ('\n' :: ((itemsOut w w items).data ++
          ('\x7d' :: ('\n' :: rest))))))) =
        some (tc, (directivesOut dirs).data ++ (' ' :: '\x7b' :: ('\n' ::
          ((itemsOut w w items).data ++ ('\x7d' :: ('\n' :: rest)))))) :=
      takeName_exact tc _ htc (dirsThen_boundary dirs _ (head_ws ' ' _ (by decide)))
    simp [ht, hsk2, ht2, hsk3, ht3, hsk4, ht4, hdr, hblk]


/-- Ignored input is consumed to nothing. -/
theorem skipWs_all (pad : List Char) (h : ∀ c ∈ pad, isWsChar c = true) :
    skipWs pad = [] := by
  have h2 := skipWs_append_ws pad [] h
  simpa using h2

/-- Reading back a printed definition list consumes the whole input. -/
theorem parseDefinitions_rt : ∀ (defs : List Definition) (w : Nat) (first : Bool)
    (fuel : Nat) (pad : List Char),
    wfDefinitions defs = true →
    defsFuel defs ≤ fuel →
    (∀ c ∈ pad, isWsChar c = true) →
    parseDefinitions fuel ((defsOut w first defs).data ++ pad) = some (defs, [])
  | [], w, first, fuel, pad => by
    intro hwf hfuel hpad
    simp only [defsFuel] at hfuel
    obtain ⟨fu, rfl⟩ : ∃ k, fuel = k + 1 := ⟨fuel - 1, by omega⟩
    rw [show (defsOut w first ([] : List Definition)).data ++ pad = pad from by
      simp [defsOut]]
    simp only [parseDefinitions]
    rw [skipWs_all pad hpad]
  | d :: tl, w, first, fuel, pad => by
    intro hwf hfuel hpad
    simp only [wfDefinitions, Bool.and_eq_true] at hwf
    obtain ⟨hwd, hwtl⟩ := hwf
    simp only [defsFuel] at hfuel
    obtain ⟨fu, rfl⟩ : ∃ k, fuel = k + 1 := ⟨fuel - 1, by omega⟩
    obtain ⟨c0, cs0, hcd, hnws⟩ := defCore_head w d
    have hdata : (defsOut w first (d :: tl)).data ++ pad =
        (if first then ([] : List Char) else ['\n']) ++
          (c0 :: (cs0 ++ ('\n' :: ((defsOut w false tl).data ++ pad)))) := by
      simp only [defsOut]
      rw [String.data_append, defOut_data]
      simp [hcd]
    rw [hdata]
    simp only [parseDefinitions]
    have hsk : skipWs ((if first then ([] : List Char) else ['\n']) ++
        (c0 :: (cs0 ++ ('\n' :: ((defsOut w false tl).data ++ pad))))) =
        c0 :: (cs0 ++ ('\n' :: ((defsOut w false tl).data ++ pad))) := by
      rw [skipWs_append_ws _ _ (by
        cases first <;> simp [isWsChar]), skipWs_cons_not _ _ hnws]
    have hdef : parseDefinition fu (c0 :: (cs0 ++ ('\n' ::
        ((defsOut w false tl).data ++ pad)))) =
        some (d, '\n' :: ((defsOut w false tl).data ++ pad)) := by
      rw [show c0 :: (cs0 ++ ('\n' :: ((defsOut w false tl).data ++ pad))) =
          (defCore w d).data ++ ('\n' :: ((defsOut w false tl).data ++ pad)) from by
        rw [hcd]
        rfl]
      exact parseDefinition_rt d w fu _ hwd (by omega)
    have htl : parseDefinitions fu ('\n' :: ((defsOut w false tl).data ++ pad)) =
        some (tl, []) := by
      rw [show ('\n' :: ((defsOut w false tl).data ++ pad)) =
          ['\n'] ++ ((defsOut w false tl).data ++ pad) from rfl,
        parseDefinitions_ws fu ['\n'] _ (by decide)]
      exact parseDefinitions_rt tl w false fu pad hwtl (by omega) hpad
    simp [hsk, hdef, htl]


/-- A well-formed printed value is nonempty. -/
theorem valueOut_length_pos (v : Value) (h : wfValue v = true) :
    1 ≤ (valueOut v).data.length := by
  obtain ⟨c, cs, hcd, -⟩ := valueOut_head v h
  rw [hcd]
  simp

mutual

/-- The value fuel measure is bounded by the printed length. -/
theorem valueFuel_le : ∀ (v : Value), wfValue v = true →
    valueFuel v ≤ (valueOut v).data.length
  | .variable n, h => by
    have hlen : (valueOut (Value.variable n)).data.length = n.data.length + 1 := by
      simp [valueOut, String.data_append]
    simp only [valueFuel]
    omega
  | .int n, h => by
    simp only [valueFuel]
    exact valueOut_length_pos (Value.int n) h
  | .float t, h => by
    simp only [valueFuel]
    exact valueOut_length_pos (Value.float t) h
  | .string s, h => by
    simp only [valueFuel]
    exact valueOut_length_pos (Value.string s) h
  | .boolean b, h => by
    simp only [valueFuel]
    exact valueOut_length_pos (Value.boolean b) h
  | .null, h => by
    simp only [valueFuel]
    exact valueOut_length_pos Value.null h
  | .enum n, h => by
    simp only [valueFuel]
    exact valueOut_length_pos (Value.enum n) h
  | .list [], h => by
    simp only [valueFuel, valueItemsFuel]
    have hlen : (valueOut (Value.list [])).data.length = 2 := by
      simp [valueOut, String.data_append]
    omega
  | .list (x :: xs), h => by
    simp only [wfValue, wfValueList, Bool.and_eq_true] at h
    obtain ⟨hx, hxs⟩ := h
    have h1 := valueFuel_le x hx
    have h2 := valueItemsFuel_le xs hxs
    have h3 := valueOut_length_pos x hx
    have hlen : (valueOut (Value.list (x :: xs))).data.length =
        2 + (valueOut x).data.length + (valueListTailOut xs).data.length := by
      simp [valueOut, String.data_append]
      omega
    simp only [valueFuel, valueItemsFuel]
    omega
  | .object [], h => by
    simp only [valueFuel, objectFieldsFuel]
    have hlen : (valueOut (Value.object [])).data.length = 2 := by
      simp [valueOut, String.data_append]
    omega
  | .object ((n, v) :: fs), h => by
    simp only [wfValue, wfValueFields, Bool.and_eq_true] at h
    obtain ⟨⟨hn, hv⟩, hfs⟩ := h
    have h1 := valueFuel_le v hv
    have h2 := objectFieldsFuel_le fs hfs
    have h3 := valueOut_length_pos v hv
    have hlen : (valueOut (Value.object ((n, v) :: fs))).data.length =
        4 + n.data.length + (valueOut v).data.length +
          (valueObjectTailOut fs).data.length := by
      simp [valueOut, String.data_append]
      omega
    simp only [valueFuel, objectFieldsFuel]
    omega

/-- The list-element fuel measure is bounded by the printed tail. -/
theorem valueItemsFuel_le : ∀ (its : List Value), wfValueList its = true →
    valueItemsFuel its ≤ (valueListTailOut its).data.length + 1
  | [], h => by
    simp only [valueItemsFuel]
    omega
  | y :: ys, h => by
    simp only [wfValueList, Bool.and_eq_true] at h
    obtain ⟨hy, hys⟩ := h
    have h1 := valueFuel_le y hy
    have h2 := valueItemsFuel_le ys hys
    have hlen : (valueListTailOut (y :: ys)).data.length =
        2 + (valueOut y).data.length + (valueListTailOut ys).data.length := by
      simp [valueListTailOut, String.data_append]
      omega
    simp only [valueItemsFuel]
    omega

/-- The object-field fuel measure is bounded by the printed tail. -/
theorem objectFieldsFuel_le : ∀ (fs : List (String × Value)), wfValueFields fs = true →
    objectFieldsFuel fs ≤ (valueObjectTailOut fs).data.length + 1
  | [], h => by
    simp only [objectFieldsFuel]
    omega
  | (n, v) :: fs2, h => by
    simp only [wfValueFields, Bool.and_eq_true] at h
    obtain ⟨⟨hn, hv⟩, hfs⟩ := h
    have h1 := valueFuel_le v hv
    have h2 := objectFieldsFuel_le fs2 hfs
    have hlen : (valueObjectTailOut ((n, v) :: fs2)).data.length =
        4 + n.data.length + (valueOut v).data.length +
          (valueObjectTailOut fs2).data.length := by
      simp [valueObjectTailOut, String.data_append]
      omega
    simp only [objectFieldsFuel]
    omega

end

/-- The argument-loop fuel measure is bounded by the printed tail. -/
theorem argumentsRestFuel_le : ∀ (args : List (String × Value)),
    wfArguments args = true →
    argumentsRestFuel args ≤ (argumentsTailOut args).data.length + 1
  | [], h => by
    simp only [argumentsRestFuel]
    omega
  | (n, v) :: tl, h => by
    simp only [wfArguments, Bool.and_eq_true] at h
    obtain ⟨⟨hn, hv⟩, htl⟩ := h
    have h1 := valueFuel_le v hv
    have h2 := argumentsRestFuel_le tl htl
    have hlen : (argumentsTailOut ((n, v) :: tl)).data.length =
        4 + n.data.length + (valueOut v).data.length +
          (argumentsTailOut tl).data.length := by
      simp [argumentsTailOut, String.data_append]
      omega
    simp only [argumentsRestFuel]
    omega

/-- The optional-argument fuel bound against the full printed list. -/
theorem argumentsOptFuel_le (args : List (String × Value)) (h : wfArguments args = true) :
    1 + argumentsRestFuel args ≤ (argumentsOut args).data.length + 2 := by
  cases args with
  | nil =>
    simp only [argumentsRestFuel]
    omega
  | cons p tl =>
    obtain ⟨n, v⟩ := p
    simp only [wfArguments, Bool.and_eq_true] at h
    obtain ⟨⟨hn, hv⟩, htl⟩ := h
    have h1 := valueFuel_le v hv
    have h2 := argumentsRestFuel_le tl htl
    have hlen : (argumentsOut ((n, v) :: tl)).data.length =
        4 + n.data.length + (valueOut v).data.length +
          (argumentsTailOut tl).data.length := by
      simp [argumentsOut, String.data_append]
      omega
    simp only [argumentsRestFuel]
    omega

/-- The directive-loop fuel measure is bounded by the printed text. -/
theorem directivesFuel_le : ∀ (dirs : List Directive), wfDirectives dirs = true →
    directivesFuel dirs ≤ (directivesOut dirs).data.length + 1
  | [], h => by
    simp only [directivesFuel]
    omega
  | d :: tl, h => by
    obtain ⟨dn, dargs⟩ := d
    simp only [wfDirectives, wfDirective, Bool.and_eq_true] at h
    obtain ⟨⟨hn, hargs⟩, htl⟩ := h
    have h1 := argumentsOptFuel_le dargs hargs
    have h2 := directivesFuel_le tl htl
    have hlen : (directivesOut (Directive.mk dn dargs :: tl)).data.length =
        2 + dn.data.length + (argumentsOut dargs).data.length +
          (directivesOut tl).data.length := by
      simp [directivesOut, directiveOut, String.data_append]
      omega
    simp only [directivesFuel]
    omega


/-- A printed selection is nonempty. -/
theorem selOut_length_pos (w ind : Nat) (s : Selection) :
    1 ≤ (selOut w ind s).data.length := by
  rw [selOut_data]
  simp
  omega

mutual

/-- The selection fuel measure is bounded by the printed length. -/
theorem selFuel_le : ∀ (s : Selection) (w ind : Nat), wfSelection s = true →
    selFuel s ≤ (selOut w ind s).data.length + 2
  | .field (.mk alias_ name args dirs (.mk items)), w, ind, h => by
    simp only [wfSelection, wfField, Bool.and_eq_true] at h
    obtain ⟨⟨⟨⟨hal, hnm⟩, hargs⟩, hdirs⟩, hitems⟩ := h
    have h1 := argumentsOptFuel_le args hargs
    have h2 := directivesFuel_le dirs hdirs
    have h3 := selItemsFuel_le items w (ind + w) hitems
    cases items with
    | nil =>
      have hlen : (selOut w ind (Selection.field (Field.mk alias_ name args dirs
          (SelectionSet.mk [])))).data.length =
          ind + (aliasOut alias_).data.length + name.data.length +
            (argumentsOut args).data.length + (directivesOut dirs).data.length + 1 := by
        simp [selOut, fieldOut, spacesStr, String.data_append]
        omega
      simp only [selFuel, selItemsFuel]
      omega
    | cons x xs =>
      have hlen : (selOut w ind (Selection.field (Field.mk alias_ name args dirs
          (SelectionSet.mk (x :: xs))))).data.length =
          ind + (aliasOut alias_).data.length + name.data.length +
            (argumentsOut args).data.length + (directivesOut dirs).data.length +
            (itemsOut w (ind + w) (x :: xs)).data.length + ind + 5 := by
        simp [selOut, fieldOut, spacesStr, String.data_append]
        omega
      simp only [selFuel]
      omega
  | .inlineFragment (.mk tc dirs (.mk items)), w, ind, h => by
    simp only [wfSelection, wfInlineFragment, Bool.and_eq_true] at h
    obtain ⟨⟨htc, hdirs⟩, hitems⟩ := h
    have h2 := directivesFuel_le dirs hdirs
    have h3 := selItemsFuel_le items w (ind + w) hitems
    have hlen : (selOut w ind (Selection.inlineFragment (InlineFragment.mk tc dirs
        (SelectionSet.mk items)))).data.length =
        ind + 3 + (typeCondOut tc).data.length + (directivesOut dirs).data.length +
          (itemsOut w (ind + w) items).data.length + ind + 5 := by
      simp [selOut, inlineFragOut, spacesStr, String.data_append]
      omega
    simp only [selFuel]
    omega
  | .fragmentSpread sp, w, ind, h => by
    obtain ⟨sn, sdirs⟩ := sp
    simp only [wfSelection, Bool.and_eq_true] at h
    obtain ⟨⟨hgn, hon⟩, hdirs⟩ := h
    have h2 := directivesFuel_le sdirs hdirs
    have hlen : (selOut w ind (Selection.fragmentSpread
        (FragmentSpread.mk sn sdirs))).data.length =
        ind + 3 + sn.data.length + (directivesOut sdirs).data.length + 1 := by
      simp [selOut, spacesStr, String.data_append]
      omega
    simp only [selFuel]
    omega

/-- The selection-loop fuel measure is bounded by the printed length. -/
theorem selItemsFuel_le : ∀ (its : List Selection) (w ind : Nat),
    wfSelectionList its = true →
    selItemsFuel its ≤ (itemsOut w ind its).data.length + 3
  | [], w, ind, h => by
    simp only [selItemsFuel]
    omega
  | s :: tl, w, ind, h => by
    simp only [wfSelectionList, Bool.and_eq_true] at h
    obtain ⟨hs, htl⟩ := h
    have h1 := selFuel_le s w ind hs
    have h2 := selItemsFuel_le tl w ind htl
    have h3 := selOut_length_pos w ind s
    have hlen : (itemsOut w ind (s :: tl)).data.length =
        (selOut w ind s).data.length + (itemsOut w ind tl).data.length := by
      simp [itemsOut, String.data_append]
    simp only [selItemsFuel]
    omega

end

/-- The type fuel measure is bounded by the printed length. -/
theorem typeFuel_le : ∀ (t : GqlType), wfType t = true →
    typeFuel t ≤ (typeOut t).data.length
  | .namedType n, h => by
    obtain ⟨c, cs, hl, -, -⟩ := goodName_head n h
    have hlen : (typeOut (GqlType.namedType n)).data.length = n.data.length := by
      simp [typeOut]
    simp only [typeFuel]
    rw [hlen, hl]
    simp
  | .listType t1, h => by
    simp only [wfType] at h
    have h1 := typeFuel_le t1 h
    have hlen : (typeOut (GqlType.listType t1)).data.length =
        (typeOut t1).data.length + 2 := by
      simp [typeOut, String.data_append]
    simp only [typeFuel]
    omega
  | .nonNullType t1, h => by
    simp only [wfType, Bool.and_eq_true] at h
    obtain ⟨h1, -⟩ := h
    have h2 := typeFuel_le t1 h1
    have hlen : (typeOut (GqlType.nonNullType t1)).data.length =
        (typeOut t1).data.length + 1 := by
      simp [typeOut, String.data_append]
    simp only [typeFuel]
    omega

/-- The variable-definition fuel measure is bounded by the printed
tail. -/
theorem varDefsRestFuel_le : ∀ (vds : List VariableDefinition),
    wfVariableDefinitions vds = true →
    varDefsRestFuel vds ≤ (varDefsTailOut vds).data.length + 2
  | [], h => by
    simp only [varDefsRestFuel]
    omega
  | v :: tl, h => by
    obtain ⟨nm, ty, dv⟩ := v
    simp only [wfVariableDefinitions, wfVariableDefinition, Bool.and_eq_true] at h
    obtain ⟨⟨⟨hnm, hty⟩, hdv⟩, htl⟩ := h
    have h1 := typeFuel_le ty hty
    have h2 := varDefsRestFuel_le tl htl
    cases dv with
    | none =>
      have hlen : (varDefsTailOut (VariableDefinition.mk nm ty none :: tl)).data.length =
          5 + nm.data.length + (typeOut ty).data.length +
            (varDefsTailOut tl).data.length := by
        simp [varDefsTailOut, varDefOut, String.data_append]
        omega
      simp only [varDefsRestFuel]
      omega
    | some d =>
      have h3 := valueFuel_le d hdv
      have hlen : (varDefsTailOut
          (VariableDefinition.mk nm ty (some d) :: tl)).data.length =
          8 + nm.data.length + (typeOut ty).data.length + (valueOut d).data.length +
            (varDefsTailOut tl).data.length := by
        simp [varDefsTailOut, varDefOut, String.data_append]
        omega
      simp only [varDefsRestFuel]
      omega


/-- The operation-name fuel bound against the printed name part. -/
theorem opNameFuel_le (nm : Option String) (vds : List VariableDefinition)
    (hn : (match nm with
      | some n => goodNameB n
      | none => vds.isEmpty) = true)
    (hv : wfVariableDefinitions vds = true) :
    varDefsRestFuel vds ≤ (opNameOut nm vds).data.length + 2 := by
  cases nm with
  | none =>
    have : vds = [] := by
      cases vds with
      | nil => rfl
      | cons a b => simp at hn
    subst this
    simp only [varDefsRestFuel]
    omega
  | some n =>
    cases vds with
    | nil =>
      simp only [varDefsRestFuel]
      omega
    | cons v tl =>
      obtain ⟨vn, vt, vd⟩ := v
      simp only [wfVariableDefinitions, wfVariableDefinition, Bool.and_eq_true] at hv
      obtain ⟨⟨⟨hvn, hvt⟩, hvd⟩, htl⟩ := hv
      have h1 := typeFuel_le vt hvt
      have h2 := varDefsRestFuel_le tl htl
      cases vd with
      | none =>
        have hlen : (opNameOut (some n)
            (VariableDefinition.mk vn vt none :: tl)).data.length =
            6 + n.data.length + vn.data.length + (typeOut vt).data.length +
              (varDefsTailOut tl).data.length := by
          simp [opNameOut, varDefOut, String.data_append]
          omega
        simp only [varDefsRestFuel]
        omega
      | some d =>
        have h3 := valueFuel_le d hvd
        have hlen : (opNameOut (some n)
            (VariableDefinition.mk vn vt (some d) :: tl)).data.length =
            9 + n.data.length + vn.data.length + (typeOut vt).data.length +
              (valueOut d).data.length + (varDefsTailOut tl).data.length := by
          simp [opNameOut, varDefOut, String.data_append]
          omega
        simp only [varDefsRestFuel]
        omega

/-- The definition fuel measure is bounded by the printed length. -/
theorem defFuel_le (d : Definition) (w : Nat) (first : Bool) (h : wfDefinition d = true) :
    defFuel d ≤ (defOut w 0 first d).data.length := by
  have hpref : ((if first then ([] : List Char) else ['\n'])).length ≤ 1 := by
    cases first <;> simp
  have hout : (defOut w 0 first d).data.length =
      (if first then ([] : List Char) else ['\n']).length +
        ((defCore w d).data.length + 1) := by
    rw [defOut_data]
    simp
  rcases d with ss | op | x
  · obtain ⟨items⟩ := ss
    simp only [wfDefinition, SelectionSet.items] at h
    have h1 := selItemsFuel_le items w w h
    have hlen : (defCore w (Definition.selectionSet
        (SelectionSet.mk items))).data.length =
        3 + (itemsOut w w items).data.length := by
      simp [defCore, SelectionSet.items, String.data_append]
      omega
    simp only [defFuel, SelectionSet.items]
    omega
  · obtain ⟨kind, nm, vds, dirs, ss⟩ := op
    obtain ⟨items⟩ := ss
    simp only [wfDefinition, wfOperation, SelectionSet.items, Bool.and_eq_true] at h
    obtain ⟨⟨⟨hnm, hvds⟩, hdirs⟩, hitems⟩ := h
    have h1 := opNameFuel_le nm vds hnm hvds
    have h2 := directivesFuel_le dirs hdirs
    have h3 := selItemsFuel_le items w w hitems
    have hkind : 5 ≤ (OperationKind.as_str kind).data.length := by
      cases kind <;> simp [OperationKind.as_str]
    have hlen : (defCore w (Definition.operation (OperationDefinition.mk kind nm
        vds dirs (SelectionSet.mk items)))).data.length =
        (OperationKind.as_str kind).data.length +
          (opNameOut nm vds).data.length + (directivesOut dirs).data.length +
          (itemsOut w w items).data.length + 4 := by
      simp [defCore, SelectionSet.items, String.data_append]
      omega
    simp only [defFuel, opRestFuel, SelectionSet.items]
    omega
  · obtain ⟨nm, tc, dirs, ss⟩ := x
    obtain ⟨items⟩ := ss
    simp only [wfDefinition, wfFragmentDefinition, SelectionSet.items,
      Bool.and_eq_true] at h
    obtain ⟨⟨⟨hnm, htc⟩, hdirs⟩, hitems⟩ := h
    have h2 := directivesFuel_le dirs hdirs
    have h3 := selItemsFuel_le items w w hitems
    have hlen : (defCore w (Definition.fragment (FragmentDefinition.mk nm tc dirs
        (SelectionSet.mk items)))).data.length =
        13 + nm.data.length + tc.data.length +
          (directivesOut dirs).data.length + (itemsOut w w items).data.length + 4 := by
      simp [defCore, SelectionSet.items, String.data_append]
      omega
    simp only [defFuel, SelectionSet.items]
    omega

/-- The definition-loop fuel measure is bounded by the printed length. -/
theorem defsFuel_le : ∀ (defs : List Definition) (w : Nat) (first : Bool),
    wfDefinitions defs = true →
    defsFuel defs ≤ (defsOut w first defs).data.length + 1
  | [], w, first, h => by
    simp only [defsFuel]
    omega
  | d :: tl, w, first, h => by
    simp only [wfDefinitions, Bool.and_eq_true] at h
    obtain ⟨hd, htl⟩ := h
    have h1 := defFuel_le d w first hd
    have h2 := defsFuel_le tl w false htl
    have h3 : 1 ≤ (defOut w 0 first d).data.length :=
      defOut_length_pos w 0 first d
    have hlen : (defsOut w first (d :: tl)).data.length =
        (defOut w 0 first d).data.length + (defsOut w false tl).data.length := by
      simp [defsOut, String.data_append]
    simp only [defsFuel]
    omega


/-- C5: for every string the formatter emits for a well-formed document
(the form of every Fetch.operation string the planner serializes),
parsing that string succeeds and re-serializing the parse result with
the same style yields the identical string: formatting composed with
parsing is idempotent on formatter output. -/
theorem fetch_operation_roundtrip (style : Style) (d : Document)
    (h : wfDocument d = true) :
    ∃ d2, parse_query (d.format style) = some d2 ∧
      d2.format style = d.format style := by
  refine ⟨d, ?_, rfl⟩
  obtain ⟨defs⟩ := d
  have hw : wfDefinitions defs = true := h
  rw [Document.format_out]
  have hdoc : docOut style.indent (Document.mk defs) =
      defsOut style.indent true defs := rfl
  rw [hdoc]
  have hfuel : defsFuel defs ≤ (defsOut style.indent true defs).length + 1 :=
    defsFuel_le defs style.indent true hw
  have hp := parseDefinitions_rt defs style.indent true
    ((defsOut style.indent true defs).length + 1) [] hw hfuel (by simp)
  simp only [parse_query]
  rw [show (defsOut style.indent true defs).data =
    (defsOut style.indent true defs).data ++ [] from (List.append_nil _).symm]
  rw [hp]
  rfl


/-- C5 witness: the round trip is realized on a concrete document. -/
theorem fetch_operation_roundtrip_witness :
    wfDocument sampleDocument = true ∧
    ∃ d2, parse_query (sampleDocument.format Style.default) = some d2 ∧
      d2.format Style.default = sampleDocument.format Style.default :=
  ⟨by decide, fetch_operation_roundtrip Style.default sampleDocument (by decide)⟩

end Fed
